import Mathlib

/-!
# sladder gossip engine: SWIM tag codec, merge rules and tag transactions

A shallow embedding of `engine/gossip/states.go`.

* A Go `string` is an immutable byte sequence; it is embedded as a list of byte
  values (`GoString`).  Unsigned machine integers are natural numbers with the
  wrap-around written explicitly where the source can overflow.
* `SWIMTag.Encode` and `SWIMTag.Decode` call `encoding/json`.  The part of the
  standard library they exercise is embedded below: `utf8.DecodeRune`,
  `utf8.EncodeRune`, the JSON string writer, the JSON scanner (grammar and
  nesting limit), literal unquoting and the reflection-driven store of a JSON
  value into a struct with three tagged fields.
* Loops over a string carry a fuel argument started at the length of the
  input; every iteration consumes at least one byte, so the fuel outlasts the
  input.
* Logging calls (`c.engine.log.Warn`) have no effect on the values computed
  and are left out.
-/

namespace Sladder

/-! ## Go strings -/

/-- A Go string: a sequence of bytes, each element a value in `0..255`. -/
abbrev GoString := List Nat

/-- The bytes of an ASCII string literal. -/
def ascii (s : String) : GoString := s.toList.map Char.toNat

/-! ## unicode/utf8 -/

/-- Constant `utf8.RuneError` (U+FFFD). -/
def RuneError : Nat := 0xFFFD

/-- Constant `utf8.MaxRune`. -/
def MaxRune : Nat := 0x10FFFF

/-- A UTF-8 continuation byte, `0x80..0xBF`. -/
def isCont (b : Nat) : Bool := decide (0x80 ≤ b ∧ b ≤ 0xBF)

/-- Function `utf8.DecodeRune`: the first rune of `s` and its width in bytes.
Malformed or truncated input gives `(RuneError, 1)`, empty input
`(RuneError, 0)`.  The accepted second-byte ranges are those of the
`acceptRanges` table; masks and shifts are written with `%`, `*`. -/
def decodeRune : GoString → Nat × Nat
  | [] => (RuneError, 0)
  | b0 :: rest =>
    if b0 < 0x80 then (b0, 1)
    else if 0xC2 ≤ b0 ∧ b0 ≤ 0xDF then
      match rest with
      | b1 :: _ =>
        if isCont b1 then ((b0 % 32) * 64 + b1 % 64, 2) else (RuneError, 1)
      | _ => (RuneError, 1)
    else if 0xE0 ≤ b0 ∧ b0 ≤ 0xEF then
      match rest with
      | b1 :: b2 :: _ =>
        if (if b0 = 0xE0 then 0xA0 else 0x80) ≤ b1
            ∧ b1 ≤ (if b0 = 0xED then 0x9F else 0xBF) ∧ isCont b2 then
          ((b0 % 16) * 4096 + (b1 % 64) * 64 + b2 % 64, 3)
        else (RuneError, 1)
      | _ => (RuneError, 1)
    else if 0xF0 ≤ b0 ∧ b0 ≤ 0xF4 then
      match rest with
      | b1 :: b2 :: b3 :: _ =>
        if (if b0 = 0xF0 then 0x90 else 0x80) ≤ b1
            ∧ b1 ≤ (if b0 = 0xF4 then 0x8F else 0xBF) ∧ isCont b2 ∧ isCont b3 then
          ((b0 % 8) * 262144 + (b1 % 64) * 4096 + (b2 % 64) * 64 + b3 % 64, 4)
        else (RuneError, 1)
      | _ => (RuneError, 1)
    else (RuneError, 1)

/-- Function `utf8.EncodeRune`: the UTF-8 bytes of a rune; surrogates and
runes above `MaxRune` are written as U+FFFD. -/
def encodeRune (r : Nat) : GoString :=
  if r ≤ 0x7F then [r]
  else if r ≤ 0x7FF then [0xC0 + r / 64, 0x80 + r % 64]
  else if MaxRune < r ∨ (0xD800 ≤ r ∧ r ≤ 0xDFFF) then [0xEF, 0xBF, 0xBD]
  else if r ≤ 0xFFFF then [0xE0 + r / 4096, 0x80 + (r / 64) % 64, 0x80 + r % 64]
  else [0xF0 + r / 262144, 0x80 + (r / 4096) % 64, 0x80 + (r / 64) % 64, 0x80 + r % 64]

/-- Loop of `utf8.ValidString`: every position decodes to a rune other than
the `(RuneError, 1)` produced for malformed input.  One unit of fuel is spent
per rune. -/
def validLoop : Nat → GoString → Bool
  | _, [] => true
  | 0, _ :: _ => false
  | fuel + 1, b :: rest =>
    if (decodeRune (b :: rest)).1 = RuneError ∧ (decodeRune (b :: rest)).2 = 1 then false
    else validLoop fuel ((b :: rest).drop (decodeRune (b :: rest)).2)

/-- Function `utf8.ValidString`. -/
def utf8ValidString (s : GoString) : Bool := validLoop s.length s

/-! ## encoding/json: writing -/

/-- Table `hex` of `encoding/json`: the lower-case hexadecimal digit of a nibble. -/
def hexDigit (n : Nat) : Nat := if n < 10 then 0x30 + n else 0x61 + (n - 10)

/-- Table `htmlSafeSet`: the ASCII bytes written without escaping when HTML
escaping is on (the default of `json.Marshal`). -/
def htmlSafe (b : Nat) : Bool :=
  decide (0x20 ≤ b ∧ b < 0x80 ∧ b ≠ 0x22 ∧ b ≠ 0x26 ∧ b ≠ 0x3C ∧ b ≠ 0x3E ∧ b ≠ 0x5C)

/-- The escape written by `appendString` for an ASCII byte outside
`htmlSafeSet`.  Releases before Go 1.22 write `\u0008` and `\u000c` where
this writes `\b` and `\f`; both spellings read back as the same byte. -/
def escapeByte (b : Nat) : GoString :=
  if b = 0x5C ∨ b = 0x22 then [0x5C, b]
  else if b = 0x08 then [0x5C, 0x62]
  else if b = 0x0C then [0x5C, 0x66]
  else if b = 0x0A then [0x5C, 0x6E]
  else if b = 0x0D then [0x5C, 0x72]
  else if b = 0x09 then [0x5C, 0x74]
  else [0x5C, 0x75, 0x30, 0x30, hexDigit (b / 16), hexDigit (b % 16)]

/-- Body of the loop of `appendString(dst, src, escapeHTML = true)`: the bytes
written between the two quotes. -/
def appendStringLoop : Nat → GoString → GoString
  | _, [] => []
  | 0, _ :: _ => []
  | fuel + 1, b :: rest =>
    if b < 0x80 then
      (if htmlSafe b then [b] else escapeByte b) ++ appendStringLoop fuel rest
    else if (decodeRune (b :: rest)).1 = RuneError ∧ (decodeRune (b :: rest)).2 = 1 then
      ascii "\\ufffd" ++ appendStringLoop fuel rest
    else if (decodeRune (b :: rest)).1 = 0x2028 ∨ (decodeRune (b :: rest)).1 = 0x2029 then
      ascii "\\u202" ++ [hexDigit ((decodeRune (b :: rest)).1 % 16)]
        ++ appendStringLoop fuel ((b :: rest).drop (decodeRune (b :: rest)).2)
    else
      (b :: rest).take (decodeRune (b :: rest)).2
        ++ appendStringLoop fuel ((b :: rest).drop (decodeRune (b :: rest)).2)

/-- Function `appendString`: a Go string as a quoted JSON string. -/
def appendString (src : GoString) : GoString :=
  [0x22] ++ appendStringLoop src.length src ++ [0x22]

/-- Loop of `strconv.AppendUint(dst, n, 10)`: decimal digits, most significant first. -/
def formatUintLoop : Nat → Nat → GoString → GoString
  | 0, _, acc => acc
  | fuel + 1, n, acc =>
    if n < 10 then (0x30 + n) :: acc
    else formatUintLoop fuel (n / 10) ((0x30 + n % 10) :: acc)

/-- Function `strconv.AppendUint(nil, n, 10)`. -/
def formatUint (n : Nat) : GoString := formatUintLoop (n + 1) n []

/-! ## encoding/json: reading -/

/-- Function `isSpace` of the JSON scanner. -/
def isSpace (c : Nat) : Bool := decide (c = 0x20 ∨ c = 0x09 ∨ c = 0x0D ∨ c = 0x0A)

/-- Skip insignificant white space. -/
def skipSpace : GoString → GoString
  | [] => []
  | c :: rest => if isSpace c then skipSpace rest else c :: rest

/-- The value of a hexadecimal digit, as in `getu4`. -/
def hexVal (c : Nat) : Option Nat :=
  if 0x30 ≤ c ∧ c ≤ 0x39 then some (c - 0x30)
  else if 0x61 ≤ c ∧ c ≤ 0x66 then some (c - 0x61 + 10)
  else if 0x41 ≤ c ∧ c ≤ 0x46 then some (c - 0x41 + 10)
  else none

/-- Function `getu4`: the code unit of a `\uXXXX` escape at the start of `s`,
`none` where the source returns -1. -/
def getu4 : GoString → Option Nat
  | c0 :: c1 :: h1 :: h2 :: h3 :: h4 :: _ =>
    if c0 = 0x5C ∧ c1 = 0x75 then
      match hexVal h1, hexVal h2, hexVal h3, hexVal h4 with
      | some a, some b, some c, some d => some (((a * 16 + b) * 16 + c) * 16 + d)
      | _, _, _, _ => none
    else none
  | _ => none

/-- Function `utf16.IsSurrogate`. -/
def isSurrogate (r : Nat) : Bool := decide (0xD800 ≤ r ∧ r < 0xE000)

/-- Function `utf16.DecodeRune`, the second unit being absent when `getu4` failed. -/
def utf16DecodeRune (r1 : Nat) (r2 : Option Nat) : Nat :=
  match r2 with
  | some r2 =>
    if 0xD800 ≤ r1 ∧ r1 < 0xDC00 ∧ 0xDC00 ≤ r2 ∧ r2 < 0xE000 then
      (r1 - 0xD800) * 1024 + (r2 - 0xDC00) + 0x10000
    else RuneError
  | none => RuneError

/-- The byte denoted by a one-letter escape accepted by the scanner
(`stateInStringEsc`): `b f n r t \ / "`. -/
def unescape (e : Nat) : Option Nat :=
  if e = 0x22 ∨ e = 0x5C ∨ e = 0x2F then some e
  else if e = 0x62 then some 0x08
  else if e = 0x66 then some 0x0C
  else if e = 0x6E then some 0x0A
  else if e = 0x72 then some 0x0D
  else if e = 0x74 then some 0x09
  else none

/-- Put `out` in front of the text of a partial string result. -/
def prepend (out : GoString) (r : Option (GoString × GoString)) : Option (GoString × GoString) :=
  r.map fun p => (out ++ p.1, p.2)

/-- A JSON string literal, read from just after its opening quote: the scanner
states `stateInString*` fused with `unquoteBytes`.  The result is the unquoted
text and the input after the closing quote; `none` is a syntax error.  Invalid
UTF-8 and unpaired surrogates become U+FFFD. -/
def readStringLoop : Nat → GoString → Option (GoString × GoString)
  | 0, _ => none
  | _ + 1, [] => none
  | fuel + 1, c :: rest =>
    if c = 0x22 then some ([], rest)
    else if c = 0x5C then
      match rest with
      | [] => none
      | e :: rest1 =>
        if e = 0x75 then
          match getu4 (c :: rest) with
          | none => none
          | some rr =>
            if isSurrogate rr then
              if utf16DecodeRune rr (getu4 (rest1.drop 4)) ≠ RuneError then
                prepend (encodeRune (utf16DecodeRune rr (getu4 (rest1.drop 4))))
                  (readStringLoop fuel (rest1.drop 10))
              else prepend (encodeRune RuneError) (readStringLoop fuel (rest1.drop 4))
            else prepend (encodeRune rr) (readStringLoop fuel (rest1.drop 4))
        else
          match unescape e with
          | some b => prepend [b] (readStringLoop fuel rest1)
          | none => none
    else if c < 0x20 then none
    else if c < 0x80 then prepend [c] (readStringLoop fuel rest)
    else
      prepend (encodeRune (decodeRune (c :: rest)).1)
        (readStringLoop fuel ((c :: rest).drop (decodeRune (c :: rest)).2))

/-- A JSON string literal read from just after its opening quote. -/
def readString (s : GoString) : Option (GoString × GoString) := readStringLoop s.length s

/-- A decimal digit. -/
def isDigit (c : Nat) : Bool := decide (0x30 ≤ c ∧ c ≤ 0x39)

/-- The exponent of a number literal (scanner states `stateE`, `stateESign`,
`stateE0`); `acc` is the text read so far. -/
def readExp (acc : GoString) : GoString → Option (GoString × GoString)
  | [] => some (acc, [])
  | c :: r =>
    if c = 0x65 ∨ c = 0x45 then
      match r with
      | [] => none
      | c2 :: r2 =>
        if c2 = 0x2B ∨ c2 = 0x2D then
          if r2.takeWhile isDigit = [] then none
          else some (acc ++ c :: c2 :: r2.takeWhile isDigit, r2.dropWhile isDigit)
        else
          if (c2 :: r2).takeWhile isDigit = [] then none
          else some (acc ++ c :: (c2 :: r2).takeWhile isDigit, (c2 :: r2).dropWhile isDigit)
    else some (acc, c :: r)

/-- The fraction of a number literal (scanner states `stateDot`, `stateDot0`). -/
def readFrac (acc : GoString) : GoString → Option (GoString × GoString)
  | [] => some (acc, [])
  | c :: r =>
    if c = 0x2E then
      if r.takeWhile isDigit = [] then none
      else readExp (acc ++ c :: r.takeWhile isDigit) (r.dropWhile isDigit)
    else readExp acc (c :: r)

/-- The integer part of a number literal (scanner states `state0`, `state1`). -/
def readInt (acc : GoString) : GoString → Option (GoString × GoString)
  | [] => none
  | c :: r =>
    if c = 0x30 then readFrac (acc ++ [c]) r
    else if 0x31 ≤ c ∧ c ≤ 0x39 then
      readFrac (acc ++ c :: r.takeWhile isDigit) (r.dropWhile isDigit)
    else none

/-- A JSON number literal at the start of `s`: its text and the input after it. -/
def readNumber : GoString → Option (GoString × GoString)
  | [] => none
  | c :: r => if c = 0x2D then readInt [c] r else readInt [] (c :: r)

/-- A parsed JSON value.  A number keeps its text: the conversion depends on
the Go type it is stored into. -/
inductive JValue where
  | null
  | bool (b : Bool)
  | number (lit : GoString)
  | string (s : GoString)
  | array (elems : List JValue)
  | object (members : List (GoString × JValue))

/-- Constant `maxNestingDepth` of the scanner. -/
def maxNestingDepth : Nat := 10000

/-- The elements of an array after its first byte, `rv` reading one value. -/
def readElements (rv : GoString → Option (JValue × GoString)) :
    Nat → GoString → Option (List JValue × GoString)
  | 0, _ => none
  | fuel + 1, s =>
    match rv s with
    | none => none
    | some (v, s1) =>
      match skipSpace s1 with
      | [] => none
      | c :: s2 =>
        if c = 0x2C then
          (readElements rv fuel (skipSpace s2)).map fun p => (v :: p.1, p.2)
        else if c = 0x5D then some ([v], s2)
        else none

/-- The members of an object from the opening quote of a key on, `rv` reading
one value. -/
def readMembers (rv : GoString → Option (JValue × GoString)) :
    Nat → GoString → Option (List (GoString × JValue) × GoString)
  | 0, _ => none
  | _ + 1, [] => none
  | fuel + 1, c :: s1 =>
    if c = 0x22 then
      match readString s1 with
      | none => none
      | some (key, s2) =>
        match skipSpace s2 with
        | [] => none
        | c2 :: s3 =>
          if c2 = 0x3A then
            match rv (skipSpace s3) with
            | none => none
            | some (v, s4) =>
              match skipSpace s4 with
              | [] => none
              | c3 :: s5 =>
                if c3 = 0x2C then
                  (readMembers rv fuel (skipSpace s5)).map fun p => ((key, v) :: p.1, p.2)
                else if c3 = 0x7D then some ([(key, v)], s5)
                else none
          else none
    else none

/-- One JSON value at the start of the input (white space already skipped),
`depth` containers being open: the grammar accepted by the scanner. -/
def readValue : Nat → Nat → GoString → Option (JValue × GoString)
  | 0, _, _ => none
  | _ + 1, _, [] => none
  | fuel + 1, depth, c :: rest =>
    if c = 0x7B then
      if maxNestingDepth ≤ depth then none
      else
        match skipSpace rest with
        | [] => none
        | c1 :: rest1 =>
          if c1 = 0x7D then some (JValue.object [], rest1)
          else
            (readMembers (fun s => readValue fuel (depth + 1) s) fuel (c1 :: rest1)).map
              fun p => (JValue.object p.1, p.2)
    else if c = 0x5B then
      if maxNestingDepth ≤ depth then none
      else
        match skipSpace rest with
        | [] => none
        | c1 :: rest1 =>
          if c1 = 0x5D then some (JValue.array [], rest1)
          else
            (readElements (fun s => readValue fuel (depth + 1) s) fuel (c1 :: rest1)).map
              fun p => (JValue.array p.1, p.2)
    else if c = 0x22 then (readString rest).map fun p => (JValue.string p.1, p.2)
    else if c = 0x2D ∨ isDigit c then
      (readNumber (c :: rest)).map fun p => (JValue.number p.1, p.2)
    else if c = 0x74 then
      match rest with
      | a :: b :: d :: r =>
        if a = 0x72 ∧ b = 0x75 ∧ d = 0x65 then some (JValue.bool true, r) else none
      | _ => none
    else if c = 0x66 then
      match rest with
      | a :: b :: d :: e :: r =>
        if a = 0x61 ∧ b = 0x6C ∧ d = 0x73 ∧ e = 0x65 then some (JValue.bool false, r)
        else none
      | _ => none
    else if c = 0x6E then
      match rest with
      | a :: b :: d :: r =>
        if a = 0x75 ∧ b = 0x6C ∧ d = 0x6C then some (JValue.null, r) else none
      | _ => none
    else none

/-- Function `checkValid` together with the reading of the value: the whole
input is one JSON value between optional white space. -/
def parseJSON (data : GoString) : Option JValue :=
  match readValue data.length 0 (skipSpace data) with
  | none => none
  | some (v, rest) => if skipSpace rest = [] then some v else none

/-- Function `strconv.ParseUint(s, 10, 64)`: decimal digits only, value below 2^64. -/
def parseUint (s : GoString) : Option Nat :=
  if s = [] then none
  else if s.all isDigit then
    if s.foldl (fun acc c => acc * 10 + (c - 0x30)) 0 < 2 ^ 64 then
      some (s.foldl (fun acc c => acc * 10 + (c - 0x30)) 0)
    else none
  else none

/-- Store of a JSON value into an unsigned integer field of `bits` bits
(`literalStore`): `null` leaves the field, a number must parse as an unsigned
integer that fits; everything else is an `UnmarshalTypeError`. -/
def storeUint (bits : Nat) (old : Nat) : JValue → Option Nat
  | JValue.null => some old
  | JValue.number lit =>
    match parseUint lit with
    | some n => if n < 2 ^ bits then some n else none
    | none => none
  | _ => none

/-- Store of a JSON value into a string field: `null` leaves the field, a
string replaces it; everything else is an `UnmarshalTypeError`. -/
def storeString (old : GoString) : JValue → Option GoString
  | JValue.null => some old
  | JValue.string s => some s
  | _ => none

/-- Function `json.Unmarshal(data, &v)` for a struct value `v`, `store` being
the store of one object member into the struct.  A syntax error or a type
error gives `none` (the source returns a non-nil error); `null` leaves `v`. -/
def unmarshalStruct {σ : Type} (store : σ → GoString × JValue → Option σ)
    (data : GoString) (v : σ) : Option σ :=
  match parseJSON data with
  | some JValue.null => some v
  | some (JValue.object ms) => ms.foldlM store v
  | _ => none

/-! ## engine/gossip/states.go -/

/-- Type `SWIMState` (`uint8`). -/
abbrev SWIMState := Nat

/-- ALIVE State. -/
def ALIVE : SWIMState := 0

/-- SUSPECTED State. -/
def SUSPECTED : SWIMState := 1

/-- DEAD State. -/
def DEAD : SWIMState := 2

/-- LEFT State. -/
def LEFT : SWIMState := 3

/-- SWIMTag represents node gossip tag: `Version` is a `uint32` (JSON name
`v`), `State` a `uint8` (`s`), `Region` a string (`r`), all `omitempty`. -/
structure SWIMTag where
  Version : Nat := 0
  State : SWIMState := 0
  Region : GoString := []
  deriving DecidableEq, Repr

/-- The three JSON-visible fields of `SWIMTag`. -/
inductive TagField where
  | Version
  | State
  | Region
  deriving DecidableEq

/-- The struct field an object key selects: the exact name or, failing that,
a name equal to it under Unicode simple case folding.  Only `v V`, `s S`
and U+017F (bytes `C5 BF`), `r R` fold to the three field names. -/
def lookupField (key : GoString) : Option TagField :=
  if key = [0x76] ∨ key = [0x56] then some TagField.Version
  else if key = [0x73] ∨ key = [0x53] ∨ key = [0xC5, 0xBF] then some TagField.State
  else if key = [0x72] ∨ key = [0x52] then some TagField.Region
  else none

/-- Store of one object member into a `SWIMTag`; a key that selects no field
is skipped. -/
def SWIMTag.store (t : SWIMTag) (kv : GoString × JValue) : Option SWIMTag :=
  match lookupField kv.1 with
  | none => some t
  | some TagField.Version => (storeUint 32 t.Version kv.2).map fun n => { t with Version := n }
  | some TagField.State => (storeUint 8 t.State kv.2).map fun n => { t with State := n }
  | some TagField.Region => (storeString t.Region kv.2).map fun r => { t with Region := r }

/-- The `"name":value` texts `json.Marshal` writes for a tag: a field holding
its zero value is omitted. -/
def SWIMTag.fields (t : SWIMTag) : List GoString :=
  (if t.Version = 0 then [] else [ascii "\"v\":" ++ formatUint t.Version])
    ++ (if t.State = 0 then [] else [ascii "\"s\":" ++ formatUint t.State])
    ++ (if t.Region = [] then [] else [ascii "\"r\":" ++ appendString t.Region])

/-- Encode serializes SWIMTags (`json.Marshal(t)`; it cannot fail on this type). -/
def SWIMTag.Encode (t : SWIMTag) : GoString :=
  [0x7B] ++ (ascii ",").intercalate t.fields ++ [0x7D]

/-- Decode deserializes SWIMTags (`json.Unmarshal([]byte(v), t)`).  The result
is the receiver after a successful call and `none` when the source returns an
error; every caller discards the receiver in that case. -/
def SWIMTag.Decode (t : SWIMTag) (v : GoString) : Option SWIMTag :=
  unmarshalStruct SWIMTag.store v t

/-- Type `sladder.KeyValue`. -/
structure KeyValue where
  Key : GoString
  Value : GoString
  deriving DecidableEq, Repr

/-- Type `sladder.KeyValueEntry`: the embedded `KeyValue`; its validator and
flags are not touched by the code embedded here. -/
structure KeyValueEntry where
  KeyValue : KeyValue
  deriving DecidableEq, Repr

/-- The outcome of `Sync`: the two results and the entry as the call leaves
it.  The error is `none` for Go `nil`. -/
structure SyncResult where
  changed : Bool
  err : Option GoString
  entry : KeyValueEntry
  deriving DecidableEq, Repr

/-- The equal-version `switch` of `Sync`: the local tag afterwards and `changed`. -/
def mergeState (remoteTag localTag : SWIMTag) : SWIMTag × Bool :=
  if remoteTag.State = SUSPECTED then
    if localTag.State = ALIVE then ({ localTag with State := SUSPECTED }, true)
    else (localTag, false)
  else if remoteTag.State = DEAD then
    if localTag.State ≠ LEFT then ({ localTag with State := DEAD }, true)
    else (localTag, false)
  else if remoteTag.State = LEFT then ({ localTag with State := LEFT }, true)
  else (localTag, false)

/-- Sync synchronizes SWIMTag.  As in the source, both `remoteTag` and
`localTag` are decoded from `remote.Value`. -/
def SWIMTagValidator.Sync (entry : KeyValueEntry) (remote : Option KeyValue) : SyncResult :=
  match remote with
  | none => { changed := false, err := none, entry := entry }
  | some remote =>
    match SWIMTag.Decode {} remote.Value with
    | none => { changed := false, err := none, entry := entry }
    | some remoteTag =>
      match SWIMTag.Decode {} remote.Value with
      | none =>
        { changed := true, err := none,
          entry := { entry with KeyValue := { entry.KeyValue with Value := remote.Value } } }
      | some localTag =>
        if remoteTag.Version > localTag.Version then
          { changed := true, err := none,
            entry := { entry with KeyValue := { entry.KeyValue with Value := remote.Value } } }
        else if remoteTag.Version < localTag.Version then
          { changed := false, err := none, entry := entry }
        else if (mergeState remoteTag localTag).2 then
          { changed := true, err := none,
            entry := { entry with
              KeyValue := { entry.KeyValue with
                Value := (mergeState remoteTag localTag).1.Encode } } }
        else { changed := false, err := none, entry := entry }

/-- Validate checks whether raw SWIMTags.  As in the source, the value is
unmarshalled into a `SWIMTagValidator`, a struct without exported fields, so
every object member is skipped. -/
def SWIMTagValidator.Validate (kv : KeyValue) : Bool :=
  if kv.Value = [] then true
  else (unmarshalStruct (fun (u : Unit) _ => some u) kv.Value ()).isSome

/-- SWIMTagTxn implements SWIM tag transaction. -/
structure SWIMTagTxn where
  tag : SWIMTag := {}
  changed : Bool := false
  OldVersion : Nat := 0
  deriving DecidableEq, Repr

/-- Txn begins an transaction; `none` when the source returns the decode error. -/
def SWIMTagValidator.Txn (x : KeyValue) : Option SWIMTagTxn :=
  match SWIMTag.Decode {} x.Value with
  | none => none
  | some tag => some { tag := tag, changed := false, OldVersion := tag.Version }

/-- After returns modified value. -/
def SWIMTagTxn.After (t : SWIMTagTxn) : Bool × GoString := (t.changed, t.tag.Encode)

/-- Region returns region of tag snapshot. -/
def SWIMTagTxn.Region (t : SWIMTagTxn) : GoString := t.tag.Region

/-- State returns current SWIM state. -/
def SWIMTagTxn.State (t : SWIMTagTxn) : SWIMState := t.tag.State

/-- ClaimDead set SWIM state to dead: the result and the transaction afterwards. -/
def SWIMTagTxn.ClaimDead (t : SWIMTagTxn) : Bool × SWIMTagTxn :=
  if t.tag.State = LEFT then (false, t)
  else if t.tag.State ≠ DEAD then
    (true, { t with changed := true, tag := { t.tag with State := DEAD } })
  else (false, t)

/-- ClaimSuspected set SWIM state to SUSPECTED. -/
def SWIMTagTxn.ClaimSuspected (t : SWIMTagTxn) : Bool × SWIMTagTxn :=
  if t.tag.State = DEAD then (false, t)
  else if t.tag.State = LEFT then (false, t)
  else if t.tag.State = SUSPECTED then (false, t)
  else (true, { t with tag := { t.tag with State := SUSPECTED }, changed := true })

/-- ClaimAlive clears false positive and ensure SWIM state is ALIVE; the
increment is that of a `uint32`. -/
def SWIMTagTxn.ClaimAlive (t : SWIMTagTxn) : Bool × SWIMTagTxn :=
  if t.tag.State ≠ ALIVE then
    (true,
      { t with
        tag :=
          { t.tag with
            Version :=
              if t.tag.Version < t.OldVersion then (t.tag.Version + 1) % 2 ^ 32
              else t.tag.Version
            State := ALIVE }
        changed := true })
  else (false, t)

/-- Leave set states to LEFT. -/
def SWIMTagTxn.Leave (t : SWIMTagTxn) : Bool × SWIMTagTxn :=
  if t.tag.State = LEFT then (true, t)
  else (true, { t with tag := { t.tag with State := LEFT }, changed := true })

/-- SetRegion updates region; the result is the old region. -/
def SWIMTagTxn.SetRegion (t : SWIMTagTxn) (region : GoString) : GoString × SWIMTagTxn :=
  if t.tag.Region ≠ region then
    (t.tag.Region, { t with tag := { t.tag with Region := region }, changed := true })
  else (t.tag.Region, t)

/-! ## Vocabulary of the codec proofs -/

/-- The text of one object member: key `k` (one plain byte) and value text `vt`. -/
def memberText (x : Nat × GoString × JValue) : GoString :=
  0x22 :: x.1 :: 0x22 :: 0x3A :: x.2.1

/-- A member text that `rv` reads back as the value `x.2.2`. -/
def GoodMember (rv : GoString → Option (JValue × GoString)) (x : Nat × GoString × JValue) : Prop :=
  (0x20 ≤ x.1 ∧ x.1 < 0x80 ∧ x.1 ≠ 0x22 ∧ x.1 ≠ 0x5C) ∧
  (∀ t0 tl, t0 = 0x2C ∨ t0 = 0x7D → rv (x.2.1 ++ t0 :: tl) = some (x.2.2, t0 :: tl)) ∧
  (∃ h r, x.2.1 = h :: r ∧ isSpace h = false)

/-- The members `json.Marshal` writes for a tag, each with the value it denotes. -/
def tagMembers (t : SWIMTag) : List (Nat × GoString × JValue) :=
  (if t.Version = 0 then []
    else [(0x76, formatUint t.Version, JValue.number (formatUint t.Version))])
  ++ (if t.State = 0 then []
    else [(0x73, formatUint t.State, JValue.number (formatUint t.State))])
  ++ (if t.Region = [] then []
    else [(0x72, appendString t.Region, JValue.string t.Region)])

/-- The members `json.Marshal` writes for a tag, the text of the region being
read back as `r`. -/
def tagMembersAs (t : SWIMTag) (r : GoString) : List (Nat × GoString × JValue) :=
  (if t.Version = 0 then []
    else [(0x76, formatUint t.Version, JValue.number (formatUint t.Version))])
  ++ (if t.State = 0 then []
    else [(0x73, formatUint t.State, JValue.number (formatUint t.State))])
  ++ (if t.Region = [] then []
    else [(0x72, appendString t.Region, JValue.string r)])

/-! ## Sequences of calls on a tag transaction -/

/-- One call on a tag transaction, as a caller of `SWIMTagTxn` can issue it. -/
inductive TxnCall where
  | ClaimDead
  | ClaimSuspected
  | ClaimAlive
  | Leave
  | SetRegion (region : GoString)

/-- The transaction after one call, the result of the call being dropped. -/
def SWIMTagTxn.call (t : SWIMTagTxn) : TxnCall → SWIMTagTxn
  | TxnCall.ClaimDead => t.ClaimDead.2
  | TxnCall.ClaimSuspected => t.ClaimSuspected.2
  | TxnCall.ClaimAlive => t.ClaimAlive.2
  | TxnCall.Leave => t.Leave.2
  | TxnCall.SetRegion region => (t.SetRegion region).2

/-- The transaction after a sequence of calls, first call first. -/
def SWIMTagTxn.calls (t : SWIMTagTxn) (cs : List TxnCall) : SWIMTagTxn :=
  cs.foldl SWIMTagTxn.call t

/-! ## engine/gossip/failure.go -/

/-- A `*sladder.Node`: nodes are compared by pointer, a pointer being a number. -/
abbrev Node := Nat

/-- A `*suspection`: the address of a suspicion record. -/
abbrev Ptr := Nat

/-- A Go map, as the list of its entries in the order a `range` loop visits
them; keys are distinct.  Go leaves that order unspecified, so a statement
about every map value covers every order. -/
abbrev GoMap (κ α : Type) := List (κ × α)

/-- Map lookup `m[k]`, `none` when the key is absent. -/
def mapGet {κ α : Type} [DecidableEq κ] : GoMap κ α → κ → Option α
  | [], _ => none
  | (k1, v) :: m, k => if k1 = k then some v else mapGet m k

/-- Builtin `delete(m, k)`. -/
def mapDelete {κ α : Type} [DecidableEq κ] (m : GoMap κ α) (k : κ) : GoMap κ α :=
  m.filter fun p => decide (p.1 ≠ k)

/-- Assignment `m[k] = v`: the entry is replaced in place or added. -/
def mapSet {κ α : Type} [DecidableEq κ] (m : GoMap κ α) (k : κ) (v : α) : GoMap κ α :=
  if (mapGet m k).isSome then m.map fun p => (p.1, if p.1 = k then v else p.2)
  else m ++ [(k, v)]

/-- The value of an `int64` computation whose mathematical result is `x`
(`time.Duration` arithmetic wraps around). -/
def wrap64 (x : Int) : Int := (x + 2 ^ 63) % 2 ^ 64 - 2 ^ 63

/-- Conversion `int(u)` of a `uint` on a 64-bit platform. -/
def intOfUint (u : Nat) : Int := wrap64 (u : Int)

/-- Type `suspection`; `notAfter` is an instant in nanoseconds. -/
structure suspection where
  notAfter : Int
  node : Node
  queueIndex : Nat
  deriving DecidableEq, Repr

/-- Type `suspectionQueue`, a `[]*suspection`: the slice `q` of record
addresses and the memory `mem` holding the records they point to. -/
structure suspectionQueue where
  mem : Ptr → suspection
  q : List Ptr

/-- Method `suspectionQueue.Len`. -/
def suspectionQueue.Len (h : suspectionQueue) : Nat := h.q.length

/-- The `notAfter` of the record at position `i` of the queue. -/
def suspectionQueue.key (h : suspectionQueue) (i : Nat) : Int :=
  (h.mem (h.q.getD i 0)).notAfter

/-- Method `suspectionQueue.Less`: `q[i].notAfter.Before(q[j].notAfter)`. -/
def suspectionQueue.Less (h : suspectionQueue) (i j : Nat) : Bool :=
  decide (h.key i < h.key j)

/-- Method `suspectionQueue.Swap`: exchange the two slots, then store the new
positions in the records now at `i` and at `j`. -/
def suspectionQueue.Swap (h : suspectionQueue) (i j : Nat) : suspectionQueue :=
  { q := (h.q.set i (h.q.getD j 0)).set j (h.q.getD i 0)
    mem :=
      Function.update
        (Function.update h.mem (h.q.getD j 0) { h.mem (h.q.getD j 0) with queueIndex := i })
        (h.q.getD i 0)
        { Function.update h.mem (h.q.getD j 0) { h.mem (h.q.getD j 0) with queueIndex := i }
            (h.q.getD i 0) with queueIndex := j } }

/-- Method `suspectionQueue.Push`: record the position, then append. -/
def suspectionQueue.Push (h : suspectionQueue) (x : Ptr) : suspectionQueue :=
  { q := h.q ++ [x]
    mem := Function.update h.mem x { h.mem x with queueIndex := h.Len } }

/-- Method `suspectionQueue.Pop`: the last element and the queue without it. -/
def suspectionQueue.Pop (h : suspectionQueue) : Ptr × suspectionQueue :=
  (h.q.getD (h.Len - 1) 0, { h with q := h.q.take (h.Len - 1) })

/-- The child `j` that `heap.down` compares slot `i` with: the right child
when it lies within the first `n` slots and is earlier than the left child,
the left child otherwise. -/
def heapChild (h : suspectionQueue) (i n : Nat) : Nat :=
  if 2 * i + 2 < n ∧ h.Less (2 * i + 2) (2 * i + 1) then 2 * i + 2 else 2 * i + 1

/-- Loop of `heap.down` (container/heap): sift the element at `i` down within
the first `n` slots; the result carries the final position.  Each iteration
moves `i` to a child, so `n` units of fuel suffice.  Positions are far below
the range of `int`, so the test `j1 < 0` for overflow is left out. -/
def heapDownLoop : Nat → suspectionQueue → Nat → Nat → suspectionQueue × Nat
  | 0, h, i, _ => (h, i)
  | fuel + 1, h, i, n =>
    if n ≤ 2 * i + 1 then (h, i)
    else if h.Less (heapChild h i n) i = false then (h, i)
    else heapDownLoop fuel (h.Swap i (heapChild h i n)) (heapChild h i n) n

/-- Function `heap.down(h, i0, n)`: the queue afterwards and whether the
element moved. -/
def heapDown (h : suspectionQueue) (i0 n : Nat) : suspectionQueue × Bool :=
  ((heapDownLoop n h i0 n).1, decide (i0 < (heapDownLoop n h i0 n).2))

/-- Function `heap.Pop(h)` on a non-empty queue: swap the root with the last
slot, sift the new root down, take the last slot off. -/
def heapPop (h : suspectionQueue) : Ptr × suspectionQueue :=
  (heapDown (h.Swap 0 (h.Len - 1)) 0 (h.Len - 1)).1.Pop

/-- A queued proxy request (type `proxyPingRequest`). -/
structure proxyPingRequest where
  target : List GoString
  origin : List GoString
  id : Nat
  deriving DecidableEq, Repr

/-- Type `pingContext` without its lock; `start` is an instant in nanoseconds,
`indirects` a `uint32`. -/
structure pingContext where
  id : Nat
  start : Int
  proxyFor : List proxyPingRequest := []
  indirects : Nat := 0
  deriving DecidableEq, Repr

/-- Modelled from the spec: the wire messages `pb.Ping`, `pb.Ack` and
`pb.PingReq` of section 6; package `pb` is not under src/. -/
inductive GossipMessage where
  | Ping (Id : Nat)
  | Ack (Id : Nat) (NamesProxyFor : List GoString)
  | PingReq (Id : Nat) (Name : List GoString)
  deriving DecidableEq, Repr

/-- One call `e.sendProto(names, msg)`. -/
structure Sent where
  names : List GoString
  msg : GossipMessage
  deriving DecidableEq, Repr

/-- Modelled from the spec: the counters of `FailureDetectorMetricIncrement`
named in section 6; the declaration is not under src/.  `PingIndirect` is a
`uint32` and `ProxySuccess`, `ProxyFailure` are `uint64` by the operands the
source combines them with. -/
structure FailureDetectorMetricIncrement where
  Ping : Nat := 0
  PingIndirect : Nat := 0
  ProxyPing : Nat := 0
  ProxySuccess : Nat := 0
  ProxyFailure : Nat := 0
  Success : Nat := 0
  Failure : Nat := 0
  deriving DecidableEq, Repr

/-- The widths in bits of the unsigned counters whose type the source under
src/ does not determine. -/
structure CounterBits where
  Ping : Nat
  ProxyPing : Nat
  Success : Nat
  Failure : Nat

/-- Unsigned addition `a + b` at `w` bits. -/
def uAdd (w a b : Nat) : Nat := (a + b) % 2 ^ w

/-- Unsigned subtraction `a - b` at `w` bits. -/
def uSub (w a b : Nat) : Nat := (a + (2 ^ w - b % 2 ^ w)) % 2 ^ w

/-- Modelled from the spec: what failure.go asks of `e.cluster` (`Self`,
`MostPossibleNode`) and of a node (`Names`); type `Cluster` is not under src/. -/
structure Cluster where
  Self : Node
  MostPossibleNode : List GoString → Option Node
  Names : Node → List GoString

/-- Modelled from the spec: the fields of `EngineInstance` that failure.go
reads or writes; the declaration of the struct is not under src/.
`gossipPeriod` and `minPingReqTimeoutTimes` stand for the results of
`getGossipPeriod()` and `getMinPingReqTimeoutTimes()`; a node set of
`withRegion` is the list of its members. -/
structure EngineInstance where
  cluster : Cluster
  minRegionPeer : Nat
  gossipPeriod : Int
  minPingReqTimeoutTimes : Nat
  withRegion : GoMap GoString (List Node)
  inPing : GoMap Node pingContext
  roundTrips : GoMap Node Int
  suspectionQueue : suspectionQueue
  suspectionNodeIndex : GoMap Node Ptr

/-- Method `estimatedRoundTrip`: the gossip period, whatever the node. -/
def EngineInstance.estimatedRoundTrip (e : EngineInstance) (_node : Node) : Int :=
  e.gossipPeriod

/-- What `clearDeads` does to one region: the nodes passed to `t.RemoveNode`,
in order.  `KV node` is the result of `t.KV(node, e.swimTagKey)`, `none` for
an error. -/
def clearDeadsLoop (KV : Node → Option SWIMTagTxn) : Int → List Node → List Node
  | _, [] => []
  | allows, node :: rest =>
    if allows < 1 then []
    else
      match KV node with
      | none => clearDeadsLoop KV allows rest
      | some tag =>
        if tag.State = DEAD ∧ allows > 0 then node :: clearDeadsLoop KV (allows - 1) rest
        else clearDeadsLoop KV allows rest

/-- The body of the loop of `clearDeads` over `e.withRegion` for one region
whose node set is `nodes`. -/
def clearDeadsRegion (minRegionPeer : Int) (KV : Node → Option SWIMTagTxn)
    (nodes : List Node) : List Node :=
  if minRegionPeer ≥ (nodes.length : Int) then []
  else clearDeadsLoop KV ((nodes.length : Int) - minRegionPeer) nodes

/-- Method `clearDeads`, the transaction function: the nodes removed, region
by region, and the `changed` result. -/
def EngineInstance.clearDeads (e : EngineInstance) (KV : Node → Option SWIMTagTxn) :
    List Node × Bool :=
  ((e.withRegion.map fun p => clearDeadsRegion (intOfUint e.minRegionPeer) KV p.2).flatten,
    decide ((e.withRegion.map fun p =>
      clearDeadsRegion (intOfUint e.minRegionPeer) KV p.2).flatten ≠ []))

/-- Type `leavingNode` as `removeIfDeadOrLeft` fills it. -/
structure leavingNode where
  names : List GoString
  snapshot : List KeyValue
  deriving DecidableEq, Repr

/-- The transaction function of `removeIfDeadOrLeft`: its result and the
`leaving` record it sets when it calls `t.RemoveNode`.  A node the region map
does not trace is removed whatever the region size.  `snapshot` is what
`t.ReadNodeSnapshot` reads. -/
def EngineInstance.removeTxn (e : EngineInstance) (snapshot : Node → List KeyValue)
    (node : Node) (tag : SWIMTag) : Bool × Option leavingNode :=
  if (match mapGet e.withRegion tag.Region with
      | none => true
      | some nodeSet =>
        if node ∉ nodeSet then true
        else if tag.State = LEFT ∨ nodeSet.length > e.minRegionPeer then true
        else false) = false then (false, none)
  else (true, some { names := e.cluster.Names node, snapshot := snapshot node })

/-- Method `removeIfDeadOrLeft`: whether the node was removed (`t.RemoveNode`
in a transaction that committed) and the record handed to `traceLeavingNode`.
`txnErr` tells whether `cluster.Txn` returns an error. -/
def EngineInstance.removeIfDeadOrLeft (e : EngineInstance) (snapshot : Node → List KeyValue)
    (txnErr : Bool) (node : Node) (tag : SWIMTag) : Bool × Option leavingNode :=
  if tag.State ≠ DEAD ∧ tag.State ≠ LEFT then (false, none)
  else if node = e.cluster.Self then (false, none)
  else if txnErr then (false, none)
  else e.removeTxn snapshot node tag

/-- The loop of `ClearSuspections` that collects the expired suspicions:
while the queue is not empty and `now.After(q[0].notAfter)`, note the node,
pop the root and delete the node from the index. -/
def clearLoop (now : Int) : Nat → EngineInstance → List Node → EngineInstance × List Node
  | 0, e, deads => (e, deads)
  | fuel + 1, e, deads =>
    if 0 < e.suspectionQueue.Len then
      if ¬ (e.suspectionQueue.key 0 < now) then (e, deads)
      else
        clearLoop now fuel
          { e with
            suspectionQueue := (heapPop e.suspectionQueue).2
            suspectionNodeIndex :=
              mapDelete e.suspectionNodeIndex
                (e.suspectionQueue.mem (e.suspectionQueue.q.getD 0 0)).node }
          (deads ++ [(e.suspectionQueue.mem (e.suspectionQueue.q.getD 0 0)).node])
    else (e, deads)

/-- One dead-claiming transaction of `ClearSuspections`: the node and the
result of `ClaimDead`, `none` when `t.KV` failed. -/
structure DeadClaim where
  node : Node
  claimed : Option Bool
  deriving DecidableEq, Repr

/-- The loop of `ClearSuspections` over `deads`: one transaction per node,
stopping after the first whose commit fails (`commitErr`). -/
def claimDeads (KV : Node → Option SWIMTagTxn) (commitErr : Node → Bool) :
    List Node → List DeadClaim
  | [] => []
  | node :: rest =>
    if commitErr node then [{ node := node, claimed := (KV node).map fun t => t.ClaimDead.1 }]
    else
      { node := node, claimed := (KV node).map fun t => t.ClaimDead.1 }
        :: claimDeads KV commitErr rest

/-- ClearSuspections clears all expired suspection: the engine afterwards and
the dead-claiming transactions issued.  `shouldRun` is `e.arbiter.ShouldRun()`,
`now` is `time.Now()`. -/
def EngineInstance.ClearSuspections (e : EngineInstance) (shouldRun : Bool) (now : Int)
    (KV : Node → Option SWIMTagTxn) (commitErr : Node → Bool) :
    EngineInstance × List DeadClaim :=
  if shouldRun = false then (e, [])
  else if e.suspectionQueue.Len < 1 then (e, [])
  else if ¬ (e.suspectionQueue.key 0 < now) then (e, [])
  else
    ((clearLoop now e.suspectionQueue.Len e []).1,
      claimDeads KV commitErr (clearLoop now e.suspectionQueue.Len e []).2)

/-- The outcome of a failure-detector handler: the engine afterwards, the
increment passed to `ApplyIncrement` (`none` when it is not called), the
messages sent, and the delay given to `time.AfterFunc` (`none` when no timer
is set). -/
structure Outcome where
  e : EngineInstance
  minc : Option FailureDetectorMetricIncrement := none
  sent : List Sent := []
  timer : Option Int := none

/-- Method `ping`: start or join the probe of `node`.  `id` is the result of
`e._generateMessageID()`, `now` is `time.Now()`; the timer is the ping
timeout, `estimatedRoundTrip(node) * 2`. -/
def EngineInstance.ping (bits : CounterBits) (e : EngineInstance) (id : Nat) (now : Int)
    (node : Option Node) (proxyReq : Option proxyPingRequest) : Outcome :=
  match node with
  | none => { e := e }
  | some node =>
    match mapGet e.inPing node with
    | none =>
      { e := { e with
          inPing := mapSet e.inPing node
            { id := id, start := now, proxyFor := proxyReq.toList, indirects := 0 } }
        minc := some
          { Ping := uAdd bits.Ping 0 1
            ProxyPing := if proxyReq.isSome then uAdd bits.ProxyPing 0 1 else 0 }
        sent := [{ names := e.cluster.Names node, msg := GossipMessage.Ping id }]
        timer := some (wrap64 (e.estimatedRoundTrip node * 2)) }
    | some pingCtx =>
      { e := { e with
          inPing := mapSet e.inPing node
            { pingCtx with proxyFor := pingCtx.proxyFor ++ proxyReq.toList } }
        minc := some { ProxyPing := if proxyReq.isSome then uAdd bits.ProxyPing 0 1 else 0 } }

/-- Saturating `t.Sub(u)` of package time. -/
def timeSub (t u : Int) : Int := max (-(2 ^ 63)) (min (2 ^ 63 - 1) (t - u))

/-- Method `onPingAck`.  `from` and the fields of the ack select the node
through `MostPossibleNode`; `now` is `time.Now()`. -/
def EngineInstance.onPingAck (bits : CounterBits) (e : EngineInstance) (now : Int)
    (sender : List GoString) (NamesProxyFor : List GoString) : Outcome :=
  match e.cluster.MostPossibleNode (if NamesProxyFor.length < 1 then sender else NamesProxyFor) with
  | none => { e := e }
  | some node =>
    match mapGet e.inPing node with
    | none => { e := e, minc := some {} }
    | some pingCtx =>
      { e := { e with
          roundTrips := mapSet e.roundTrips node (timeSub now pingCtx.start)
          inPing := mapDelete e.inPing node }
        minc := some
          { ProxySuccess :=
              if pingCtx.proxyFor.length > 0 then uAdd 64 0 (pingCtx.proxyFor.length % 2 ^ 64)
              else 0
            Ping := uSub bits.Ping 0 1
            Success := uAdd bits.Success 0 1 }
        sent := pingCtx.proxyFor.map fun pingReq =>
          { names := pingReq.origin, msg := GossipMessage.Ack pingReq.id pingReq.target } }

/-- The state of the loop of `processPingTimeout` over the selected proxies. -/
structure PingReqLoop where
  timeout : Int := 0
  indirects : Nat
  PingIndirect : Nat := 0
  sent : List Sent := []

/-- One iteration of the loop of `processPingTimeout`: the target itself is
skipped; any other proxy is sent the ping-req, counted, and its estimated
round trip taken when it lowers `timeout` (or `timeout` is still unset). -/
def EngineInstance.pingReqStep (e : EngineInstance) (node : Node) (req : GossipMessage)
    (st : PingReqLoop) (proxy : Node) : PingReqLoop :=
  if proxy = node then st
  else
    { sent := st.sent ++ [{ names := e.cluster.Names proxy, msg := req }]
      indirects := uAdd 32 st.indirects 1
      PingIndirect := uAdd 32 st.PingIndirect 1
      timeout :=
        if st.timeout < 1 ∨ e.estimatedRoundTrip proxy < st.timeout then
          e.estimatedRoundTrip proxy
        else st.timeout }

/-- The value of the local `timeout` of `processPingTimeout` when the timer is
set: the loop value raised to the gossip period. -/
def EngineInstance.pingReqTimeout (e : EngineInstance) (node : Node) (pingCtx : pingContext)
    (proxies : List Node) : Int :=
  if e.gossipPeriod >
      (proxies.foldl
        (e.pingReqStep node (GossipMessage.PingReq pingCtx.id (e.cluster.Names node)))
        { indirects := pingCtx.indirects }).timeout then
    e.gossipPeriod
  else
    (proxies.foldl
      (e.pingReqStep node (GossipMessage.PingReq pingCtx.id (e.cluster.Names node)))
      { indirects := pingCtx.indirects }).timeout

/-- Method `processPingTimeout`.  `proxies` is the result of
`e.selectRandomNodes(e.getPingProxiesCount(), true)`; the timer is the
ping-req timeout, `timeout * time.Duration(e.getMinPingReqTimeoutTimes())`. -/
def EngineInstance.processPingTimeout (e : EngineInstance) (proxies : List Node)
    (node : Option Node) : Outcome :=
  match node with
  | none => { e := e }
  | some node =>
    match mapGet e.inPing node with
    | none => { e := e }
    | some pingCtx =>
      { e := { e with
          inPing := mapSet e.inPing node
            { pingCtx with
              indirects :=
                (proxies.foldl
                  (e.pingReqStep node
                    (GossipMessage.PingReq pingCtx.id (e.cluster.Names node)))
                  { indirects := pingCtx.indirects }).indirects } }
        minc := some
          { PingIndirect :=
              (proxies.foldl
                (e.pingReqStep node (GossipMessage.PingReq pingCtx.id (e.cluster.Names node)))
                { indirects := pingCtx.indirects }).PingIndirect }
        sent :=
          (proxies.foldl
            (e.pingReqStep node (GossipMessage.PingReq pingCtx.id (e.cluster.Names node)))
            { indirects := pingCtx.indirects }).sent
        timer := some
          (wrap64 (e.pingReqTimeout node pingCtx proxies * intOfUint e.minPingReqTimeoutTimes)) }

/-- Loop of `heap.up` (container/heap): while the element at `j` is earlier
than its parent `(j - 1) / 2`, exchange the two.  Each iteration moves `j` to
its parent, so `j + 1` units of fuel suffice. -/
def heapUpLoop : Nat → suspectionQueue → Nat → suspectionQueue
  | 0, h, _ => h
  | fuel + 1, h, j =>
    if (j - 1) / 2 = j ∨ h.Less j ((j - 1) / 2) = false then h
    else heapUpLoop fuel (h.Swap ((j - 1) / 2) j) ((j - 1) / 2)

/-- Function `heap.up(h, j)`. -/
def heapUp (h : suspectionQueue) (j : Nat) : suspectionQueue := heapUpLoop (j + 1) h j

/-- Function `heap.Push(h, x)`: append, then sift the new element up. -/
def heapPush (h : suspectionQueue) (x : Ptr) : suspectionQueue :=
  heapUp (h.Push x) ((h.Push x).Len - 1)

/-- Function `heap.Remove(h, i)`: the element removed and the queue afterwards.
An `i` that is no position of the queue makes the source panic (index out of
range), which is `none`. -/
def heapRemove (h : suspectionQueue) (i : Nat) : Option (Ptr × suspectionQueue) :=
  if ¬ i < h.Len then none
  else if h.Len - 1 ≠ i then
    if (heapDown (h.Swap i (h.Len - 1)) i (h.Len - 1)).2 = false then
      some (heapUp (heapDown (h.Swap i (h.Len - 1)) i (h.Len - 1)).1 i).Pop
    else some (heapDown (h.Swap i (h.Len - 1)) i (h.Len - 1)).1.Pop
  else some h.Pop

/-- The address of a newly allocated `suspection`: one that neither the queue
nor the index holds, and not nil. -/
def EngineInstance.newRecord (e : EngineInstance) : Ptr :=
  (e.suspectionQueue.q ++ e.suspectionNodeIndex.map Prod.snd).foldl max 0 + 1

/-- Method `_traceSuspections`; `now` is `time.Now()`.  The result is `none`
when `heap.Remove` panics. -/
def EngineInstance._traceSuspections (e : EngineInstance) (now : Int) (node : Node)
    (new : SWIMState) : Option EngineInstance :=
  if new ≠ SUSPECTED then
    match mapGet e.suspectionNodeIndex node with
    | some s =>
      (heapRemove e.suspectionQueue (e.suspectionQueue.mem s).queueIndex).map fun r =>
        { e with
          suspectionQueue := r.2
          suspectionNodeIndex := mapDelete e.suspectionNodeIndex node }
    | none => some e
  else
    match mapGet e.suspectionNodeIndex node with
    | some _ => some e
    | none =>
      some
        { e with
          suspectionQueue :=
            heapPush
              { e.suspectionQueue with
                mem := Function.update e.suspectionQueue.mem e.newRecord
                  { notAfter := now + wrap64 (e.gossipPeriod * 10), node := node,
                    queueIndex := 0 } }
              e.newRecord
          suspectionNodeIndex := mapSet e.suspectionNodeIndex node e.newRecord }

/-- Method `_clearNodeFromFailureDetector`: the engine afterwards and the
increment applied (none when the node is not being probed); `none` when
`heap.Remove` panics.  The index holds no nil record, so `s != nil` is the
presence of the key. -/
def EngineInstance._clearNodeFromFailureDetector (bits : CounterBits) (e : EngineInstance)
    (node : Node) : Option Outcome :=
  match mapGet e.suspectionNodeIndex node with
  | some s =>
    (heapRemove e.suspectionQueue (e.suspectionQueue.mem s).queueIndex).map fun r =>
      { e := { e with
          inPing := if (mapGet e.inPing node).isSome then mapDelete e.inPing node else e.inPing
          roundTrips := mapDelete e.roundTrips node
          suspectionQueue := r.2
          suspectionNodeIndex := mapDelete e.suspectionNodeIndex node }
        minc := (mapGet e.inPing node).map fun ctx =>
          { PingIndirect := if ctx.indirects > 0 then uSub 32 0 ctx.indirects else 0
            ProxyFailure :=
              if ctx.proxyFor.length > 0 then uAdd 64 0 (ctx.proxyFor.length % 2 ^ 64) else 0
            Ping := uSub bits.Ping 0 1 } }
  | none =>
    some
      { e := { e with
          inPing := if (mapGet e.inPing node).isSome then mapDelete e.inPing node else e.inPing
          roundTrips := mapDelete e.roundTrips node }
        minc := (mapGet e.inPing node).map fun ctx =>
          { PingIndirect := if ctx.indirects > 0 then uSub 32 0 ctx.indirects else 0
            ProxyFailure :=
              if ctx.proxyFor.length > 0 then uAdd 64 0 (ctx.proxyFor.length % 2 ^ 64) else 0
            Ping := uSub bits.Ping 0 1 } }

/-- Method `processPingReqTimeout`, run without interleaving: the outcome and
the result of `ClaimSuspected` in the suspicion transaction (`none` when no
transaction is issued, `some none` when `t.KV` fails).  `KV node` is the
result of `t.KV(node, e.swimTagKey)`. -/
def EngineInstance.processPingReqTimeout (bits : CounterBits) (e : EngineInstance)
    (KV : Node → Option SWIMTagTxn) (node : Node) : Outcome × Option (Option Bool) :=
  match mapGet e.inPing node with
  | none => ({ e := e }, none)
  | some pingCtx =>
    ({ e := { e with
          inPing := if (mapGet e.inPing node).isSome then mapDelete e.inPing node else e.inPing }
       minc := some
        { Ping := if (mapGet e.inPing node).isSome then uSub bits.Ping 0 1 else 0
          Failure := if (mapGet e.inPing node).isSome then uAdd bits.Failure 0 1 else 0
          PingIndirect := if pingCtx.indirects > 0 then uSub 32 0 pingCtx.indirects else 0 } },
      some ((KV node).map fun t => t.ClaimSuspected.1))

/-- Modelled from the spec: the wire message `pb.PingReq` of section 6. -/
structure PingReq where
  Id : Nat
  Name : List GoString
  deriving DecidableEq, Repr

/-- Method `onPingReq`; `msg` is `none` for a nil message, `id` and `now` are
what the proxy ping draws from `_generateMessageID()` and `time.Now()`. -/
def EngineInstance.onPingReq (bits : CounterBits) (e : EngineInstance) (id : Nat) (now : Int)
    (sender : List GoString) (msg : Option PingReq) : Outcome :=
  match msg with
  | none => { e := e }
  | some msg =>
    if msg.Name.length < 1 then { e := e }
    else
      match e.cluster.MostPossibleNode msg.Name with
      | none => { e := e, minc := some { ProxyFailure := uAdd 64 0 1 } }
      | some node =>
        EngineInstance.ping bits e id now (some node)
          (some { origin := sender, target := msg.Name, id := msg.Id })

/-- Modelled from the spec: `ApplyIncrement` of the failure-detector sink adds
every increment to its counter, at the width of the counter (section 6,
"Deliver via ApplyIncrement"); the sink is not under src/. -/
def FailureDetectorMetricIncrement.ApplyIncrement (bits : CounterBits)
    (m inc : FailureDetectorMetricIncrement) : FailureDetectorMetricIncrement :=
  { Ping := uAdd bits.Ping m.Ping inc.Ping
    PingIndirect := uAdd 32 m.PingIndirect inc.PingIndirect
    ProxyPing := uAdd bits.ProxyPing m.ProxyPing inc.ProxyPing
    ProxySuccess := uAdd 64 m.ProxySuccess inc.ProxySuccess
    ProxyFailure := uAdd 64 m.ProxyFailure inc.ProxyFailure
    Success := uAdd bits.Success m.Success inc.Success
    Failure := uAdd bits.Failure m.Failure inc.Failure }

/-! ## Runs of the failure detector -/

/-- The engine together with the failure-detector counters accumulated so far. -/
structure EngineRun where
  e : EngineInstance
  metrics : FailureDetectorMetricIncrement := {}

/-- One call into the failure detector, with what the call draws from its
environment (clock, message id, random proxies, tag reads). -/
inductive EngineStep where
  | ping (id : Nat) (now : Int) (node : Option Node) (proxyReq : Option proxyPingRequest)
  | onPingReq (id : Nat) (now : Int) (sender : List GoString) (msg : Option PingReq)
  | onPingAck (now : Int) (sender : List GoString) (NamesProxyFor : List GoString)
  | processPingTimeout (proxies : List Node) (node : Option Node)
  | processPingReqTimeout (KV : Node → Option SWIMTagTxn) (node : Node)
  | _clearNodeFromFailureDetector (node : Node)
  | _traceSuspections (now : Int) (node : Node) (new : SWIMState)
  | ClearSuspections (shouldRun : Bool) (now : Int) (KV : Node → Option SWIMTagTxn)
      (commitErr : Node → Bool)

/-- The run after a handler has returned `o`: the engine it leaves and the
counters after `ApplyIncrement`. -/
def EngineRun.apply (bits : CounterBits) (s : EngineRun) (o : Outcome) : EngineRun :=
  { e := o.e
    metrics :=
      match o.minc with
      | some inc => s.metrics.ApplyIncrement bits inc
      | none => s.metrics }

/-- One call, run without interleaving; `none` when the call panics. -/
def EngineRun.step (bits : CounterBits) (s : EngineRun) : EngineStep → Option EngineRun
  | EngineStep.ping id now node proxyReq =>
    some (s.apply bits (EngineInstance.ping bits s.e id now node proxyReq))
  | EngineStep.onPingReq id now sender msg =>
    some (s.apply bits (EngineInstance.onPingReq bits s.e id now sender msg))
  | EngineStep.onPingAck now sender NamesProxyFor =>
    some (s.apply bits (EngineInstance.onPingAck bits s.e now sender NamesProxyFor))
  | EngineStep.processPingTimeout proxies node =>
    some (s.apply bits (s.e.processPingTimeout proxies node))
  | EngineStep.processPingReqTimeout KV node =>
    some (s.apply bits (EngineInstance.processPingReqTimeout bits s.e KV node).1)
  | EngineStep._clearNodeFromFailureDetector node =>
    (EngineInstance._clearNodeFromFailureDetector bits s.e node).map (s.apply bits)
  | EngineStep._traceSuspections now node new =>
    (s.e._traceSuspections now node new).map fun e1 => { s with e := e1 }
  | EngineStep.ClearSuspections shouldRun now KV commitErr =>
    some { s with e := (s.e.ClearSuspections shouldRun now KV commitErr).1 }

/-- A sequence of calls, first call first. -/
def EngineRun.steps (bits : CounterBits) (s : EngineRun) (l : List EngineStep) :
    Option EngineRun :=
  l.foldlM (EngineRun.step bits) s

/-! ## engine/gossip/failure.go: `updateEngineRelatedFields` -/

/-- The error values of package `sladder`. -/
inductive SladderError where
  | ErrValidatorMissing
  | ErrRejectedByValidator
  | ErrRejectedByCoordinator
  | ErrInvalidKeyValue
  deriving DecidableEq, Repr

/-- A `KVValidator` as `_set` uses it: its method `Validate`. -/
abbrev KVValidator := KeyValue → Bool

/-- A `*KeyValueEntry` held by a node: the entry together with its `validator`
field.  Records are held by value, each under the one key it was made for. -/
structure NodeEntry where
  entry : KeyValueEntry
  validator : KVValidator

/-- Type `sladder.Node` as `_set` uses it: the map `kvs`, whose values may be
nil (`none`), the map `cluster.validators`, and `cluster.getRealEntry`, which
is not under src/ and may be any function (`none` for a nil result).
(`Node` names the pointer.) -/
structure SladderNode where
  kvs : GoMap GoString (Option NodeEntry) := []
  validators : GoMap GoString KVValidator := []
  getRealEntry : KeyValue → Option KeyValue := some

/-- Method `keyValueRealEntries(clone)` over the entries of `kvs` in the order
the `range` loop visits them: the real entries collected, an entry whose real
entry is nil being skipped (a clone is the same value).  A nil entry makes
`&entry.KeyValue` panic, which is `none`; the loop has no other effect, so
the result does not depend on where in the map the nil entry is met. -/
def keyValueRealEntries (getRealEntry : KeyValue → Option KeyValue) :
    List (GoString × Option NodeEntry) → Option (List KeyValue)
  | [] => some []
  | (_, none) :: _ => none
  | (_, some entry) :: rest =>
    match keyValueRealEntries getRealEntry rest with
    | none => none
    | some entries =>
      match getRealEntry entry.entry.KeyValue with
      | none => some entries
      | some kv => some (kv :: entries)

/-- What `_set` hands to the watchers (`emitKeyInsertion`, `emitKeyChange`):
the key, the values, and the result of `n.keyValueRealEntries(true)`. -/
inductive KeyEvent where
  | insertion (key value : GoString) (entries : List KeyValue)
  | change (key origin new : GoString) (entries : List KeyValue)
  deriving DecidableEq, Repr

/-- The outcome of a call of `_set`: it returns `err` (`none` for Go `nil`)
having emitted `event`, or it panics; `node` is the node as the call leaves
it. -/
inductive SetOutcome where
  | returned (err : Option SladderError) (node : SladderNode) (event : Option KeyEvent)
  | panicked (node : SladderNode)

/-- The end of both success paths of `_set`, the node `n` being already
written: `n.keyValueRealEntries(true)` is evaluated for the watchers, and the
call returns nil unless that panics.  The watchers themselves
(`emitKeyInsertion`, `emitKeyChange`) are not under src/ and are taken to
return. -/
def SladderNode.emit (n : SladderNode) (event : List KeyValue → KeyEvent) : SetOutcome :=
  match keyValueRealEntries n.getRealEntry n.kvs with
  | none => SetOutcome.panicked n
  | some entries => SetOutcome.returned none n (some (event entries))

/-- The `for !exists || entry == nil` loop of `_set` and the code after it,
run without interleaving; one unit of fuel per test of the loop condition,
`none` when the fuel runs out. -/
def SladderNode._setLoop (key value : GoString) :
    Nat → SladderNode → Option NodeEntry → Bool → Option SetOutcome
  | 0, _, _, _ => none
  | fuel + 1, n, entry, found =>
    if !found || entry.isNone then
      match mapGet n.validators key with
      | none => some (SetOutcome.returned (some SladderError.ErrValidatorMissing) n none)
      | some validator =>
        if !validator ⟨key, value⟩ then
          some (SetOutcome.returned (some SladderError.ErrInvalidKeyValue) n none)
        else
          match mapGet n.kvs key with
          | some entry1 => SladderNode._setLoop key value fuel n entry1 true
          | none =>
            some
              (SladderNode.emit
                { n with kvs := mapSet n.kvs key (some ⟨⟨⟨key, value⟩⟩, validator⟩) }
                (KeyEvent.insertion key value))
    else
      match entry with
      | none => none
      | some e =>
        -- modify existing entry.
        if !e.validator ⟨key, value⟩ then
          some (SetOutcome.returned (some SladderError.ErrInvalidKeyValue) n none)
        else
          some
            (SladderNode.emit
              { n with kvs := mapSet n.kvs key (some { e with entry := ⟨⟨key, value⟩⟩ }) }
              (KeyEvent.change key e.entry.KeyValue.Value value))

/-- Set sets KeyValue (`_set`), with `fuel` tests of the loop condition. -/
def SladderNode._set (fuel : Nat) (n : SladderNode) (key value : GoString) : Option SetOutcome :=
  SladderNode._setLoop key value fuel n (mapGet n.kvs key).join (mapGet n.kvs key).isSome

/-! ## Vocabulary of the engine proofs -/

/-- The first `n` slots of the queue are in heap order: no element is
earlier than its parent. -/
def HeapOrdered (h : suspectionQueue) (n : Nat) : Prop :=
  ∀ k, 0 < k → k < n → h.key ((k - 1) / 2) ≤ h.key k

/-- Heap order of the first `n` slots except below slot `i`, whose children
are still no earlier than the parent of `i`: the loop invariant of `heap.down`. -/
def DownInv (h : suspectionQueue) (i n : Nat) : Prop :=
  (∀ k, 0 < k → k < n → (k - 1) / 2 ≠ i → h.key ((k - 1) / 2) ≤ h.key k)
  ∧ (0 < i → ∀ k, 0 < k → k < n → (k - 1) / 2 = i → h.key ((i - 1) / 2) ≤ h.key k)

/-- Heap order of the first `n` slots but for the relations of slot `i` with
its parent and with its children, whose children are still no earlier than
its parent: what `heap.Remove` leaves after its exchange. -/
def HoleInv (h : suspectionQueue) (i n : Nat) : Prop :=
  (∀ k, 0 < k → k < n → (k - 1) / 2 ≠ i → k ≠ i → h.key ((k - 1) / 2) ≤ h.key k)
  ∧ (0 < i → ∀ k, 0 < k → k < n → (k - 1) / 2 = i → h.key ((i - 1) / 2) ≤ h.key k)

/-- Heap order of the first `n` slots but for the relation of slot `j` with
its parent, whose children are still no earlier than its parent: the loop
invariant of `heap.up`. -/
def UpInv (h : suspectionQueue) (j n : Nat) : Prop :=
  (∀ k, 0 < k → k < n → k ≠ j → h.key ((k - 1) / 2) ≤ h.key k)
  ∧ (0 < j → ∀ k, 0 < k → k < n → (k - 1) / 2 = j → h.key ((j - 1) / 2) ≤ h.key k)

/-- The node index and the queue describe the same records: the queue holds
no address twice, the index maps the node of every queued record to that
record, and every index entry is a queued record of that node. -/
def IndexConsistent (h : suspectionQueue) (idx : GoMap Node Ptr) : Prop :=
  h.q.Nodup ∧ (∀ p ∈ h.q, mapGet idx (h.mem p).node = some p)
  ∧ (∀ n p, mapGet idx n = some p → p ∈ h.q ∧ (h.mem p).node = n)

/-- The invariant of the suspicion queue that `heap.Push`, `heap.Remove` and
`heap.Pop` maintain: heap order, and agreement with the node index. -/
def QueueInv (e : EngineInstance) : Prop :=
  HeapOrdered e.suspectionQueue e.suspectionQueue.q.length
  ∧ IndexConsistent e.suspectionQueue e.suspectionNodeIndex

/-- The nodes whose tag reads succeed and show state DEAD. -/
def isDeadNode (KV : Node → Option SWIMTagTxn) (n : Node) : Bool :=
  match KV n with
  | some tag => decide (tag.State = DEAD)
  | none => false

/-- Every record of the queue holds its own position in `queueIndex`. -/
def PosOK (h : suspectionQueue) : Prop :=
  ∀ k, k < h.q.length → (h.mem (h.q.getD k 0)).queueIndex = k

/-- The relation between a queue and the queue after exchanges among its
first `n` slots: the same addresses, slots from `n` on untouched, the fields
`notAfter` and `node` of every record untouched, and positions kept right. -/
def Sifted (h h1 : suspectionQueue) (n : Nat) : Prop :=
  h1.q.length = h.q.length ∧ h1.q.Perm h.q
  ∧ (∀ k, n ≤ k → h1.q.getD k 0 = h.q.getD k 0)
  ∧ (∀ p, (h1.mem p).notAfter = (h.mem p).notAfter)
  ∧ (∀ p, (h1.mem p).node = (h.mem p).node)
  ∧ (h.q.Nodup → PosOK h → PosOK h1)

/-- Queue and index describe the same records, each at the position it
records, and the index has no key twice. -/
def RecordsInv (h : suspectionQueue) (idx : GoMap Node Ptr) : Prop :=
  PosOK h ∧ IndexConsistent h idx ∧ (idx.map Prod.fst).Nodup

/-- The invariant of the suspicion queue and the node index of an engine. -/
def SuspicionInv (e : EngineInstance) : Prop :=
  RecordsInv e.suspectionQueue e.suspectionNodeIndex

/-- What a handler does to the probes and to the `Ping` counter at `w` bits:
it leaves no target twice in `inPing` and either keeps the number of probes
and adds nothing, or starts one probe and adds one, or ends one probe and
subtracts one. -/
def PingEffect (w : Nat) (inPing : GoMap Node pingContext) (o : Outcome) : Prop :=
  (o.e.inPing.map Prod.fst).Nodup
  ∧ ((o.e.inPing.length = inPing.length
        ∧ (o.minc = none ∨ ∃ inc, o.minc = some inc ∧ inc.Ping = 0))
    ∨ (o.e.inPing.length = inPing.length + 1
        ∧ ∃ inc, o.minc = some inc ∧ inc.Ping = uAdd w 0 1)
    ∨ (o.e.inPing.length + 1 = inPing.length
        ∧ ∃ inc, o.minc = some inc ∧ inc.Ping = uSub w 0 1))

/-- The `Ping` counter agrees with the probes in progress: no target twice,
and the counter is their number at the width of the counter. -/
def PingInv (bits : CounterBits) (s : EngineRun) : Prop :=
  (s.e.inPing.map Prod.fst).Nodup ∧ s.metrics.Ping = s.e.inPing.length % 2 ^ bits.Ping

/-- The sum of `indirects` over the contexts in `inPing`. -/
def sumIndirects (inPing : GoMap Node pingContext) : Nat :=
  (inPing.map fun p => p.2.indirects).sum

/-- What a handler does to the ping-reqs outstanding and to the
`PingIndirect` counter, both read modulo `2 ^ 32`: it leaves no target twice
in `inPing`, and the sum of `indirects` moves by the increment it applies. -/
def IndirectEffect (inPing : GoMap Node pingContext) (o : Outcome) : Prop :=
  (o.e.inPing.map Prod.fst).Nodup
  ∧ (sumIndirects o.e.inPing : ZMod (2 ^ 32))
      = (sumIndirects inPing : ZMod (2 ^ 32))
        + ((match o.minc with
            | some inc => inc.PingIndirect
            | none => 0 : Nat) : ZMod (2 ^ 32))

/-- The `PingIndirect` counter agrees with the ping-reqs outstanding. -/
def IndirectInv (s : EngineRun) : Prop :=
  (s.e.inPing.map Prod.fst).Nodup
  ∧ s.metrics.PingIndirect = sumIndirects s.e.inPing % 2 ^ 32

/-- The calls that complete a probe by an ack. -/
def EngineStep.isAck : EngineStep → Bool
  | EngineStep.onPingAck _ _ _ => true
  | _ => false

/-- The node after a write of `_set`: the given key and value under the key,
every other key and the validators as they were. -/
def Written (n n1 : SladderNode) (key value : GoString) : Prop :=
  (∃ e, mapGet n1.kvs key = some (some e) ∧ e.entry.KeyValue = ⟨key, value⟩)
  ∧ (∀ k, k ≠ key → mapGet n1.kvs k = mapGet n.kvs k)
  ∧ n1.validators = n.validators

/-- A cluster of nodes 0 (self), 1, 2, 3; node 1 answers to the name `b`. -/
def sampleCluster : Cluster where
  Self := 0
  MostPossibleNode := fun names => if names = [ascii "b"] then some 1 else none
  Names := fun n => if n = 1 then [ascii "b"] else [ascii "x"]

/-- An engine with period 1000, one region `eu` of three nodes, a probe of
node 1 serving one proxy request, and two suspicions expiring at 10 and 20. -/
def sampleEngine : EngineInstance where
  cluster := sampleCluster
  minRegionPeer := 1
  gossipPeriod := 1000
  minPingReqTimeoutTimes := 3
  withRegion := [(ascii "eu", [1, 2, 3])]
  inPing := [(1, { id := 7, start := 0, proxyFor := [⟨[ascii "b"], [ascii "c"], 9⟩] })]
  roundTrips := []
  suspectionQueue := { mem := fun p => ⟨10 * p, 100 + p, p - 1⟩, q := [1, 2] }
  suspectionNodeIndex := [(101, 1), (102, 2)]

/-- Tag reads in which node 2 is ALIVE and every other node is DEAD. -/
def sampleKV (n : Node) : Option SWIMTagTxn :=
  some { tag := { State := if n = 2 then ALIVE else DEAD } }

/-- Tag reads in which every node is SUSPECTED. -/
def suspectedKV (_n : Node) : Option SWIMTagTxn :=
  some { tag := { State := SUSPECTED } }

/-- The sample engine at rest: no probe in progress, no suspicion queued. -/
def idleEngine : EngineInstance :=
  { sampleEngine with
    inPing := []
    suspectionQueue := { mem := fun _ => ⟨0, 0, 0⟩, q := [] }
    suspectionNodeIndex := [] }

theorem decodeRune_multibyte (b : Nat) (rest : GoString) (hb : 0x80 ≤ b)
    (hv : ¬((decodeRune (b :: rest)).1 = RuneError ∧ (decodeRune (b :: rest)).2 = 1)) :
    ∃ ps suf, rest = ps ++ suf ∧ ps.length + 1 = (decodeRune (b :: rest)).2 ∧
      encodeRune (decodeRune (b :: rest)).1 = b :: ps ∧
      ∀ t, decodeRune (b :: (ps ++ t)) = decodeRune (b :: rest) := by
  have hnb : ¬ b < 0x80 := by omega
  by_cases h2 : 0xC2 ≤ b ∧ b ≤ 0xDF
  · cases rest with
    | nil => simp [decodeRune, hnb, h2] at hv
    | cons b1 r1 =>
      by_cases c1 : isCont b1 = true
      · refine ⟨[b1], r1, rfl, ?_, ?_, ?_⟩
        · simp [decodeRune, hnb, h2, c1]
        · simp only [decodeRune, hnb, h2, c1, if_true, if_false, and_self, encodeRune]
          simp only [isCont, decide_eq_true_eq] at c1
          have e1 : ¬ (b % 32 * 64 + b1 % 64 ≤ 0x7F) := by omega
          have e2 : b % 32 * 64 + b1 % 64 ≤ 0x7FF := by omega
          simp only [e1, e2, if_true, if_false]
          congr 1
          · omega
          · congr 1; omega
        · intro t
          simp [decodeRune, hnb, h2, c1]
      · simp [decodeRune, hnb, h2, c1] at hv
  · by_cases h3 : 0xE0 ≤ b ∧ b ≤ 0xEF
    · match rest with
      | [] => simp [decodeRune, hnb, h2, h3] at hv
      | [_] => simp [decodeRune, hnb, h2, h3] at hv
      | b1 :: b2 :: r2 =>
        by_cases c3 : (if b = 0xE0 then 0xA0 else 0x80) ≤ b1
            ∧ b1 ≤ (if b = 0xED then 0x9F else 0xBF) ∧ isCont b2 = true
        · refine ⟨[b1, b2], r2, rfl, ?_, ?_, ?_⟩
          · simp [decodeRune, hnb, h2, h3, c3]
          · simp only [decodeRune, hnb, h2, h3, c3, if_true, if_false, and_self, encodeRune]
            obtain ⟨c3a, c3b, c3c⟩ := c3
            simp only [isCont, decide_eq_true_eq] at c3c
            have k1 : 0x80 ≤ b1 ∧ b1 ≤ 0xBF := by split_ifs at c3a c3b <;> omega
            have ka : b = 0xE0 → 0xA0 ≤ b1 := by intro h; simpa [h] using c3a
            have kb : b = 0xED → b1 ≤ 0x9F := by intro h; simpa [h] using c3b
            have e1 : ¬ (b % 16 * 4096 + b1 % 64 * 64 + b2 % 64 ≤ 0x7F) := by omega
            have e2 : ¬ (b % 16 * 4096 + b1 % 64 * 64 + b2 % 64 ≤ 0x7FF) := by omega
            have e3 : ¬ (MaxRune < b % 16 * 4096 + b1 % 64 * 64 + b2 % 64 ∨
                (0xD800 ≤ b % 16 * 4096 + b1 % 64 * 64 + b2 % 64 ∧
                  b % 16 * 4096 + b1 % 64 * 64 + b2 % 64 ≤ 0xDFFF)) := by
              simp only [MaxRune]; omega
            have e4 : b % 16 * 4096 + b1 % 64 * 64 + b2 % 64 ≤ 0xFFFF := by omega
            simp only [e1, e2, e3, e4, if_true, if_false]
            congr 1
            · omega
            · congr 1
              · omega
              · congr 1; omega
          · intro t
            simp [decodeRune, hnb, h2, h3, c3]
        · simp [decodeRune, hnb, h2, h3, c3] at hv
    · by_cases h4 : 0xF0 ≤ b ∧ b ≤ 0xF4
      · match rest with
        | [] => simp [decodeRune, hnb, h2, h3, h4] at hv
        | [_] => simp [decodeRune, hnb, h2, h3, h4] at hv
        | [_, _] => simp [decodeRune, hnb, h2, h3, h4] at hv
        | b1 :: b2 :: b3 :: r3 =>
          by_cases c4 : (if b = 0xF0 then 0x90 else 0x80) ≤ b1
              ∧ b1 ≤ (if b = 0xF4 then 0x8F else 0xBF) ∧ isCont b2 = true ∧ isCont b3 = true
          · refine ⟨[b1, b2, b3], r3, rfl, ?_, ?_, ?_⟩
            · simp [decodeRune, hnb, h2, h3, h4, c4]
            · simp only [decodeRune, hnb, h2, h3, h4, c4, if_true, if_false, and_self, encodeRune]
              obtain ⟨c4a, c4b, c4c, c4d⟩ := c4
              simp only [isCont, decide_eq_true_eq] at c4c c4d
              have k1 : 0x80 ≤ b1 ∧ b1 ≤ 0xBF := by split_ifs at c4a c4b <;> omega
              have ka : b = 0xF0 → 0x90 ≤ b1 := by intro h; simpa [h] using c4a
              have kb : b = 0xF4 → b1 ≤ 0x8F := by intro h; simpa [h] using c4b
              have e1 : ¬ (b % 8 * 262144 + b1 % 64 * 4096 + b2 % 64 * 64 + b3 % 64 ≤ 0x7F) := by
                omega
              have e2 : ¬ (b % 8 * 262144 + b1 % 64 * 4096 + b2 % 64 * 64 + b3 % 64 ≤ 0x7FF) := by
                omega
              have e3 : ¬ (MaxRune < b % 8 * 262144 + b1 % 64 * 4096 + b2 % 64 * 64 + b3 % 64 ∨
                  (0xD800 ≤ b % 8 * 262144 + b1 % 64 * 4096 + b2 % 64 * 64 + b3 % 64 ∧
                    b % 8 * 262144 + b1 % 64 * 4096 + b2 % 64 * 64 + b3 % 64 ≤ 0xDFFF)) := by
                simp only [MaxRune]; omega
              have e4 : ¬ (b % 8 * 262144 + b1 % 64 * 4096 + b2 % 64 * 64 + b3 % 64 ≤ 0xFFFF) := by
                omega
              simp only [e1, e2, e3, e4, if_true, if_false]
              congr 1
              · omega
              · congr 1
                · omega
                · congr 1
                  · omega
                  · congr 1; omega
            · intro t
              simp [decodeRune, hnb, h2, h3, h4, c4]
          · simp [decodeRune, hnb, h2, h3, h4, c4] at hv
      · simp [decodeRune, hnb, h2, h3, h4] at hv
theorem decodeRune_ascii (b : Nat) (rest : GoString) (hb : b < 0x80) :
    decodeRune (b :: rest) = (b, 1) := by
  simp [decodeRune, hb]

theorem readStringLoop_quote (f : Nat) (tail : GoString) :
    readStringLoop (f + 1) (0x22 :: tail) = some ([], tail) := by
  simp [readStringLoop]

theorem readStringLoop_plain (f b : Nat) (X : GoString) (h1 : 0x20 ≤ b) (h2 : b < 0x80)
    (h3 : b ≠ 0x22) (h4 : b ≠ 0x5C) :
    readStringLoop (f + 1) (b :: X) = prepend [b] (readStringLoop f X) := by
  have : ¬ b < 0x20 := by omega
  simp [readStringLoop, h3, h4, this, h2]

theorem readStringLoop_esc (f e b : Nat) (X : GoString) (he : e ≠ 0x75)
    (hu : unescape e = some b) :
    readStringLoop (f + 1) (0x5C :: e :: X) = prepend [b] (readStringLoop f X) := by
  simp [readStringLoop, he, hu]

theorem readStringLoop_u (f h1 h2 h3 h4 r : Nat) (X : GoString)
    (hg : getu4 (0x5C :: 0x75 :: h1 :: h2 :: h3 :: h4 :: X) = some r)
    (hs : isSurrogate r = false) :
    readStringLoop (f + 1) (0x5C :: 0x75 :: h1 :: h2 :: h3 :: h4 :: X)
      = prepend (encodeRune r) (readStringLoop f X) := by
  simp [readStringLoop, hg, hs]

theorem readStringLoop_multi (f b : Nat) (Y : GoString) (hb : 0x80 ≤ b) :
    readStringLoop (f + 1) (b :: Y)
      = prepend (encodeRune (decodeRune (b :: Y)).1)
          (readStringLoop f ((b :: Y).drop (decodeRune (b :: Y)).2)) := by
  have a1 : b ≠ 0x22 := by omega
  have a2 : b ≠ 0x5C := by omega
  have a3 : ¬ b < 0x20 := by omega
  have a4 : ¬ b < 0x80 := by omega
  simp [readStringLoop, a1, a2, a3, a4]
theorem getu4_escapeByte (b : Nat) (X : GoString) (hb : b < 0x80) :
    getu4 (0x5C :: 0x75 :: 0x30 :: 0x30 :: hexDigit (b / 16) :: hexDigit (b % 16) :: X)
      = some b := by
  have h1 : b / 16 < 8 := by omega
  have h2 : b % 16 < 16 := by omega
  have e1 : hexVal (hexDigit (b / 16)) = some (b / 16) := by
    unfold hexDigit hexVal; split_ifs <;> first | omega | (congr 1; omega)
  have e2 : hexVal (hexDigit (b % 16)) = some (b % 16) := by
    unfold hexDigit hexVal; split_ifs <;> first | omega | (congr 1; omega)
  have e0 : hexVal 0x30 = some 0 := by decide
  simp only [getu4, e0, e1, e2, and_self, if_true]
  congr 1; omega

theorem encodeRune_ascii (b : Nat) (hb : b < 0x80) : encodeRune b = [b] := by
  have : b ≤ 0x7F := by omega
  simp [encodeRune, this]

theorem readStringLoop_escapeByte (f b : Nat) (X : GoString) (hb : b < 0x80) :
    readStringLoop (f + 1) (escapeByte b ++ X) = prepend [b] (readStringLoop f X) := by
  unfold escapeByte
  split_ifs with c1 c2 c3 c4 c5 c6
  · have : unescape b = some b := by
      rcases c1 with h | h <;> subst h <;> decide
    exact readStringLoop_esc f b b X (by omega) this
  · subst c2; exact readStringLoop_esc f 0x62 0x08 X (by decide) (by decide)
  · subst c3; exact readStringLoop_esc f 0x66 0x0C X (by decide) (by decide)
  · subst c4; exact readStringLoop_esc f 0x6E 0x0A X (by decide) (by decide)
  · subst c5; exact readStringLoop_esc f 0x72 0x0D X (by decide) (by decide)
  · subst c6; exact readStringLoop_esc f 0x74 0x09 X (by decide) (by decide)
  · have hs : isSurrogate b = false := by
      simp only [isSurrogate, decide_eq_false_iff_not]; omega
    have := readStringLoop_u f 0x30 0x30 (hexDigit (b / 16)) (hexDigit (b % 16)) b X
      (getu4_escapeByte b X hb) hs
    rw [encodeRune_ascii b hb] at this
    exact this

theorem escapeByte_length_pos (b : Nat) : 0 < (escapeByte b).length := by
  unfold escapeByte; split_ifs <;> simp

theorem ascii_u202_length : (ascii "\\u202").length = 5 := rfl

theorem getu4_linesep (r : Nat) (X : GoString) (hr : r = 0x2028 ∨ r = 0x2029) :
    getu4 (ascii "\\u202" ++ [hexDigit (r % 16)] ++ X) = some r := by
  rcases hr with h | h <;> subst h <;> rfl

theorem readStringLoop_append : ∀ (f2 : Nat) (s : GoString) (f1 f3 : Nat) (tail : GoString),
    s.length ≤ f2 → validLoop f1 s = true → (appendStringLoop f2 s).length < f3 →
    readStringLoop f3 (appendStringLoop f2 s ++ 0x22 :: tail) = some (s, tail) := by
  intro f2
  induction f2 with
  | zero =>
    intro s f1 f3 tail hl _ hf
    have hs : s = [] := List.length_eq_zero.mp (by omega)
    subst hs
    obtain ⟨m, rfl⟩ : ∃ m, f3 = m + 1 := ⟨f3 - 1, by omega⟩
    simp [appendStringLoop, readStringLoop_quote]
  | succ k ih =>
    intro s f1 f3 tail hl hv hf
    obtain ⟨m, rfl⟩ : ∃ m, f3 = m + 1 := ⟨f3 - 1, by omega⟩
    cases s with
    | nil => simp [appendStringLoop, readStringLoop_quote]
    | cons b rest =>
      cases f1 with
      | zero => simp [validLoop] at hv
      | succ j =>
        simp only [validLoop] at hv
        split_ifs at hv with hinv
        simp only [List.length_cons] at hl
        by_cases hb : b < 0x80
        · -- ASCII
          rw [decodeRune_ascii b rest hb] at hv
          simp only [List.drop_succ_cons, List.drop_zero] at hv
          have happ : appendStringLoop (k + 1) (b :: rest)
              = (if htmlSafe b then [b] else escapeByte b) ++ appendStringLoop k rest := by
            simp [appendStringLoop, hb]
          rw [happ] at hf ⊢
          by_cases hsafe : htmlSafe b = true
          · simp only [hsafe, if_true, List.length_append, List.length_cons, List.length_nil,
              List.singleton_append, List.cons_append, List.nil_append] at hf ⊢
            have hs' := hsafe
            simp only [htmlSafe, decide_eq_true_eq] at hs'
            rw [readStringLoop_plain m b _ hs'.1 hb hs'.2.2.1 (by omega),
              ih rest j m tail (by omega) hv (by omega)]
            rfl
          · simp only [hsafe, List.append_assoc] at hf ⊢
            simp only [Bool.false_eq_true, if_false] at hf ⊢
            have hpos := escapeByte_length_pos b
            rw [readStringLoop_escapeByte m b _ hb,
              ih rest j m tail (by omega) hv (by simp only [List.length_append] at hf; omega)]
            rfl
        · -- multi-byte
          obtain ⟨ps, suf, hrest, hn, henc, hdec⟩ :=
            decodeRune_multibyte b rest (by omega) hinv
          have htake : (b :: rest).take (decodeRune (b :: rest)).2 = b :: ps := by
            rw [← hn, hrest]; simp
          have hdrop : (b :: rest).drop (decodeRune (b :: rest)).2 = suf := by
            rw [← hn, hrest]; simp
          rw [hdrop] at hv
          have hsl : suf.length ≤ k := by
            have := congrArg List.length hrest
            simp only [List.length_append] at this; omega
          by_cases hsep : (decodeRune (b :: rest)).1 = 0x2028 ∨ (decodeRune (b :: rest)).1 = 0x2029
          · have happ : appendStringLoop (k + 1) (b :: rest)
                = ascii "\\u202" ++ [hexDigit ((decodeRune (b :: rest)).1 % 16)]
                  ++ appendStringLoop k suf := by
              simp only [appendStringLoop, hb, if_false, hinv, hsep, if_true, hdrop]
            rw [happ] at hf ⊢
            have hg := getu4_linesep _ (appendStringLoop k suf ++ 0x22 :: tail) hsep
            have hsur : isSurrogate (decodeRune (b :: rest)).1 = false := by
              rcases hsep with h | h <;> rw [h] <;> decide
            have hshape : ascii "\\u202" ++ [hexDigit ((decodeRune (b :: rest)).1 % 16)]
                  ++ appendStringLoop k suf ++ 0x22 :: tail
                = 0x5C :: 0x75 :: 0x32 :: 0x30 :: 0x32 :: hexDigit ((decodeRune (b :: rest)).1 % 16)
                  :: (appendStringLoop k suf ++ 0x22 :: tail) := by
              simp [ascii]
            have hshape2 : ascii "\\u202" ++ [hexDigit ((decodeRune (b :: rest)).1 % 16)]
                  ++ (appendStringLoop k suf ++ 0x22 :: tail)
                = 0x5C :: 0x75 :: 0x32 :: 0x30 :: 0x32 :: hexDigit ((decodeRune (b :: rest)).1 % 16)
                  :: (appendStringLoop k suf ++ 0x22 :: tail) := by
              simp [ascii]
            rw [hshape2] at hg
            rw [hshape, readStringLoop_u m _ _ _ _ _ _ hg hsur, henc,
              ih suf j m tail hsl hv
                (by simp only [List.length_append, List.length_cons, ascii_u202_length] at hf
                    omega), hrest]
            simp [prepend]
          · have happ : appendStringLoop (k + 1) (b :: rest)
                = (b :: ps) ++ appendStringLoop k suf := by
              simp only [appendStringLoop, hb, if_false, hinv, hsep, htake, hdrop]
            rw [happ] at hf ⊢
            have hd := hdec (appendStringLoop k suf ++ 0x22 :: tail)
            have hshape : (b :: ps) ++ appendStringLoop k suf ++ 0x22 :: tail
                = b :: (ps ++ (appendStringLoop k suf ++ 0x22 :: tail)) := by simp
            rw [hshape, readStringLoop_multi m b _ (by omega), hd, henc, ← hn]
            have hdr : (b :: (ps ++ (appendStringLoop k suf ++ 0x22 :: tail))).drop (ps.length + 1)
                = appendStringLoop k suf ++ 0x22 :: tail := by simp
            rw [hdr, ih suf j m tail hsl hv
              (by simp only [List.length_append, List.length_cons] at hf; omega), hrest]
            simp [prepend]

theorem readString_appendString (s tail : GoString) (hv : utf8ValidString s = true) :
    readString (appendStringLoop s.length s ++ 0x22 :: tail) = some (s, tail) := by
  unfold readString
  refine readStringLoop_append s.length s s.length _ tail (le_refl _) hv ?_
  simp only [List.length_append, List.length_cons]
  omega

theorem formatUintLoop_shape : ∀ (fuel n : Nat) (acc : GoString), 0 < n → n < fuel →
    ∃ c ds, formatUintLoop fuel n acc = c :: (ds ++ acc) ∧ 0x31 ≤ c ∧ c ≤ 0x39
      ∧ ds.all isDigit = true := by
  intro fuel
  induction fuel with
  | zero => intro n acc _ h; omega
  | succ k ih =>
    intro n acc hn hf
    by_cases h10 : n < 10
    · refine ⟨0x30 + n, [], ?_, by omega, by omega, rfl⟩
      simp [formatUintLoop, h10]
    · obtain ⟨c, ds, he, h1, h2, h3⟩ := ih (n / 10) ((0x30 + n % 10) :: acc) (by omega) (by omega)
      refine ⟨c, ds ++ [0x30 + n % 10], ?_, h1, h2, ?_⟩
      · simp [formatUintLoop, h10, he]
      · simp only [List.all_append, h3, Bool.true_and, List.all_cons, List.all_nil, Bool.and_true,
          isDigit, decide_eq_true_eq]
        omega

theorem formatUintLoop_value : ∀ (fuel n : Nat) (acc : GoString), n < fuel →
    (formatUintLoop fuel n acc).foldl (fun a c => a * 10 + (c - 0x30)) 0
      = acc.foldl (fun a c => a * 10 + (c - 0x30)) n := by
  intro fuel
  induction fuel with
  | zero => intro n acc h; omega
  | succ k ih =>
    intro n acc hf
    by_cases h10 : n < 10
    · simp [formatUintLoop, h10]
    · have := ih (n / 10) ((0x30 + n % 10) :: acc) (by omega)
      simp only [formatUintLoop, h10, if_false, this, List.foldl_cons]
      congr 1
      omega

theorem formatUint_shape (n : Nat) (hn : 0 < n) :
    ∃ c ds, formatUint n = c :: ds ∧ 0x31 ≤ c ∧ c ≤ 0x39 ∧ ds.all isDigit = true := by
  obtain ⟨c, ds, he, h1, h2, h3⟩ := formatUintLoop_shape (n + 1) n [] hn (by omega)
  exact ⟨c, ds, by simpa [formatUint] using he, h1, h2, h3⟩

theorem parseUint_formatUint (n : Nat) (hn : 0 < n) (h64 : n < 2 ^ 64) :
    parseUint (formatUint n) = some n := by
  obtain ⟨c, ds, he, h1, h2, h3⟩ := formatUint_shape n hn
  have hv : (formatUint n).foldl (fun a c => a * 10 + (c - 0x30)) 0 = n := by
    have := formatUintLoop_value (n + 1) n [] (by omega)
    simpa [formatUint] using this
  have hall : (formatUint n).all isDigit = true := by
    rw [he]
    simp only [List.all_cons, h3, Bool.and_true, isDigit, decide_eq_true_eq]
    omega
  have hne : formatUint n ≠ [] := by rw [he]; simp
  unfold parseUint
  rw [if_neg hne, if_pos hall, hv, if_pos h64]

theorem takeWhile_digits (ds : GoString) (t0 : Nat) (tl : GoString)
    (hd : ds.all isDigit = true) (ht : isDigit t0 = false) :
    (ds ++ t0 :: tl).takeWhile isDigit = ds ∧ (ds ++ t0 :: tl).dropWhile isDigit = t0 :: tl := by
  induction ds with
  | nil => simp [List.takeWhile, List.dropWhile, ht]
  | cons d ds ih =>
    simp only [List.all_cons, Bool.and_eq_true] at hd
    obtain ⟨i1, i2⟩ := ih hd.2
    simp [List.takeWhile, List.dropWhile, hd.1, i1, i2]

theorem readNumber_digits (c : Nat) (ds : GoString) (t0 : Nat) (tl : GoString)
    (h1 : 0x31 ≤ c) (h2 : c ≤ 0x39) (hd : ds.all isDigit = true)
    (ht : t0 = 0x2C ∨ t0 = 0x7D) :
    readNumber (c :: (ds ++ t0 :: tl)) = some (c :: ds, t0 :: tl) := by
  have htd : isDigit t0 = false := by rcases ht with h | h <;> subst h <;> decide
  obtain ⟨i1, i2⟩ := takeWhile_digits ds t0 tl hd htd
  have c1 : c ≠ 0x2D := by omega
  have c2 : c ≠ 0x30 := by omega
  have t1 : t0 ≠ 0x2E := by rcases ht with h | h <;> subst h <;> decide
  have t2 : ¬ (t0 = 0x65 ∨ t0 = 0x45) := by rcases ht with h | h <;> subst h <;> decide
  simp [readNumber, readInt, readFrac, readExp, c1, c2, h1, h2, i1, i2, t1, t2]

theorem skipSpace_cons (c : Nat) (r : GoString) (h : isSpace c = false) :
    skipSpace (c :: r) = c :: r := by
  simp [skipSpace, h]

theorem readString_key (k : Nat) (tail : GoString) (h1 : 0x20 ≤ k) (h2 : k < 0x80)
    (h3 : k ≠ 0x22) (h4 : k ≠ 0x5C) :
    readString (k :: 0x22 :: tail) = some ([k], tail) := by
  unfold readString
  simp only [List.length_cons]
  rw [readStringLoop_plain _ k _ h1 h2 h3 h4, readStringLoop_quote]
  rfl

theorem readMembers_one (rv : GoString → Option (JValue × GoString)) (f : Nat)
    (x : Nat × GoString × JValue) (hx : GoodMember rv x) (t0 : Nat) (tl : GoString)
    (ht : t0 = 0x2C ∨ t0 = 0x7D) :
    readMembers rv (f + 1) (memberText x ++ t0 :: tl)
      = if t0 = 0x2C then
          (readMembers rv f (skipSpace tl)).map fun p => (([x.1], x.2.2) :: p.1, p.2)
        else some ([([x.1], x.2.2)], tl) := by
  obtain ⟨⟨k1, k2, k3, k4⟩, hrv, h, r, hvt, hsp⟩ := hx
  have hts : isSpace t0 = false := by rcases ht with h | h <;> subst h <;> decide
  have e1 : skipSpace (x.2.1 ++ t0 :: tl) = x.2.1 ++ t0 :: tl := by
    rw [hvt]; exact skipSpace_cons h _ hsp
  have e2 : skipSpace (0x3A :: (x.2.1 ++ t0 :: tl)) = 0x3A :: (x.2.1 ++ t0 :: tl) :=
    skipSpace_cons _ _ (by decide)
  have e3 := fun tail => readString_key x.1 tail k1 k2 k3 k4
  have hshape : memberText x ++ t0 :: tl = 0x22 :: x.1 :: 0x22 :: 0x3A :: (x.2.1 ++ t0 :: tl) := by
    simp [memberText]
  rw [hshape]
  simp only [readMembers, if_true, e3, e2, e1, hrv t0 tl ht, skipSpace_cons t0 tl hts]
  rcases ht with h | h <;> subst h <;> simp

theorem intercalate_cons_cons (sep a b : GoString) (l : List GoString) :
    sep.intercalate (a :: b :: l) = a ++ sep ++ sep.intercalate (b :: l) := by
  simp [List.intercalate, List.intersperse]

theorem readMembers_fields (rv : GoString → Option (JValue × GoString)) :
    ∀ (L : List (Nat × GoString × JValue)) (fuel : Nat) (tl : GoString),
      L ≠ [] → L.length ≤ fuel → (∀ x ∈ L, GoodMember rv x) →
      readMembers rv fuel ((ascii ",").intercalate (L.map memberText) ++ 0x7D :: tl)
        = some (L.map (fun x => ([x.1], x.2.2)), tl) := by
  intro L
  induction L with
  | nil => intro _ _ h; exact absurd rfl h
  | cons x L ih =>
    intro fuel tl _ hf hg
    obtain ⟨f, rfl⟩ : ∃ f, fuel = f + 1 := ⟨fuel - 1, by simp at hf; omega⟩
    have hx := hg x (List.mem_cons_self _ _)
    cases L with
    | nil =>
      have : (ascii ",").intercalate ([x].map memberText) = memberText x := by
        simp [List.intercalate, List.intersperse]
      rw [this, readMembers_one rv f x hx 0x7D tl (Or.inr rfl)]
      simp
    | cons y L =>
      have hshape : (ascii ",").intercalate ((x :: y :: L).map memberText) ++ 0x7D :: tl
          = memberText x ++ 0x2C ::
              ((ascii ",").intercalate ((y :: L).map memberText) ++ 0x7D :: tl) := by
        simp only [List.map_cons, intercalate_cons_cons]
        simp [ascii]
      have hy := hg y (List.mem_cons_of_mem _ (List.mem_cons_self _ _))
      have hsk : skipSpace ((ascii ",").intercalate ((y :: L).map memberText) ++ 0x7D :: tl)
          = (ascii ",").intercalate ((y :: L).map memberText) ++ 0x7D :: tl := by
        cases L with
        | nil =>
          simp only [List.map_cons, List.map_nil, List.intercalate, List.intersperse,
            List.flatten, List.append_nil, memberText, List.cons_append]
          exact skipSpace_cons _ _ (by decide)
        | cons z L =>
          simp only [List.map_cons, intercalate_cons_cons, memberText, List.cons_append]
          exact skipSpace_cons _ _ (by decide)
      rw [hshape, readMembers_one rv f x hx 0x2C _ (Or.inl rfl), hsk,
        ih f tl (by simp) (by simp at hf ⊢; omega)
          (fun z hz => hg z (List.mem_cons_of_mem _ hz))]
      simp

theorem fields_eq_tagMembers (t : SWIMTag) : t.fields = (tagMembers t).map memberText := by
  unfold SWIMTag.fields tagMembers
  split_ifs <;> simp [memberText, ascii]

theorem goodMember_number (f d k n : Nat) (hn : 0 < n)
    (hk : 0x20 ≤ k ∧ k < 0x80 ∧ k ≠ 0x22 ∧ k ≠ 0x5C) :
    GoodMember (fun s => readValue (f + 1) d s) (k, formatUint n, JValue.number (formatUint n)) := by
  obtain ⟨c, ds, he, h1, h2, h3⟩ := formatUint_shape n hn
  refine ⟨hk, ?_, c, ds, he, ?_⟩
  · intro t0 tl ht
    have hr := readNumber_digits c ds t0 tl h1 h2 h3 ht
    have a1 : c ≠ 0x7B := by omega
    have a2 : c ≠ 0x5B := by omega
    have a3 : c ≠ 0x22 := by omega
    have a4 : isDigit c = true := by simp only [isDigit, decide_eq_true_eq]; omega
    show readValue (f + 1) d (formatUint n ++ t0 :: tl)
      = some (JValue.number (formatUint n), t0 :: tl)
    rw [he, List.cons_append]
    simp only [readValue, a1, a2, a3, a4, if_false, or_true, if_true, hr]
    rfl
  · simp only [isSpace, decide_eq_false_iff_not]; omega

theorem goodMember_string (f d k : Nat) (r : GoString) (hv : utf8ValidString r = true)
    (hk : 0x20 ≤ k ∧ k < 0x80 ∧ k ≠ 0x22 ∧ k ≠ 0x5C) :
    GoodMember (fun s => readValue (f + 1) d s) (k, appendString r, JValue.string r) := by
  refine ⟨hk, ?_, 0x22, appendStringLoop r.length r ++ [0x22], by simp [appendString],
    by decide⟩
  intro t0 tl _
  show readValue (f + 1) d (appendString r ++ t0 :: tl) = some (JValue.string r, t0 :: tl)
  have hs : appendString r ++ t0 :: tl
      = 0x22 :: (appendStringLoop r.length r ++ 0x22 :: t0 :: tl) := by
    simp [appendString]
  have hr := readString_appendString r (t0 :: tl) hv
  rw [hs]
  simp only [readValue]
  simp only [show ((0x22 : Nat) = 0x7B) = False from by decide,
    show ((0x22 : Nat) = 0x5B) = False from by decide, if_false, if_true, hr]
  rfl

theorem goodMember_tag (f d : Nat) (t : SWIMTag) (hr : utf8ValidString t.Region = true) :
    ∀ x ∈ tagMembers t, GoodMember (fun s => readValue (f + 1) d s) x := by
  intro x hx
  unfold tagMembers at hx
  simp only [List.mem_append] at hx
  rcases hx with (hx | hx) | hx
  · split_ifs at hx with h0
    · simp at hx
    · simp only [List.mem_singleton] at hx
      subst hx
      exact goodMember_number f d _ _ (by omega) (by decide)
  · split_ifs at hx with h0
    · simp at hx
    · simp only [List.mem_singleton] at hx
      subst hx
      exact goodMember_number f d _ _ (Nat.pos_of_ne_zero h0) (by decide)
  · split_ifs at hx with h0
    · simp at hx
    · simp only [List.mem_singleton] at hx
      subst hx
      exact goodMember_string f d _ _ hr (by decide)

theorem tagMembers_length (t : SWIMTag) : (tagMembers t).length ≤ 3 := by
  unfold tagMembers
  split_ifs <;> simp

theorem parseJSON_object (rest : GoString) (L : List (Nat × GoString × JValue))
    (hL : L ≠ []) (hlen : L.length ≤ 3)
    (hg : ∀ f d, ∀ x ∈ L, GoodMember (fun s => readValue (f + 1) d s) x)
    (hrest : rest = (ascii ",").intercalate (L.map memberText) ++ [0x7D]) :
    parseJSON (0x7B :: rest) = some (JValue.object (L.map fun x => ([x.1], x.2.2))) := by
  obtain ⟨x, L', rfl⟩ : ∃ x L', L = x :: L' := by
    cases L with
    | nil => exact absurd rfl hL
    | cons x L' => exact ⟨x, L', rfl⟩
  obtain ⟨r1, hr1⟩ : ∃ r1, rest = 0x22 :: x.1 :: 0x22 :: 0x3A :: r1 := by
    cases L' with
    | nil => exact ⟨x.2.1 ++ [0x7D], by rw [hrest]; simp [List.intercalate, memberText]⟩
    | cons y L'' =>
      exact ⟨_, by rw [hrest, List.map_cons, List.map_cons, intercalate_cons_cons]
                   simp only [memberText, List.cons_append, List.append_assoc]
                   rfl⟩
  have hl4 : 4 ≤ rest.length := by rw [hr1]; simp
  obtain ⟨f, hf⟩ : ∃ f, rest.length = f + 1 := ⟨rest.length - 1, by omega⟩
  have hm := readMembers_fields (fun s => readValue (f + 1) 1 s) (x :: L') (f + 1) []
    (by simp) (by omega) (hg f 1)
  rw [← hrest] at hm
  have hsk : skipSpace (0x7B :: rest) = 0x7B :: rest := skipSpace_cons _ _ (by decide)
  have hsk2 : skipSpace rest = rest := by rw [hr1]; exact skipSpace_cons _ _ (by decide)
  unfold parseJSON
  rw [hsk, List.length_cons, hf]
  simp only [readValue, if_true, hsk2]
  have hd : ¬ maxNestingDepth ≤ 0 := by decide
  simp only [hd, if_false]
  rw [hr1] at hm ⊢
  simp only [show ((0x22 : Nat) = 0x7D) = False from by decide, if_false, hm]
  simp [skipSpace]

theorem foldlM_store_tagMembers (t : SWIMTag) (hv : t.Version < 2 ^ 32) (hs : t.State < 2 ^ 8) :
    ((tagMembers t).map fun x => ([x.1], x.2.2)).foldlM SWIMTag.store {} = some t := by
  obtain ⟨v, s, r⟩ := t
  simp only at hv hs
  norm_num at hv hs
  have pv : v ≠ 0 → parseUint (formatUint v) = some v :=
    fun h => parseUint_formatUint v (Nat.pos_of_ne_zero h) (by omega)
  have ps : s ≠ 0 → parseUint (formatUint s) = some s :=
    fun h => parseUint_formatUint s (Nat.pos_of_ne_zero h) (lt_trans hs (by norm_num))
  unfold tagMembers
  by_cases h1 : v = 0 <;> by_cases h2 : s = 0 <;> by_cases h3 : r = [] <;>
    simp [h1, h2, h3, SWIMTag.store, lookupField, storeUint, storeString, pv, ps, hv, hs]

theorem decode_encode_of_valid (t : SWIMTag) (hv : t.Version < 2 ^ 32) (hs : t.State < 2 ^ 8)
    (hr : utf8ValidString t.Region = true) :
    SWIMTag.Decode {} t.Encode = some t := by
  unfold SWIMTag.Decode unmarshalStruct
  by_cases hL : tagMembers t = []
  · have hf : t.fields = [] := by rw [fields_eq_tagMembers, hL]; rfl
    have ht : t = {} := by
      have := foldlM_store_tagMembers t hv hs
      rw [hL] at this
      simpa using this.symm
    have he : t.Encode = [0x7B, 0x7D] := by
      unfold SWIMTag.Encode; rw [hf]; rfl
    rw [he, ht]
    rfl
  · have he : t.Encode = 0x7B :: ((ascii ",").intercalate ((tagMembers t).map memberText) ++ [0x7D]) := by
      unfold SWIMTag.Encode; rw [fields_eq_tagMembers]; rfl
    rw [he, parseJSON_object _ (tagMembers t) hL (tagMembers_length t)
      (fun f d => goodMember_tag f d t hr) rfl]
    exact foldlM_store_tagMembers t hv hs

/-! ## Supporting facts about `Sync`, `Validate` and `ClaimDead` -/

theorem sync_of_decode_none (entry : KeyValueEntry) (remote : KeyValue)
    (h : SWIMTag.Decode {} remote.Value = none) :
    SWIMTagValidator.Sync entry (some remote)
      = { changed := false, err := none, entry := entry } := by
  simp [SWIMTagValidator.Sync, h]

theorem sync_of_decode_some (entry : KeyValueEntry) (remote : KeyValue) (r : SWIMTag)
    (h : SWIMTag.Decode {} remote.Value = some r) :
    SWIMTagValidator.Sync entry (some remote)
      = if r.State = DEAD ∨ r.State = LEFT then
          { changed := true, err := none,
            entry := { entry with KeyValue := { entry.KeyValue with Value := r.Encode } } }
        else { changed := false, err := none, entry := entry } := by
  obtain ⟨v, s, g⟩ := r
  simp only [SWIMTagValidator.Sync, h, lt_irrefl, gt_iff_lt, if_false, mergeState]
  by_cases h2 : s = DEAD
  · subst h2; simp [DEAD, SUSPECTED, LEFT]
  · by_cases h3 : s = LEFT
    · subst h3; simp [DEAD, SUSPECTED, LEFT]
    · by_cases h1 : s = SUSPECTED
      · subst h1; simp [DEAD, SUSPECTED, LEFT, ALIVE]
      · simp [h1, h2, h3]

theorem validate_of_decode (kv : KeyValue) (t : SWIMTag)
    (h : SWIMTag.Decode {} kv.Value = some t) : SWIMTagValidator.Validate kv = true := by
  unfold SWIMTagValidator.Validate
  split_ifs with he
  · rfl
  · unfold SWIMTag.Decode unmarshalStruct at h
    unfold unmarshalStruct
    cases hp : parseJSON kv.Value with
    | none => rw [hp] at h; simp at h
    | some v =>
      rw [hp] at h
      cases v with
      | null => rfl
      | object ms =>
        show (ms.foldlM (fun (u : Unit) _ => some u) ()).isSome = true
        have : ∀ (l : List (GoString × JValue)),
            l.foldlM (fun (u : Unit) _ => some u) () = some () := by
          intro l
          induction l with
          | nil => rfl
          | cons a l ih => simpa [List.foldlM] using ih
        rw [this]; rfl
      | bool b => simp at h
      | number l => simp at h
      | string l => simp at h
      | array l => simp at h

/-! ## Claims C1 to C10 -/

/-- Claim C1, refuted on the code.  Stored `{"v":1}` and remote `{"v":2}` both
decode, the remote version is higher, yet `Sync` returns changed=false and
leaves the stored value; stored `{"v":5}` and remote `{"v":1,"s":2}` both
decode, the remote version is lower, yet `Sync` returns changed=true and
stores the remote tag. -/
theorem C1_sync_does_not_compare_with_stored_version :
    SWIMTag.Decode {} (ascii "\x7b\"v\":1\x7d") = some { Version := 1 }
    ∧ SWIMTag.Decode {} (ascii "\x7b\"v\":2\x7d") = some { Version := 2 }
    ∧ SWIMTagValidator.Sync ⟨⟨ascii "swim", ascii "\x7b\"v\":1\x7d"⟩⟩
          (some ⟨ascii "swim", ascii "\x7b\"v\":2\x7d"⟩)
        = { changed := false, err := none,
            entry := ⟨⟨ascii "swim", ascii "\x7b\"v\":1\x7d"⟩⟩ }
    ∧ SWIMTag.Decode {} (ascii "\x7b\"v\":5\x7d") = some { Version := 5 }
    ∧ SWIMTag.Decode {} (ascii "\x7b\"v\":1,\"s\":2\x7d") = some { Version := 1, State := DEAD }
    ∧ SWIMTagValidator.Sync ⟨⟨ascii "swim", ascii "\x7b\"v\":5\x7d"⟩⟩
          (some ⟨ascii "swim", ascii "\x7b\"v\":1,\"s\":2\x7d"⟩)
        = { changed := true, err := none,
            entry := ⟨⟨ascii "swim", ascii "\x7b\"v\":1,\"s\":2\x7d"⟩⟩ } := by
  decide

/-- Claim C2, refuted on the code.  Stored `{"v":1}` is ALIVE, remote
`{"v":1,"s":1}` is SUSPECTED at the same version, yet `Sync` returns
changed=false and the stored value stays ALIVE. -/
theorem C2_sync_suspected_does_not_raise_alive :
    SWIMTag.Decode {} (ascii "\x7b\"v\":1\x7d") = some { Version := 1, State := ALIVE }
    ∧ SWIMTag.Decode {} (ascii "\x7b\"v\":1,\"s\":1\x7d")
        = some { Version := 1, State := SUSPECTED }
    ∧ SWIMTagValidator.Sync ⟨⟨ascii "swim", ascii "\x7b\"v\":1\x7d"⟩⟩
          (some ⟨ascii "swim", ascii "\x7b\"v\":1,\"s\":1\x7d"⟩)
        = { changed := false, err := none,
            entry := ⟨⟨ascii "swim", ascii "\x7b\"v\":1\x7d"⟩⟩ } := by
  decide

/-- Claim C3, refuted on the code (scenario S4).  Stored `{"v":5,"s":3}` is
LEFT, remote `{"v":5,"s":2}` is DEAD at the same version, yet `Sync` returns
changed=true and the stored value becomes the DEAD tag. -/
theorem C3_sync_dead_overwrites_left :
    SWIMTag.Decode {} (ascii "\x7b\"v\":5,\"s\":3\x7d") = some { Version := 5, State := LEFT }
    ∧ SWIMTag.Decode {} (ascii "\x7b\"v\":5,\"s\":2\x7d") = some { Version := 5, State := DEAD }
    ∧ SWIMTagValidator.Sync ⟨⟨ascii "swim", ascii "\x7b\"v\":5,\"s\":3\x7d"⟩⟩
          (some ⟨ascii "swim", ascii "\x7b\"v\":5,\"s\":2\x7d"⟩)
        = { changed := true, err := none,
            entry := ⟨⟨ascii "swim", ascii "\x7b\"v\":5,\"s\":2\x7d"⟩⟩ } := by
  decide

/-- Claim C4, refuted on the code.  With stored `{}` and remote `{"s":2}`
(DEAD), the first `Sync` returns changed=true and the second `Sync` of the
same remote value into the resulting entry returns changed=true again. -/
theorem C4_sync_second_call_reports_change :
    (SWIMTagValidator.Sync ⟨⟨ascii "swim", ascii "\x7b\x7d"⟩⟩
        (some ⟨ascii "swim", ascii "\x7b\"s\":2\x7d"⟩)).changed = true
    ∧ (SWIMTagValidator.Sync
        (SWIMTagValidator.Sync ⟨⟨ascii "swim", ascii "\x7b\x7d"⟩⟩
          (some ⟨ascii "swim", ascii "\x7b\"s\":2\x7d"⟩)).entry
        (some ⟨ascii "swim", ascii "\x7b\"s\":2\x7d"⟩)).changed = true := by
  decide

/-- Claim C5, refuted on the code.  Stored `{"r":"a"}` and remote
`{"s":2,"r":"b"}` decode to tags of equal version 0 with regions `a` and `b`;
after `Sync` the stored value decodes to region `b`. -/
theorem C5_sync_takes_remote_region :
    SWIMTag.Decode {} (ascii "\x7b\"r\":\"a\"\x7d") = some { Region := ascii "a" }
    ∧ SWIMTag.Decode {} (ascii "\x7b\"s\":2,\"r\":\"b\"\x7d")
        = some { State := DEAD, Region := ascii "b" }
    ∧ SWIMTag.Decode {}
        (SWIMTagValidator.Sync ⟨⟨ascii "swim", ascii "\x7b\"r\":\"a\"\x7d"⟩⟩
          (some ⟨ascii "swim", ascii "\x7b\"s\":2,\"r\":\"b\"\x7d"⟩)).entry.KeyValue.Value
        = some { State := DEAD, Region := ascii "b" } := by
  decide

/-- Claim C6, refuted on the code.  Stored `garbage` does not decode, remote
`{"v":1}` does, yet `Sync` returns changed=false and keeps the stored value. -/
theorem C6_sync_keeps_undecodable_stored_value :
    SWIMTag.Decode {} (ascii "garbage") = none
    ∧ SWIMTag.Decode {} (ascii "\x7b\"v\":1\x7d") = some { Version := 1 }
    ∧ SWIMTagValidator.Sync ⟨⟨ascii "swim", ascii "garbage"⟩⟩
          (some ⟨ascii "swim", ascii "\x7b\"v\":1\x7d"⟩)
        = { changed := false, err := none, entry := ⟨⟨ascii "swim", ascii "garbage"⟩⟩ } := by
  decide

/-- Claim C7.  For every stored entry and every remote value that fails to
decode as a tag, `Sync` returns changed=false with no error and leaves the
entry as it was. -/
theorem C7_sync_rejects_undecodable_remote (entry : KeyValueEntry) (remote : KeyValue)
    (h : SWIMTag.Decode {} remote.Value = none) :
    (SWIMTagValidator.Sync entry (some remote)).changed = false
    ∧ (SWIMTagValidator.Sync entry (some remote)).err = none
    ∧ (SWIMTagValidator.Sync entry (some remote)).entry = entry := by
  rw [sync_of_decode_none entry remote h]
  exact ⟨rfl, rfl, rfl⟩

/-- Witness of C7: remote value `[1,2]` is valid JSON that is no tag; the
stored `{"v":1}` is left alone. -/
theorem C7_sync_rejects_undecodable_remote_witness :
    SWIMTag.Decode {} (ascii "[1,2]") = none
    ∧ (SWIMTagValidator.Sync ⟨⟨ascii "swim", ascii "\x7b\"v\":1\x7d"⟩⟩
        (some ⟨ascii "swim", ascii "[1,2]"⟩)).changed = false
    ∧ (SWIMTagValidator.Sync ⟨⟨ascii "swim", ascii "\x7b\"v\":1\x7d"⟩⟩
        (some ⟨ascii "swim", ascii "[1,2]"⟩)).err = none
    ∧ (SWIMTagValidator.Sync ⟨⟨ascii "swim", ascii "\x7b\"v\":1\x7d"⟩⟩
        (some ⟨ascii "swim", ascii "[1,2]"⟩)).entry
        = ⟨⟨ascii "swim", ascii "\x7b\"v\":1\x7d"⟩⟩ :=
  ⟨by decide,
    C7_sync_rejects_undecodable_remote ⟨⟨ascii "swim", ascii "\x7b\"v\":1\x7d"⟩⟩
      ⟨ascii "swim", ascii "[1,2]"⟩ (by decide)⟩

/-- Claim C8, refuted on the code.  The value `{"v":-1}` is not empty and
`SWIMTag.Decode` fails on it (a negative number does not fit `uint32`), yet
`Validate` returns true. -/
theorem C8_validate_accepts_undecodable_value :
    ascii "\x7b\"v\":-1\x7d" ≠ []
    ∧ SWIMTag.Decode {} (ascii "\x7b\"v\":-1\x7d") = none
    ∧ SWIMTagValidator.Validate ⟨ascii "swim", ascii "\x7b\"v\":-1\x7d"⟩ = true := by
  decide

/-- Counterexample to C9 as stated.  The tag whose region is the single byte
`0xFF` (not valid UTF-8) is encoded as `{"r":"\ufffd"}` and decodes to the
region `EF BF BD`, a different tag. -/
theorem C9_roundtrip_fails_on_invalid_utf8 :
    SWIMTag.Encode { Region := [0xFF] } = ascii "\x7b\"r\":\"\\ufffd\"\x7d"
    ∧ SWIMTag.Decode {} (SWIMTag.Encode { Region := [0xFF] })
        = some { Region := [0xEF, 0xBF, 0xBD] }
    ∧ SWIMTag.Decode {} (SWIMTag.Encode { Region := [0xFF] }) ≠ some { Region := [0xFF] } := by
  decide

/-- Claim C9 as amended.  For every tag whose version is a `uint32`, whose
state is a `uint8` and whose region is valid UTF-8, decoding `Encode(T)` into
a fresh tag succeeds and yields `T`, zero fields (omitted from the text)
included. -/
theorem C9_decode_encode_roundtrip (t : SWIMTag) (hv : t.Version < 2 ^ 32)
    (hs : t.State < 2 ^ 8) (hr : utf8ValidString t.Region = true) :
    SWIMTag.Decode {} t.Encode = some t :=
  decode_encode_of_valid t hv hs hr

/-- Witness of C9 as amended: version 7, state LEFT, region `eu-1`, and the
all-zero tag. -/
theorem C9_decode_encode_roundtrip_witness :
    (SWIMTag.Decode {} (SWIMTag.Encode { Version := 7, State := LEFT, Region := ascii "eu-1" })
        = some { Version := 7, State := LEFT, Region := ascii "eu-1" })
    ∧ SWIMTag.Decode {} (SWIMTag.Encode {}) = some {} :=
  ⟨C9_decode_encode_roundtrip { Version := 7, State := LEFT, Region := ascii "eu-1" }
      (by decide) (by decide) (by decide),
    C9_decode_encode_roundtrip {} (by decide) (by decide) (by decide)⟩

/-- Claim C10.  For every tag transaction, `ClaimDead` returns true exactly
when the state before the call is neither LEFT nor DEAD; afterwards the state
is DEAD unless it was LEFT, in which case the state, the changed flag and the
encoded value are unchanged; version and region are never changed. -/
theorem C10_claimDead (t : SWIMTagTxn) :
    (t.ClaimDead.1 = true ↔ t.tag.State ≠ LEFT ∧ t.tag.State ≠ DEAD)
    ∧ (t.tag.State ≠ LEFT → t.ClaimDead.2.tag.State = DEAD)
    ∧ (t.tag.State = LEFT →
        t.ClaimDead.2.tag.State = t.tag.State ∧ t.ClaimDead.2.changed = t.changed
          ∧ t.ClaimDead.2.After = t.After)
    ∧ t.ClaimDead.2.tag.Version = t.tag.Version
    ∧ t.ClaimDead.2.tag.Region = t.tag.Region := by
  unfold SWIMTagTxn.ClaimDead
  by_cases h1 : t.tag.State = LEFT
  · simp [h1]
  · by_cases h2 : t.tag.State = DEAD
    · simp [h1, h2]
    · simp [h1, h2]

/-! ## Lemmas: tag transactions -/

theorem call_changed_of_changed (t : SWIMTagTxn) (c : TxnCall) (h : t.changed = true) :
    (t.call c).changed = true := by
  cases c <;>
    simp only [SWIMTagTxn.call, SWIMTagTxn.ClaimDead, SWIMTagTxn.ClaimSuspected,
      SWIMTagTxn.ClaimAlive, SWIMTagTxn.Leave, SWIMTagTxn.SetRegion] <;>
    split_ifs <;> simp [h]

theorem call_tag_eq_or_changed (t : SWIMTagTxn) (c : TxnCall) :
    (t.call c).tag = t.tag ∨ (t.call c).changed = true := by
  cases c <;>
    simp only [SWIMTagTxn.call, SWIMTagTxn.ClaimDead, SWIMTagTxn.ClaimSuspected,
      SWIMTagTxn.ClaimAlive, SWIMTagTxn.Leave, SWIMTagTxn.SetRegion] <;>
    split_ifs <;> simp

theorem calls_changed_of_changed (cs : List TxnCall) :
    ∀ t : SWIMTagTxn, t.changed = true → (t.calls cs).changed = true := by
  induction cs with
  | nil => intro t h; exact h
  | cons c cs ih =>
    intro t h
    exact ih (t.call c) (call_changed_of_changed t c h)

theorem calls_append (t : SWIMTagTxn) (pre suf : List TxnCall) :
    t.calls (pre ++ suf) = (t.calls pre).calls suf := by
  simp [SWIMTagTxn.calls, List.foldl_append]

theorem calls_tag_eq_or_changed (cs : List TxnCall) :
    ∀ t : SWIMTagTxn, (t.calls cs).tag = t.tag ∨ (t.calls cs).changed = true := by
  induction cs with
  | nil => intro t; exact Or.inl rfl
  | cons c cs ih =>
    intro t
    rcases call_tag_eq_or_changed t c with h1 | h1
    · rcases ih (t.call c) with h2 | h2
      · exact Or.inl (h2.trans h1)
      · exact Or.inr h2
    · exact Or.inr (calls_changed_of_changed cs (t.call c) h1)

/-! ## Lemmas: maps and unsigned counters -/

theorem mapGet_mapDelete {κ α : Type} [DecidableEq κ] (m : GoMap κ α) (k k1 : κ) :
    mapGet (mapDelete m k) k1 = if k1 = k then none else mapGet m k1 := by
  induction m with
  | nil => simp [mapDelete, mapGet]
  | cons p m ih =>
    obtain ⟨a, v⟩ := p
    unfold mapDelete at ih ⊢
    by_cases h1 : a = k
    · subst h1
      by_cases h2 : k1 = a
      · subst h2; simpa [List.filter, mapGet] using ih
      · have h3 : a ≠ k1 := fun h => h2 h.symm
        simpa [List.filter, mapGet, h2, h3] using ih
    · by_cases h2 : a = k1
      · subst h2
        simp [List.filter, mapGet, h1]
      · simp only [List.filter, h1, ne_eq, not_false_eq_true, decide_True, mapGet, h2, if_false]
        exact ih

theorem mapGet_map_replace {κ α : Type} [DecidableEq κ] (m : GoMap κ α) (k : κ) (v : α)
    (h : (mapGet m k).isSome = true) :
    mapGet (m.map fun p => (p.1, if p.1 = k then v else p.2)) k = some v := by
  induction m with
  | nil => simp [mapGet] at h
  | cons p m ih =>
    obtain ⟨a, w⟩ := p
    by_cases h1 : a = k
    · subst h1; simp [mapGet]
    · have h2 : mapGet ((a, w) :: m) k = mapGet m k := by simp [mapGet, h1]
      rw [h2] at h
      simp [mapGet, h1, ih h]

theorem mapGet_append_new {κ α : Type} [DecidableEq κ] (m : GoMap κ α) (k : κ) (v : α)
    (h : (mapGet m k).isSome = false) : mapGet (m ++ [(k, v)]) k = some v := by
  induction m with
  | nil => simp [mapGet]
  | cons p m ih =>
    obtain ⟨a, w⟩ := p
    by_cases h1 : a = k
    · subst h1; simp [mapGet] at h
    · have h2 : mapGet ((a, w) :: m) k = mapGet m k := by simp [mapGet, h1]
      rw [h2] at h
      simp [mapGet, h1, ih h]

theorem mapGet_mapSet_self {κ α : Type} [DecidableEq κ] (m : GoMap κ α) (k : κ) (v : α) :
    mapGet (mapSet m k v) k = some v := by
  unfold mapSet
  split_ifs with h
  · exact mapGet_map_replace m k v h
  · exact mapGet_append_new m k v (by simpa using h)

theorem uSub_zero_one (w : Nat) : uSub w 0 1 = 2 ^ w - 1 := by
  unfold uSub
  rcases Nat.eq_zero_or_pos w with h | h
  · subst h; simp
  · have h2 : 2 ≤ 2 ^ w := by
      calc 2 = 2 ^ 1 := rfl
        _ ≤ 2 ^ w := Nat.pow_le_pow_right (by norm_num) h
    rw [Nat.mod_eq_of_lt (by omega : 1 < 2 ^ w), Nat.zero_add]
    exact Nat.mod_eq_of_lt (by omega)

/-! ## Lemmas: `onPingAck` -/

theorem onPingAck_of_context (bits : CounterBits) (e : EngineInstance) (now : Int)
    (sender NamesProxyFor : List GoString) (node : Node) (pingCtx : pingContext)
    (hn : e.cluster.MostPossibleNode
      (if NamesProxyFor.length < 1 then sender else NamesProxyFor) = some node)
    (hc : mapGet e.inPing node = some pingCtx) :
    (e.onPingAck bits now sender NamesProxyFor).e.inPing = mapDelete e.inPing node
    ∧ (e.onPingAck bits now sender NamesProxyFor).e.roundTrips
        = mapSet e.roundTrips node (timeSub now pingCtx.start)
    ∧ (e.onPingAck bits now sender NamesProxyFor).sent
        = pingCtx.proxyFor.map
            (fun r => (⟨r.origin, GossipMessage.Ack r.id r.target⟩ : Sent))
    ∧ (e.onPingAck bits now sender NamesProxyFor).minc
        = some ({ Ping := 2 ^ bits.Ping - 1, Success := 1 % 2 ^ bits.Success
                  ProxySuccess := pingCtx.proxyFor.length % 2 ^ 64 } :
                FailureDetectorMetricIncrement) := by
  unfold EngineInstance.onPingAck
  simp only [hn, hc, true_and]
  rw [uSub_zero_one]
  by_cases hk : pingCtx.proxyFor.length > 0
  · simp [hk, uAdd]
  · have : pingCtx.proxyFor.length = 0 := by omega
    simp [this, uAdd]

theorem onPingAck_of_no_context (bits : CounterBits) (e : EngineInstance) (now : Int)
    (sender NamesProxyFor : List GoString) (node : Node)
    (hn : e.cluster.MostPossibleNode
      (if NamesProxyFor.length < 1 then sender else NamesProxyFor) = some node)
    (hc : mapGet e.inPing node = none) :
    (e.onPingAck bits now sender NamesProxyFor).e = e
    ∧ (e.onPingAck bits now sender NamesProxyFor).sent = []
    ∧ (e.onPingAck bits now sender NamesProxyFor).minc
        = some ({} : FailureDetectorMetricIncrement) := by
  refine ⟨?_, ?_, ?_⟩ <;> simp only [EngineInstance.onPingAck, hn, hc]

/-! ## Lemmas: `processPingTimeout` -/

theorem wrap64_of_range (x : Int) (h1 : -(2 ^ 63) ≤ x) (h2 : x < 2 ^ 63) : wrap64 x = x := by
  unfold wrap64
  rw [Int.emod_eq_of_lt (by omega) (by omega)]
  omega

theorem intOfUint_of_lt (u : Nat) (h : u < 2 ^ 63) : intOfUint u = (u : Int) := by
  unfold intOfUint
  have h0 : (0 : Int) ≤ (u : Int) := Int.ofNat_nonneg u
  have h1 : ((u : Nat) : Int) < 2 ^ 63 := by exact_mod_cast h
  exact wrap64_of_range _ (by omega) h1

theorem pingReqLoop_timeout (e : EngineInstance) (node : Node) (req : GossipMessage)
    (proxies : List Node) :
    ∀ st : PingReqLoop, (st.timeout = 0 ∨ st.timeout = e.gossipPeriod) →
      (proxies.foldl (e.pingReqStep node req) st).timeout
        = if proxies.filter (fun p => decide (p ≠ node)) = [] then st.timeout
          else e.gossipPeriod := by
  induction proxies with
  | nil => intro st _; simp
  | cons p ps ih =>
    intro st hst
    by_cases hp : p = node
    · have hs : e.pingReqStep node req st p = st := by simp [EngineInstance.pingReqStep, hp]
      simp only [List.foldl_cons, hs, ih st hst]
      simp [List.filter, hp]
    · have ht : (e.pingReqStep node req st p).timeout = e.gossipPeriod := by
        simp only [EngineInstance.pingReqStep, hp, if_false, EngineInstance.estimatedRoundTrip]
        rcases hst with h | h
        · simp [h]
        · simp [h]
      rw [List.foldl_cons, ih _ (Or.inr ht), ht]
      simp [List.filter, hp]

theorem pingReqTimeout_eq (e : EngineInstance) (node : Node) (pingCtx : pingContext)
    (proxies : List Node) :
    e.pingReqTimeout node pingCtx proxies
      = if proxies.filter (fun p => decide (p ≠ node)) = [] then max e.gossipPeriod 0
        else e.gossipPeriod := by
  unfold EngineInstance.pingReqTimeout
  rw [pingReqLoop_timeout e node _ proxies _ (Or.inl rfl)]
  by_cases h : proxies.filter (fun p => decide (p ≠ node)) = []
  · simp only [h, if_true]
    split_ifs with h1
    · exact (max_eq_left (le_of_lt h1)).symm
    · exact (max_eq_right (not_lt.mp h1)).symm
  · simp only [h, if_false, gt_iff_lt, lt_irrefl]

/-! ## Lemmas: `clearDeads` -/

theorem clearDeadsLoop_sublist (KV : Node → Option SWIMTagTxn) (nodes : List Node) :
    ∀ allows : Int, (clearDeadsLoop KV allows nodes).Sublist nodes := by
  induction nodes with
  | nil => intro a; simp [clearDeadsLoop]
  | cons n ns ih =>
    intro a
    unfold clearDeadsLoop
    split_ifs with h1
    · exact List.nil_sublist _
    · cases hk : KV n with
      | none => exact (ih a).cons _
      | some tag =>
        simp only
        split_ifs with h2
        · exact (ih (a - 1)).cons₂ _
        · exact (ih a).cons _

theorem clearDeadsLoop_dead (KV : Node → Option SWIMTagTxn) (nodes : List Node) :
    ∀ allows : Int, ∀ n ∈ clearDeadsLoop KV allows nodes,
      ∃ tag, KV n = some tag ∧ tag.State = DEAD := by
  induction nodes with
  | nil => intro a n hn; simp [clearDeadsLoop] at hn
  | cons m ns ih =>
    intro a n hn
    unfold clearDeadsLoop at hn
    split_ifs at hn with h1
    · simp at hn
    · cases hk : KV m with
      | none => rw [hk] at hn; exact ih a n hn
      | some tag =>
        rw [hk] at hn
        simp only at hn
        split_ifs at hn with h2
        · rcases List.mem_cons.mp hn with h | h
          · subst h; exact ⟨tag, hk, h2.1⟩
          · exact ih _ n h
        · exact ih a n hn

theorem clearDeadsLoop_length (KV : Node → Option SWIMTagTxn) (nodes : List Node) :
    ∀ allows : Int, (clearDeadsLoop KV allows nodes).length
      = min allows.toNat (nodes.countP (isDeadNode KV)) := by
  induction nodes with
  | nil => intro a; simp [clearDeadsLoop]
  | cons m ns ih =>
    intro a
    unfold clearDeadsLoop
    split_ifs with h1
    · have : a.toNat = 0 := by omega
      simp [this]
    · cases hk : KV m with
      | none =>
        have hd : isDeadNode KV m = false := by simp [isDeadNode, hk]
        simp only [ih a, List.countP_cons, hd]
        simp
      | some tag =>
        simp only
        split_ifs with h2
        · have hd : isDeadNode KV m = true := by simp [isDeadNode, hk, h2.1]
          simp only [List.length_cons, ih (a - 1), List.countP_cons, hd, if_true]
          have : (a - 1).toNat = a.toNat - 1 := by omega
          omega
        · have hd : isDeadNode KV m = false := by
            have : ¬ tag.State = DEAD := fun h => h2 ⟨h, by omega⟩
            simp [isDeadNode, hk, this]
          simp only [ih a, List.countP_cons, hd]
          simp

theorem clearDeadsRegion_spec (m : Nat) (hm : m < 2 ^ 63) (KV : Node → Option SWIMTagTxn)
    (nodes : List Node) :
    (clearDeadsRegion (intOfUint m) KV nodes).Sublist nodes
    ∧ (∀ n ∈ clearDeadsRegion (intOfUint m) KV nodes, ∃ tag, KV n = some tag ∧ tag.State = DEAD)
    ∧ (clearDeadsRegion (intOfUint m) KV nodes).length
        = min (nodes.length - m) (nodes.countP (isDeadNode KV)) := by
  rw [intOfUint_of_lt m hm]
  unfold clearDeadsRegion
  split_ifs with h
  · have : nodes.length - m = 0 := by omega
    simp [this]
  · refine ⟨clearDeadsLoop_sublist KV nodes _, clearDeadsLoop_dead KV nodes _, ?_⟩
    rw [clearDeadsLoop_length]
    congr 1
    omega

/-! ## Lemmas: the suspicion heap -/

theorem getD_set_set (l : List Nat) (i j k : Nat) (a b : Nat) (hi : i < l.length)
    (hj : j < l.length) :
    ((l.set i a).set j b).getD k 0
      = if k = j then b else if k = i then a else l.getD k 0 := by
  simp only [List.getD_eq_getElem?_getD, List.getElem?_set, List.length_set]
  by_cases h1 : j = k
  · subst h1; simp [hj]
  · have h1' : ¬ k = j := fun h => h1 h.symm
    by_cases h2 : i = k
    · subst h2; simp [h1, h1', hi]
    · have h2' : ¬ k = i := fun h => h2 h.symm
      simp [h1, h1', h2, h2']

theorem perm_cons_set (x : Nat) : ∀ (xs : List Nat) (j : Nat), j < xs.length →
    (xs.getD j 0 :: xs.set j x).Perm (x :: xs) := by
  intro xs
  induction xs with
  | nil => intro j hj; simp at hj
  | cons y ys ih =>
    intro j hj
    cases j with
    | zero => simpa using List.Perm.swap x y ys
    | succ j =>
      have hj' : j < ys.length := by simpa using hj
      have h1 : ((y :: ys).getD (j + 1) 0 :: (y :: ys).set (j + 1) x)
          = ys.getD j 0 :: y :: ys.set j x := by simp
      rw [h1]
      exact (List.Perm.swap y (ys.getD j 0) (ys.set j x)).trans
        (((ih j hj').cons y).trans (List.Perm.swap x y ys))

theorem perm_set_set_lt : ∀ (l : List Nat) (i j : Nat), i < j → j < l.length →
    ((l.set i (l.getD j 0)).set j (l.getD i 0)).Perm l := by
  intro l
  induction l with
  | nil => intro i j _ hj; simp at hj
  | cons x xs ih =>
    intro i j hij hj
    obtain ⟨j', rfl⟩ : ∃ j', j = j' + 1 := ⟨j - 1, by omega⟩
    have hj' : j' < xs.length := by simpa using hj
    cases i with
    | zero =>
      have h1 : (((x :: xs).set 0 ((x :: xs).getD (j' + 1) 0)).set (j' + 1)
          ((x :: xs).getD 0 0)) = xs.getD j' 0 :: xs.set j' x := by simp
      rw [h1]
      exact perm_cons_set x xs j' hj'
    | succ i =>
      have h1 : (((x :: xs).set (i + 1) ((x :: xs).getD (j' + 1) 0)).set (j' + 1)
          ((x :: xs).getD (i + 1) 0))
          = x :: (xs.set i (xs.getD j' 0)).set j' (xs.getD i 0) := by simp
      rw [h1]
      exact (ih i j' (by omega) hj').cons x

theorem perm_set_set (l : List Nat) (i j : Nat) (hi : i < l.length) (hj : j < l.length) :
    ((l.set i (l.getD j 0)).set j (l.getD i 0)).Perm l := by
  rcases Nat.lt_trichotomy i j with h | h | h
  · exact perm_set_set_lt l i j h hj
  · subst h
    have : (l.set i (l.getD i 0)).set i (l.getD i 0) = l := by
      apply List.ext_getElem?
      intro k
      simp only [List.getElem?_set, List.length_set]
      by_cases hk : i = k
      · subst hk; simp [hi, List.getD_eq_getElem?_getD]
      · simp [hk]
    rw [this]
  · have hc : (l.set i (l.getD j 0)).set j (l.getD i 0)
        = (l.set j (l.getD i 0)).set i (l.getD j 0) := by
      apply List.ext_getElem?
      intro k
      simp only [List.getElem?_set, List.length_set]
      by_cases h1 : j = k <;> by_cases h2 : i = k <;> simp [h1, h2, hi, hj]
    rw [hc]
    exact perm_set_set_lt l j i h hi

theorem swap_length (h : suspectionQueue) (i j : Nat) : (h.Swap i j).q.length = h.q.length := by
  simp [suspectionQueue.Swap]

theorem swap_notAfter (h : suspectionQueue) (i j : Nat) (p : Ptr) :
    ((h.Swap i j).mem p).notAfter = (h.mem p).notAfter := by
  unfold suspectionQueue.Swap
  simp only [Function.update_apply]
  split_ifs <;> simp_all

theorem swap_node (h : suspectionQueue) (i j : Nat) (p : Ptr) :
    ((h.Swap i j).mem p).node = (h.mem p).node := by
  unfold suspectionQueue.Swap
  simp only [Function.update_apply]
  split_ifs <;> simp_all

theorem swap_getD (h : suspectionQueue) (i j k : Nat) (hi : i < h.q.length)
    (hj : j < h.q.length) :
    (h.Swap i j).q.getD k 0
      = if k = j then h.q.getD i 0 else if k = i then h.q.getD j 0 else h.q.getD k 0 := by
  unfold suspectionQueue.Swap
  exact getD_set_set h.q i j k _ _ hi hj

theorem swap_key (h : suspectionQueue) (i j k : Nat) (hi : i < h.q.length)
    (hj : j < h.q.length) :
    (h.Swap i j).key k = if k = j then h.key i else if k = i then h.key j else h.key k := by
  unfold suspectionQueue.key
  rw [swap_notAfter, swap_getD h i j k hi hj]
  split_ifs <;> rfl

theorem swap_perm (h : suspectionQueue) (i j : Nat) (hi : i < h.q.length)
    (hj : j < h.q.length) : (h.Swap i j).q.Perm h.q := by
  unfold suspectionQueue.Swap
  exact perm_set_set h.q i j hi hj

theorem heapChild_lt (h : suspectionQueue) (i n : Nat) (hn : 2 * i + 1 < n) :
    heapChild h i n < n := by
  unfold heapChild
  split_ifs with c
  · exact c.1
  · exact hn

theorem heapChild_cases (h : suspectionQueue) (i n : Nat) :
    (heapChild h i n = 2 * i + 1
      ∧ (2 * i + 2 < n → h.key (2 * i + 1) ≤ h.key (2 * i + 2)))
    ∨ (heapChild h i n = 2 * i + 2 ∧ 2 * i + 2 < n ∧ h.key (2 * i + 2) < h.key (2 * i + 1)) := by
  unfold heapChild
  split_ifs with c
  · right
    exact ⟨rfl, c.1, by simpa [suspectionQueue.Less] using c.2⟩
  · left
    refine ⟨rfl, fun h2 => ?_⟩
    have : ¬ h.Less (2 * i + 2) (2 * i + 1) = true := fun h3 => c ⟨h2, h3⟩
    simpa [suspectionQueue.Less] using this

theorem heapDownLoop_frame : ∀ (fuel : Nat) (h : suspectionQueue) (i n : Nat),
    n ≤ h.q.length →
    (heapDownLoop fuel h i n).1.q.length = h.q.length
    ∧ (heapDownLoop fuel h i n).1.q.Perm h.q
    ∧ (∀ k, n ≤ k → (heapDownLoop fuel h i n).1.q.getD k 0 = h.q.getD k 0)
    ∧ (∀ p, ((heapDownLoop fuel h i n).1.mem p).notAfter = (h.mem p).notAfter)
    ∧ (∀ p, ((heapDownLoop fuel h i n).1.mem p).node = (h.mem p).node) := by
  intro fuel
  induction fuel with
  | zero =>
    intro h i n _
    exact ⟨rfl, List.Perm.refl _, fun _ _ => rfl, fun _ => rfl, fun _ => rfl⟩
  | succ f ih =>
    intro h i n hn
    unfold heapDownLoop
    split_ifs with h1 h2
    · exact ⟨rfl, List.Perm.refl _, fun _ _ => rfl, fun _ => rfl, fun _ => rfl⟩
    · exact ⟨rfl, List.Perm.refl _, fun _ _ => rfl, fun _ => rfl, fun _ => rfl⟩
    · have hjn : heapChild h i n < n := heapChild_lt h i n (by omega)
      generalize heapChild h i n = j at hjn h2 ⊢
      have hil : i < h.q.length := by omega
      have hjl : j < h.q.length := by omega
      obtain ⟨a1, a2, a3, a4, a5⟩ := ih (h.Swap i j) j n (by rw [swap_length]; exact hn)
      refine ⟨by rw [a1, swap_length], a2.trans (swap_perm h i j hil hjl), ?_, ?_, ?_⟩
      · intro k hk
        rw [a3 k hk, swap_getD h i j k hil hjl]
        have : k ≠ j := by omega
        have : k ≠ i := by omega
        simp [*]
      · intro p; rw [a4, swap_notAfter]
      · intro p; rw [a5, swap_node]

theorem heapOrdered_of_downInv (h : suspectionQueue) (i n : Nat) (hd : DownInv h i n)
    (hc : ∀ k, 0 < k → k < n → (k - 1) / 2 = i → h.key i ≤ h.key k) : HeapOrdered h n := by
  intro k hk hkn
  by_cases hp : (k - 1) / 2 = i
  · rw [hp]; exact hc k hk hkn hp
  · exact hd.1 k hk hkn hp

theorem downInv_swap (h : suspectionQueue) (i n : Nat) (hd : DownInv h i n)
    (h1 : 2 * i + 1 < n) (hn : n ≤ h.q.length)
    (hl : h.key (heapChild h i n) < h.key i) :
    DownInv (h.Swap i (heapChild h i n)) (heapChild h i n) n := by
  have hjn := heapChild_lt h i n h1
  have hcases := heapChild_cases h i n
  generalize heapChild h i n = j at hjn hcases hl ⊢
  have hil : i < h.q.length := by omega
  have hjl : j < h.q.length := by omega
  have hji : (j - 1) / 2 = i := by rcases hcases with c | c <;> omega
  have hjpos : 0 < j := by rcases hcases with c | c <;> omega
  have hij : i ≠ j := by rcases hcases with c | c <;> omega
  have key' : ∀ k, (h.Swap i j).key k
      = if k = j then h.key i else if k = i then h.key j else h.key k :=
    fun k => swap_key h i j k hil hjl
  constructor
  · intro k hk hkn hpk
    by_cases hpi : (k - 1) / 2 = i
    · -- k is a child of i
      rw [hpi, key' i, key' k]
      simp only [hij, if_false, if_true]
      by_cases hkj : k = j
      · simp only [hkj, if_true]; exact le_of_lt hl
      · have hki : k ≠ i := by omega
        simp only [hkj, hki, if_false]
        rcases hcases with ⟨c1, c2⟩ | ⟨c1, c2, c3⟩
        · have hk2 : k = 2 * i + 2 := by omega
          rw [c1, hk2]; exact c2 (by omega)
        · have hk1 : k = 2 * i + 1 := by omega
          rw [c1, hk1]; exact le_of_lt c3
    · have hkj : k ≠ j := fun e => hpi (e ▸ hji)
      have hpj : (k - 1) / 2 ≠ j := hpk
      rw [key' ((k - 1) / 2), key' k]
      simp only [hpj, hpi, hkj, if_false]
      by_cases hki : k = i
      · subst hki
        simp only [if_true]
        exact hd.2 hk j hjpos hjn hji
      · simp only [hki, if_false]
        exact hd.1 k hk hkn hpi
  · intro _ k hk hkn hpk
    have hkj : k ≠ j := by omega
    have hki : k ≠ i := by omega
    rw [hji, key' i, key' k]
    simp only [hij, hkj, hki, if_false, if_true]
    have hle := hd.1 k hk hkn (by omega)
    rw [hpk] at hle
    exact hle

theorem heapDownLoop_heap : ∀ (fuel : Nat) (h : suspectionQueue) (i n : Nat),
    DownInv h i n → n ≤ h.q.length → n ≤ fuel + i →
    HeapOrdered (heapDownLoop fuel h i n).1 n := by
  intro fuel
  induction fuel with
  | zero =>
    intro h i n hd _ hf
    exact heapOrdered_of_downInv h i n hd (fun k _ hkn hp => by omega)
  | succ f ih =>
    intro h i n hd hn hf
    unfold heapDownLoop
    split_ifs with h1 h2
    · exact heapOrdered_of_downInv h i n hd (fun k _ hkn hp => by omega)
    · refine heapOrdered_of_downInv h i n hd (fun k hk hkn hp => ?_)
      have hle : h.key i ≤ h.key (heapChild h i n) := by
        simpa [suspectionQueue.Less] using h2
      rcases heapChild_cases h i n with ⟨c1, c2⟩ | ⟨c1, c2, c3⟩
      · rw [c1] at hle
        rcases (show k = 2 * i + 1 ∨ k = 2 * i + 2 by omega) with e | e
        · rw [e]; exact hle
        · rw [e]; exact le_trans hle (c2 (by omega))
      · rw [c1] at hle
        rcases (show k = 2 * i + 1 ∨ k = 2 * i + 2 by omega) with e | e
        · rw [e]; exact le_trans hle (le_of_lt c3)
        · rw [e]; exact hle
    · have hl : h.key (heapChild h i n) < h.key i := by
        have : h.Less (heapChild h i n) i = true := by simpa using h2
        simpa [suspectionQueue.Less] using this
      have hjn := heapChild_lt h i n (by omega)
      have hji : i < heapChild h i n := by
        rcases heapChild_cases h i n with c | c <;> omega
      exact ih _ _ n (downInv_swap h i n hd (by omega) hn hl)
        (by rw [swap_length]; exact hn) (by omega)

theorem heapOrdered_root_le (h : suspectionQueue) (n : Nat) (ho : HeapOrdered h n) :
    ∀ k, k < n → h.key 0 ≤ h.key k := by
  intro k
  induction k using Nat.strong_induction_on with
  | _ k ih =>
    intro hk
    rcases Nat.eq_zero_or_pos k with h0 | h0
    · subst h0; exact le_refl _
    · exact le_trans (ih ((k - 1) / 2) (by omega) (by omega)) (ho k h0 hk)

theorem list_take_append_last (l : List Nat) (n : Nat) (hl : l.length = n + 1) :
    l = l.take n ++ [l.getD n 0] := by
  have h1 : l.drop n = [l.getD n 0] := by
    apply List.ext_getElem?
    intro k
    cases k with
    | zero =>
      simp only [List.getElem?_drop, Nat.add_zero, List.getElem?_cons_zero,
        List.getD_eq_getElem?_getD]
      rw [List.getElem?_eq_getElem (by omega)]
      rfl
    | succ k =>
      simp only [List.getElem?_drop, List.getElem?_cons_succ, List.getElem?_nil]
      exact List.getElem?_eq_none (by omega)
  rw [← h1, List.take_append_drop]

theorem getD_take_of_lt (l : List Nat) (n k : Nat) (hk : k < n) :
    (l.take n).getD k 0 = l.getD k 0 := by
  simp only [List.getD_eq_getElem?_getD, List.getElem?_take, hk, if_true]

theorem heapPop_spec (h : suspectionQueue) (hpos : 0 < h.q.length)
    (ho : HeapOrdered h h.q.length) :
    (heapPop h).1 = h.q.getD 0 0
    ∧ ((heapPop h).2.q ++ [h.q.getD 0 0]).Perm h.q
    ∧ (heapPop h).2.q.length + 1 = h.q.length
    ∧ HeapOrdered (heapPop h).2 (heapPop h).2.q.length
    ∧ (∀ p, (((heapPop h).2).mem p).notAfter = (h.mem p).notAfter)
    ∧ (∀ p, (((heapPop h).2).mem p).node = (h.mem p).node) := by
  obtain ⟨n, hn⟩ : ∃ n, h.q.length = n + 1 := ⟨h.q.length - 1, by omega⟩
  have hlen1 : (h.Swap 0 n).q.length = n + 1 := by rw [swap_length, hn]
  obtain ⟨a1, a2, a3, a4, a5⟩ := heapDownLoop_frame n (h.Swap 0 n) 0 n (by omega)
  have hinv : DownInv (h.Swap 0 n) 0 n := by
    constructor
    · intro k hk hkn hp
      rw [swap_key h 0 n _ (by omega) (by omega), swap_key h 0 n k (by omega) (by omega)]
      have e1 : (k - 1) / 2 ≠ n := by omega
      have e2 : k ≠ n := by omega
      have e3 : k ≠ 0 := by omega
      simp only [e1, e2, e3, hp, if_false]
      exact ho k hk (by omega)
    · intro h0; omega
  have hheap := heapDownLoop_heap n (h.Swap 0 n) 0 n hinv (by omega) (by omega)
  have hlast : (heapDownLoop n (h.Swap 0 n) 0 n).1.q.getD n 0 = h.q.getD 0 0 := by
    rw [a3 n (le_refl _), swap_getD h 0 n n (by omega) (by omega)]
    simp
  have hpop : heapPop h
      = (h.q.getD 0 0,
          { (heapDownLoop n (h.Swap 0 n) 0 n).1 with
            q := (heapDownLoop n (h.Swap 0 n) 0 n).1.q.take n }) := by
    unfold heapPop heapDown suspectionQueue.Pop suspectionQueue.Len
    simp only [hn, Nat.add_sub_cancel, a1, hlen1, hlast]
  rw [hpop]
  refine ⟨rfl, ?_, ?_, ?_, fun p => ?_, fun p => ?_⟩
  · have hsplit := list_take_append_last (heapDownLoop n (h.Swap 0 n) 0 n).1.q n
      (by rw [a1, hlen1])
    rw [hlast] at hsplit
    simp only
    rw [← hsplit]
    exact a2.trans (swap_perm h 0 n (by omega) (by omega))
  · simp only [List.length_take, a1, hlen1, hn]
    omega
  · have hl : ((heapDownLoop n (h.Swap 0 n) 0 n).1.q.take n).length = n := by
      simp only [List.length_take, a1, hlen1]; omega
    simp only [hl]
    intro k hk hkn
    have e1 := getD_take_of_lt (heapDownLoop n (h.Swap 0 n) 0 n).1.q n k hkn
    have e2 := getD_take_of_lt (heapDownLoop n (h.Swap 0 n) 0 n).1.q n ((k - 1) / 2) (by omega)
    have := hheap k hk hkn
    unfold suspectionQueue.key at this ⊢
    simp only [e1, e2]
    exact this
  · show ((heapDownLoop n (h.Swap 0 n) 0 n).1.mem p).notAfter = (h.mem p).notAfter
    rw [a4, swap_notAfter]
  · show ((heapDownLoop n (h.Swap 0 n) 0 n).1.mem p).node = (h.mem p).node
    rw [a5, swap_node]

theorem mem_of_getD_lt (l : List Nat) (k : Nat) (hk : k < l.length) : l.getD k 0 ∈ l := by
  rw [List.getD_eq_getElem?_getD, List.getElem?_eq_getElem hk]
  exact List.getElem_mem hk

theorem exists_getD_of_mem (l : List Nat) (p : Nat) (hp : p ∈ l) :
    ∃ k, k < l.length ∧ l.getD k 0 = p := by
  obtain ⟨k, hk, he⟩ := List.getElem_of_mem hp
  exact ⟨k, hk, by rw [List.getD_eq_getElem?_getD, List.getElem?_eq_getElem hk]; simpa using he⟩

theorem queueInv_pop (e : EngineInstance) (hinv : QueueInv e)
    (hpos : 0 < e.suspectionQueue.q.length) :
    QueueInv
      { e with
        suspectionQueue := (heapPop e.suspectionQueue).2
        suspectionNodeIndex :=
          mapDelete e.suspectionNodeIndex
            (e.suspectionQueue.mem (e.suspectionQueue.q.getD 0 0)).node } := by
  obtain ⟨ho, hnd, hi1, hi2⟩ := hinv
  obtain ⟨_, b2, _, b4, _, b6⟩ := heapPop_spec e.suspectionQueue hpos ho
  have hroot : e.suspectionQueue.q.getD 0 0 ∈ e.suspectionQueue.q :=
    mem_of_getD_lt _ 0 hpos
  have hnd2 : ((heapPop e.suspectionQueue).2.q ++ [e.suspectionQueue.q.getD 0 0]).Nodup :=
    b2.nodup_iff.mpr hnd
  have hmem : ∀ p, p ∈ (heapPop e.suspectionQueue).2.q ↔
      p ∈ e.suspectionQueue.q ∧ p ≠ e.suspectionQueue.q.getD 0 0 := by
    intro p
    constructor
    · intro hp
      refine ⟨b2.subset (List.mem_append_left _ hp), fun he => ?_⟩
      subst he
      exact (List.nodup_append.mp hnd2).2.2 hp (List.mem_singleton_self _)
    · rintro ⟨hp, hne⟩
      rcases List.mem_append.mp (b2.symm.subset hp) with h | h
      · exact h
      · exact absurd (List.mem_singleton.mp h) hne
  refine ⟨b4, (List.nodup_append.mp hnd2).1, ?_, ?_⟩
  · intro p hp
    obtain ⟨hp1, hp2⟩ := (hmem p).mp hp
    show mapGet (mapDelete _ _) (((heapPop e.suspectionQueue).2).mem p).node = some p
    rw [b6, mapGet_mapDelete]
    have hne : (e.suspectionQueue.mem p).node
        ≠ (e.suspectionQueue.mem (e.suspectionQueue.q.getD 0 0)).node := by
      intro he
      have h1 := hi1 p hp1
      have h2 := hi1 _ hroot
      rw [he, h2] at h1
      exact hp2 (Option.some.inj h1).symm
    rw [if_neg hne]
    exact hi1 p hp1
  · intro n p hnp
    have hnp' : mapGet (mapDelete e.suspectionNodeIndex
        (e.suspectionQueue.mem (e.suspectionQueue.q.getD 0 0)).node) n = some p := hnp
    rw [mapGet_mapDelete] at hnp'
    split_ifs at hnp' with hn
    obtain ⟨hp1, hp2⟩ := hi2 n p hnp'
    refine ⟨(hmem p).mpr ⟨hp1, fun he => hn ?_⟩, ?_⟩
    · rw [← hp2, he]
    · show (((heapPop e.suspectionQueue).2).mem p).node = n
      rw [b6]; exact hp2

/-! ## Lemmas: `ClearSuspections` -/

theorem claimDeads_all (KV : Node → Option SWIMTagTxn) (commitErr : Node → Bool) :
    ∀ l : List Node, (∀ n ∈ l, commitErr n = false) →
      (claimDeads KV commitErr l).map DeadClaim.node = l := by
  intro l
  induction l with
  | nil => intro _; simp [claimDeads]
  | cons n l ih =>
    intro h
    have h1 : commitErr n = false := h n (List.mem_cons_self _ _)
    simp [claimDeads, h1, ih (fun m hm => h m (List.mem_cons_of_mem _ hm))]

theorem claimDeads_claimed (KV : Node → Option SWIMTagTxn) (commitErr : Node → Bool) :
    ∀ l : List Node, ∀ c ∈ claimDeads KV commitErr l,
      c.claimed = (KV c.node).map fun t => t.ClaimDead.1 := by
  intro l
  induction l with
  | nil => intro c hc; simp [claimDeads] at hc
  | cons n l ih =>
    intro c hc
    unfold claimDeads at hc
    split_ifs at hc with h
    · rw [List.mem_singleton.mp hc]
    · rcases List.mem_cons.mp hc with h1 | h1
      · rw [h1]
      · exact ih c h1

theorem sampleEngine_queueInv : QueueInv sampleEngine := by
  refine ⟨?_, by decide, by decide, ?_⟩
  · intro k hk hkn
    have hk1 : k = 1 := by
      have : k < 2 := hkn
      omega
    subst hk1
    decide
  · intro n p h
    have h' : mapGet [(101, 1), (102, 2)] n = some p := h
    simp only [mapGet] at h'
    split_ifs at h' with h1 h2
    · cases h'; subst h1; decide
    · cases h'; subst h2; decide

/-! ## Claims C11 to C20 -/

/-- Claim C11.  For every tag transaction whose state is ALIVE, SUSPECTED,
DEAD or LEFT, `ClaimSuspected` returns true exactly when the state before the
call is ALIVE, and then the state becomes SUSPECTED; on DEAD, LEFT and
SUSPECTED it returns false and leaves the transaction (tag and changed flag)
as it was. -/
theorem C11_claimSuspected (t : SWIMTagTxn)
    (h : t.tag.State = ALIVE ∨ t.tag.State = SUSPECTED ∨ t.tag.State = DEAD
      ∨ t.tag.State = LEFT) :
    (t.ClaimSuspected.1 = true ↔ t.tag.State = ALIVE)
    ∧ (t.tag.State = ALIVE → t.ClaimSuspected.2.tag.State = SUSPECTED)
    ∧ (t.tag.State ≠ ALIVE → t.ClaimSuspected.1 = false ∧ t.ClaimSuspected.2 = t) := by
  unfold SWIMTagTxn.ClaimSuspected
  rcases h with h | h | h | h <;> simp [h, ALIVE, SUSPECTED, DEAD, LEFT]

/-- Witness of C11: an ALIVE transaction becomes SUSPECTED, the call returning true. -/
theorem C11_claimSuspected_witness :
    ((({ tag := { Version := 4, State := ALIVE } } : SWIMTagTxn).ClaimSuspected.1 = true
        ↔ ({ tag := { Version := 4, State := ALIVE } } : SWIMTagTxn).tag.State = ALIVE)
    ∧ (({ tag := { Version := 4, State := ALIVE } } : SWIMTagTxn).tag.State = ALIVE →
        ({ tag := { Version := 4, State := ALIVE } } : SWIMTagTxn).ClaimSuspected.2.tag.State
          = SUSPECTED)
    ∧ (({ tag := { Version := 4, State := ALIVE } } : SWIMTagTxn).tag.State ≠ ALIVE →
        ({ tag := { Version := 4, State := ALIVE } } : SWIMTagTxn).ClaimSuspected.1 = false
        ∧ ({ tag := { Version := 4, State := ALIVE } } : SWIMTagTxn).ClaimSuspected.2
          = { tag := { Version := 4, State := ALIVE } })) :=
  C11_claimSuspected { tag := { Version := 4, State := ALIVE } } (Or.inl rfl)

/-- Claim C12.  For every tag transaction (`OldVersion` being a `uint32`),
`ClaimAlive` on a state other than ALIVE sets the state to ALIVE, returns true,
marks the transaction changed and increments the version by exactly one if and
only if version < OldVersion, leaving it otherwise; on state ALIVE it returns
false and changes nothing. -/
theorem C12_claimAlive (t : SWIMTagTxn) (hold : t.OldVersion < 2 ^ 32) :
    (t.tag.State ≠ ALIVE →
        t.ClaimAlive.1 = true ∧ t.ClaimAlive.2.tag.State = ALIVE
        ∧ t.ClaimAlive.2.changed = true
        ∧ (t.ClaimAlive.2.tag.Version = t.tag.Version + 1 ↔ t.tag.Version < t.OldVersion)
        ∧ (¬ t.tag.Version < t.OldVersion → t.ClaimAlive.2.tag.Version = t.tag.Version)
        ∧ t.ClaimAlive.2.tag.Region = t.tag.Region
        ∧ t.ClaimAlive.2.OldVersion = t.OldVersion)
    ∧ (t.tag.State = ALIVE → t.ClaimAlive.1 = false ∧ t.ClaimAlive.2 = t) := by
  unfold SWIMTagTxn.ClaimAlive
  norm_num at hold
  constructor
  · intro h
    by_cases hv : t.tag.Version < t.OldVersion
    · have : (t.tag.Version + 1) % 4294967296 = t.tag.Version + 1 :=
        Nat.mod_eq_of_lt (by omega)
      simp [h, hv, this]
    · simp [h, hv]
  · intro h
    simp [h]

/-- Witness of C12: a SUSPECTED transaction whose version 2 is below
`OldVersion` 5 becomes ALIVE at version 3. -/
theorem C12_claimAlive_witness :
    (({ tag := { Version := 2, State := SUSPECTED }, OldVersion := 5 } : SWIMTagTxn).ClaimAlive.2.tag
      = { Version := 3, State := ALIVE })
    ∧ (({ tag := { Version := 2, State := SUSPECTED }, OldVersion := 5 } : SWIMTagTxn).ClaimAlive.2.tag.Version
        = 2 + 1 ↔ (2 : Nat) < 5) :=
  ⟨by decide,
    ((C12_claimAlive { tag := { Version := 2, State := SUSPECTED }, OldVersion := 5 }
      (by decide)).1 (by decide)).2.2.2.1⟩

/-- Claim C13, refuted on the code.  The SUSPECTED tag `{"v":3,"s":1}` opened
with `Txn`, corrected with `ClaimAlive` and read with `After` gives
`(true, {"v":3})`: the version is not raised.  `Sync` of that value into a
peer entry holding the SUSPECTED tag returns changed=false and the peer keeps
the SUSPECTED tag. -/
theorem C13_claimAlive_correction_rejected_by_peer :
    SWIMTag.Decode {} (ascii "\x7b\"v\":3,\"s\":1\x7d")
      = some { Version := 3, State := SUSPECTED }
    ∧ (SWIMTagValidator.Txn ⟨ascii "swim", ascii "\x7b\"v\":3,\"s\":1\x7d"⟩).map
        (fun t => (t.ClaimAlive.1, t.ClaimAlive.2.After))
      = some (true, true, ascii "\x7b\"v\":3\x7d")
    ∧ SWIMTagValidator.Sync ⟨⟨ascii "swim", ascii "\x7b\"v\":3,\"s\":1\x7d"⟩⟩
          (some ⟨ascii "swim", ascii "\x7b\"v\":3\x7d"⟩)
        = { changed := false, err := none,
            entry := ⟨⟨ascii "swim", ascii "\x7b\"v\":3,\"s\":1\x7d"⟩⟩ } := by
  decide

/-- Claim C14.  For every transaction and every finite sequence of
`ClaimDead`, `ClaimSuspected`, `ClaimAlive`, `Leave` and `SetRegion` calls:
once `After` reports changed=true after a prefix of the calls it reports
changed=true after the whole sequence, and whenever the tag after the calls
differs from the tag the transaction started with, `After` reports
changed=true. -/
theorem C14_changed_is_sticky (t : SWIMTagTxn) (cs : List TxnCall) :
    (∀ pre suf : List TxnCall, cs = pre ++ suf →
        (t.calls pre).After.1 = true → (t.calls cs).After.1 = true)
    ∧ ((t.calls cs).tag ≠ t.tag → (t.calls cs).After.1 = true) := by
  constructor
  · intro pre suf hcs h
    rw [hcs, calls_append]
    exact calls_changed_of_changed suf (t.calls pre) h
  · intro h
    rcases calls_tag_eq_or_changed cs t with h1 | h1
    · exact absurd h1 h
    · exact h1

/-- Claim C16.  When the node resolved from the ack has an active ping context
with k queued proxy requests, `onPingAck` deletes that context from `inPing`
(and no other), sends exactly one Ack per queued request, to that request's
origin, with that request's id and target names, and applies the increments
Ping -1 (all ones at the width of the counter), Success +1 and
ProxySuccess +k; when the node has no active context, the engine is unchanged,
nothing is sent and the increment applied is zero. -/
theorem C16_onPingAck (bits : CounterBits) (e : EngineInstance) (now : Int)
    (sender NamesProxyFor : List GoString) (node : Node)
    (hn : e.cluster.MostPossibleNode
      (if NamesProxyFor.length < 1 then sender else NamesProxyFor) = some node) :
    (∀ pingCtx, mapGet e.inPing node = some pingCtx →
        mapGet (e.onPingAck bits now sender NamesProxyFor).e.inPing node = none
        ∧ (∀ n, n ≠ node →
            mapGet (e.onPingAck bits now sender NamesProxyFor).e.inPing n = mapGet e.inPing n)
        ∧ (e.onPingAck bits now sender NamesProxyFor).sent
            = pingCtx.proxyFor.map
                (fun r => (⟨r.origin, GossipMessage.Ack r.id r.target⟩ : Sent))
        ∧ (e.onPingAck bits now sender NamesProxyFor).minc
            = some ({ Ping := 2 ^ bits.Ping - 1, Success := 1 % 2 ^ bits.Success
                      ProxySuccess := pingCtx.proxyFor.length % 2 ^ 64 } :
                    FailureDetectorMetricIncrement))
    ∧ (mapGet e.inPing node = none →
        (e.onPingAck bits now sender NamesProxyFor).e = e
        ∧ (e.onPingAck bits now sender NamesProxyFor).sent = []
        ∧ (e.onPingAck bits now sender NamesProxyFor).minc
            = some ({} : FailureDetectorMetricIncrement)) := by
  constructor
  · intro pingCtx hc
    obtain ⟨a1, _, a3, a4⟩ := onPingAck_of_context bits e now sender NamesProxyFor node pingCtx hn hc
    refine ⟨?_, ?_, a3, a4⟩
    · rw [a1, mapGet_mapDelete]; simp
    · intro n hne
      rw [a1, mapGet_mapDelete, if_neg hne]
  · intro hc
    exact onPingAck_of_no_context bits e now sender NamesProxyFor node hn hc

/-- Witness of C16: in the sample engine the ack of node `b` ends the probe of
node 1 and is relayed to the one queued requester `c` with id 9. -/
theorem C16_onPingAck_witness :
    mapGet (sampleEngine.onPingAck ⟨32, 32, 64, 64⟩ 10 [ascii "b"] []).e.inPing 1 = none
    ∧ (sampleEngine.onPingAck ⟨32, 32, 64, 64⟩ 10 [ascii "b"] []).sent
        = [⟨[ascii "c"], GossipMessage.Ack 9 [ascii "b"]⟩]
    ∧ (sampleEngine.onPingAck ⟨32, 32, 64, 64⟩ 10 [ascii "b"] []).minc
        = some ({ Ping := 2 ^ 32 - 1, Success := 1, ProxySuccess := 1 } :
                FailureDetectorMetricIncrement) :=
  ⟨((C16_onPingAck ⟨32, 32, 64, 64⟩ sampleEngine 10 [ascii "b"] [] 1 (by decide)).1
      { id := 7, start := 0, proxyFor := [⟨[ascii "b"], [ascii "c"], 9⟩] } (by decide)).1,
    by decide, by decide⟩

/-- Claim C17.  For every active ping context and every selection of proxies,
the empty one and one containing the target included, with a gossip period
that is not negative: `processPingTimeout` computes timeout =
max(gossipPeriod, least estimated round trip of the proxies it sent to), which
is the gossip period, and sets the ping-req timer to timeout x
minPingReqTimeoutTimes; `ping` sets the ping timer to 2 x gossipPeriod; so the
two delays add up to 2·period + period·minPingReqTimeoutTimes (the products
being representable as a `time.Duration`). -/
theorem C17_pingReq_timeout (bits : CounterBits) (e : EngineInstance) (id : Nat) (now : Int)
    (node : Node) (pingCtx : pingContext) (proxyReq : Option proxyPingRequest)
    (proxies : List Node)
    (hc : mapGet e.inPing node = some pingCtx) (hgp : 0 ≤ e.gossipPeriod)
    (h2 : e.gossipPeriod * 2 < 2 ^ 63)
    (hm : e.gossipPeriod * e.minPingReqTimeoutTimes < 2 ^ 63) :
    (∀ m, m ∈ (proxies.filter fun p => decide (p ≠ node)).map e.estimatedRoundTrip →
        (∀ x ∈ (proxies.filter fun p => decide (p ≠ node)).map e.estimatedRoundTrip, m ≤ x) →
        e.pingReqTimeout node pingCtx proxies = max e.gossipPeriod m)
    ∧ e.pingReqTimeout node pingCtx proxies = e.gossipPeriod
    ∧ (e.processPingTimeout proxies (some node)).timer
        = some (e.pingReqTimeout node pingCtx proxies * e.minPingReqTimeoutTimes)
    ∧ ({ e with inPing := mapDelete e.inPing node }.ping bits id now (some node) proxyReq).timer
        = some (2 * e.gossipPeriod)
    ∧ ∀ d1 d2,
        ({ e with inPing := mapDelete e.inPing node }.ping bits id now (some node) proxyReq).timer
          = some d1 →
        (e.processPingTimeout proxies (some node)).timer = some d2 →
        d1 + d2 = 2 * e.gossipPeriod + e.gossipPeriod * e.minPingReqTimeoutTimes := by
  have ht : e.pingReqTimeout node pingCtx proxies = e.gossipPeriod := by
    rw [pingReqTimeout_eq]
    split_ifs
    · exact max_eq_left hgp
    · rfl
  have hmul : wrap64 (e.gossipPeriod * intOfUint e.minPingReqTimeoutTimes)
      = e.gossipPeriod * e.minPingReqTimeoutTimes := by
    rcases eq_or_lt_of_le hgp with h0 | h0
    · rw [← h0]; simp [wrap64]
    · have hpos : (1 : Int) ≤ e.gossipPeriod := h0
      have hnn : (0 : Int) ≤ (e.minPingReqTimeoutTimes : Int) := Int.ofNat_nonneg _
      have hle : (e.minPingReqTimeoutTimes : Int)
          ≤ e.gossipPeriod * e.minPingReqTimeoutTimes := by nlinarith
      have hlt : e.minPingReqTimeoutTimes < 2 ^ 63 := by
        have : (e.minPingReqTimeoutTimes : Int) < 2 ^ 63 := lt_of_le_of_lt hle hm
        exact_mod_cast this
      rw [intOfUint_of_lt _ hlt]
      exact wrap64_of_range _ (by nlinarith) hm
  have htimer : (e.processPingTimeout proxies (some node)).timer
      = some (e.pingReqTimeout node pingCtx proxies * e.minPingReqTimeoutTimes) := by
    simp only [EngineInstance.processPingTimeout, hc]
    rw [ht, hmul]
  have hping : ({ e with inPing := mapDelete e.inPing node }.ping bits id now (some node)
      proxyReq).timer = some (2 * e.gossipPeriod) := by
    have hnone : mapGet (mapDelete e.inPing node) node = none := by
      rw [mapGet_mapDelete]; simp
    simp only [EngineInstance.ping, hnone, EngineInstance.estimatedRoundTrip]
    rw [wrap64_of_range _ (by omega) h2, mul_comm]
  refine ⟨?_, ht, htimer, hping, ?_⟩
  · intro m hm1 _
    obtain ⟨p, _, hp⟩ := List.mem_map.mp hm1
    rw [ht, ← hp]
    simp [EngineInstance.estimatedRoundTrip]
  · intro d1 d2 e1 e2
    rw [hping] at e1
    rw [htimer, ht] at e2
    cases e1; cases e2
    rfl

/-- Witness of C17: period 1000 and multiplier 3 give a ping timer of 2000 and
a ping-req timer of 3000, whether the proxies are 1 (the target), 2, 3 or none. -/
theorem C17_pingReq_timeout_witness :
    (sampleEngine.processPingTimeout [1, 2, 3] (some 1)).timer = some 3000
    ∧ (sampleEngine.processPingTimeout [] (some 1)).timer = some 3000
    ∧ sampleEngine.pingReqTimeout 1
        { id := 7, start := 0, proxyFor := [⟨[ascii "b"], [ascii "c"], 9⟩] } [1, 2, 3]
      = sampleEngine.gossipPeriod :=
  ⟨by decide, by decide,
    (C17_pingReq_timeout ⟨32, 32, 64, 64⟩ sampleEngine 5 0 1
      { id := 7, start := 0, proxyFor := [⟨[ascii "b"], [ascii "c"], 9⟩] } none [1, 2, 3]
      (by decide) (by decide) (by decide) (by decide)).2.1⟩

/-- Below 2^63, where `int(e.minRegionPeer)` keeps its value: `clearDeads`
removes only nodes whose tag state is DEAD; from a region with count members
it removes members of that region, at most count - minRegionPeer of them; and
it removes none from a region whose member count does not exceed
`minRegionPeer`, whatever their states. -/
theorem clearDeads_region_floor (e : EngineInstance) (KV : Node → Option SWIMTagTxn)
    (hm : e.minRegionPeer < 2 ^ 63) :
    (∀ n ∈ (e.clearDeads KV).1, ∃ tag, KV n = some tag ∧ tag.State = DEAD)
    ∧ (e.clearDeads KV).1
        = (e.withRegion.map fun p =>
            clearDeadsRegion (intOfUint e.minRegionPeer) KV p.2).flatten
    ∧ ∀ p ∈ e.withRegion,
        (clearDeadsRegion (intOfUint e.minRegionPeer) KV p.2).Sublist p.2
        ∧ (clearDeadsRegion (intOfUint e.minRegionPeer) KV p.2).length
            ≤ p.2.length - e.minRegionPeer
        ∧ (p.2.length ≤ e.minRegionPeer →
            clearDeadsRegion (intOfUint e.minRegionPeer) KV p.2 = []) := by
  refine ⟨?_, rfl, ?_⟩
  · intro n hn
    have hn' : n ∈ (e.withRegion.map fun p =>
        clearDeadsRegion (intOfUint e.minRegionPeer) KV p.2).flatten := hn
    obtain ⟨l, hl, hnl⟩ := List.mem_flatten.mp hn'
    obtain ⟨p, _, rfl⟩ := List.mem_map.mp hl
    exact (clearDeadsRegion_spec e.minRegionPeer hm KV p.2).2.1 n hnl
  · intro p _
    obtain ⟨a1, _, a3⟩ := clearDeadsRegion_spec e.minRegionPeer hm KV p.2
    refine ⟨a1, ?_, ?_⟩
    · rw [a3]; exact min_le_left _ _
    · intro hle
      apply List.eq_nil_of_length_eq_zero
      rw [a3]
      have : p.2.length - e.minRegionPeer = 0 := by omega
      simp [this]

/-- Claim C18, failing input.  With `minRegionPeer` = 2^64 - 1 the conversion
`int(e.minRegionPeer)` is -1, the test `minRegionPeer >= curNum` fails for
the region `eu` of the two DEAD nodes 1 and 3, `allows` is 3, and
`clearDeads` removes both nodes from a region whose member count 2 does not
exceed `minRegionPeer`.  The sibling `removeIfDeadOrLeft`, which compares
`uint(len(nodeSet)) > e.minRegionPeer` unsigned, removes neither node in the
same state.  For every `minRegionPeer` below 2^63 `clearDeads` keeps the
floor: it removes only DEAD nodes, at most count - minRegionPeer of a region,
and none from a region of at most `minRegionPeer` members. -/
theorem C18_clearDeads_ignores_floor_beyond_int :
    intOfUint (2 ^ 64 - 1) = -1
    ∧ ({ sampleEngine with
          minRegionPeer := 2 ^ 64 - 1
          withRegion := [(ascii "eu", [1, 3])] }.clearDeads sampleKV) = ([1, 3], true)
    ∧ ({ sampleEngine with
          minRegionPeer := 2 ^ 64 - 1
          withRegion := [(ascii "eu", [1, 3])] }.removeIfDeadOrLeft (fun _ => []) false 1
            { State := DEAD, Region := ascii "eu" }) = (false, none)
    ∧ ({ sampleEngine with
          minRegionPeer := 2 ^ 64 - 1
          withRegion := [(ascii "eu", [1, 3])] }.removeIfDeadOrLeft (fun _ => []) false 3
            { State := DEAD, Region := ascii "eu" }) = (false, none)
    ∧ ∀ (e : EngineInstance) (KV : Node → Option SWIMTagTxn), e.minRegionPeer < 2 ^ 63 →
        (∀ n ∈ (e.clearDeads KV).1, ∃ tag, KV n = some tag ∧ tag.State = DEAD)
        ∧ (e.clearDeads KV).1
            = (e.withRegion.map fun p =>
                clearDeadsRegion (intOfUint e.minRegionPeer) KV p.2).flatten
        ∧ ∀ p ∈ e.withRegion,
            (clearDeadsRegion (intOfUint e.minRegionPeer) KV p.2).Sublist p.2
            ∧ (clearDeadsRegion (intOfUint e.minRegionPeer) KV p.2).length
                ≤ p.2.length - e.minRegionPeer
            ∧ (p.2.length ≤ e.minRegionPeer →
                clearDeadsRegion (intOfUint e.minRegionPeer) KV p.2 = []) :=
  ⟨by decide, by decide, by decide, by decide, fun e KV hm => clearDeads_region_floor e KV hm⟩

theorem clearDeadsRegion_after_gain (m : Nat) (hm : m < 2 ^ 63) (KV : Node → Option SWIMTagTxn)
    (old nodes : List Node) (a d : Node) (hp : nodes.Perm (a :: d :: old))
    (hlen : old.length = m) (hold : ∀ n ∈ old, isDeadNode KV n = true)
    (ha : ∃ tag, KV a = some tag ∧ tag.State = ALIVE) (hd : isDeadNode KV d = true) :
    (clearDeadsRegion (intOfUint m) KV nodes).length = if m = 0 then 1 else 2 := by
  obtain ⟨_, _, a3⟩ := clearDeadsRegion_spec m hm KV nodes
  have hl : nodes.length = m + 2 := by rw [hp.length_eq]; simp [hlen]
  have hna : isDeadNode KV a = false := by
    obtain ⟨tag, h1, h2⟩ := ha
    simp [isDeadNode, h1, h2, ALIVE, DEAD]
  have hcold : old.countP (isDeadNode KV) = m := by
    rw [← hlen]; exact List.countP_eq_length.mpr hold
  have hc : nodes.countP (isDeadNode KV) = m + 1 := by
    rw [hp.countP_eq, List.countP_cons, List.countP_cons, hcold, hna, hd]
    simp
  rw [a3, hl, hc]
  split_ifs with h0
  · subst h0; simp
  · have : m + 2 - m = 2 := by omega
    rw [this]
    exact min_eq_left (by omega)

/-- Counterexample to C19 as stated.  With `minRegionPeer` = 1, a region that
held the DEAD node 1 and gained the ALIVE node 2 and the DEAD node 3 loses two
members, 1 and 3, in the next `clearDeads` pass. -/
theorem C19_clearDeads_removes_two :
    (sampleEngine.clearDeads sampleKV).1 = [1, 3]
    ∧ (sampleEngine.clearDeads sampleKV).1.length ≠ 1 := by
  decide

/-- Claim C19 as amended.  For every `minRegionPeer` m (below 2^63), a region
that had exactly m members, all DEAD, and then gained one ALIVE member and one
DEAD member loses exactly two members in the next `clearDeads` pass when
m ≥ 1 and exactly one when m = 0, all of them DEAD, in whatever order the
region is visited. -/
theorem C19_clearDeads_after_gain (m : Nat) (hm : m < 2 ^ 63) (KV : Node → Option SWIMTagTxn)
    (old nodes : List Node) (a d : Node) (hp : nodes.Perm (a :: d :: old))
    (hlen : old.length = m) (hold : ∀ n ∈ old, isDeadNode KV n = true)
    (ha : ∃ tag, KV a = some tag ∧ tag.State = ALIVE) (hd : isDeadNode KV d = true) :
    (clearDeadsRegion (intOfUint m) KV nodes).length = (if m = 0 then 1 else 2)
    ∧ ∀ n ∈ clearDeadsRegion (intOfUint m) KV nodes, ∃ tag, KV n = some tag ∧ tag.State = DEAD :=
  ⟨clearDeadsRegion_after_gain m hm KV old nodes a d hp hlen hold ha hd,
    (clearDeadsRegion_spec m hm KV nodes).2.1⟩

/-- Witness of C19 as amended: m = 1, old member 1, gained members 2 (ALIVE)
and 3 (DEAD). -/
theorem C19_clearDeads_after_gain_witness :
    (clearDeadsRegion (intOfUint 1) sampleKV [2, 3, 1]).length = 2
    ∧ ∀ n ∈ clearDeadsRegion (intOfUint 1) sampleKV [2, 3, 1],
        ∃ tag, sampleKV n = some tag ∧ tag.State = DEAD :=
  C19_clearDeads_after_gain 1 (by decide) sampleKV [1] [2, 3, 1] 2 3 (List.Perm.refl _)
    rfl (by decide) ⟨_, rfl, by decide⟩ (by decide)

/-- Counterexample to C20 as stated.  Node 1 is not self, its tag is DEAD with
region `eu`, the region set of `eu` holds only node 2 and `minRegionPeer` is
3: the tag is not LEFT and the region set has no more than `minRegionPeer`
members, yet the node, which the region set does not trace, is removed. -/
theorem C20_removes_untraced_node :
    ({ sampleEngine with minRegionPeer := 3, withRegion := [(ascii "eu", [2])] }.removeIfDeadOrLeft
        (fun _ => []) false 1 { State := DEAD, Region := ascii "eu" }).1 = true
    ∧ (1 : Node) ≠ sampleEngine.cluster.Self
    ∧ ({ State := DEAD, Region := ascii "eu" } : SWIMTag).State ≠ LEFT
    ∧ ¬ ((mapGet [(ascii "eu", [(2 : Node)])] (ascii "eu")).getD []).length > 3 := by
  decide

/-- Claim C20 as amended.  For every node and tag, `removeIfDeadOrLeft` never
removes self and never removes a node whose tag state is neither DEAD nor
LEFT.  For any other node and a transaction that commits: a node found in the
region set of the tag's region is removed if and only if the tag state is LEFT
or that set has strictly more than `minRegionPeer` members, and a node the
region map does not trace (no set for the region, or the node not in it) is
removed; when the transaction fails nothing is removed.  A leaving-node record
is handed on exactly when the node is removed. -/
theorem C20_removeIfDeadOrLeft (e : EngineInstance) (snapshot : Node → List KeyValue)
    (txnErr : Bool) (node : Node) (tag : SWIMTag) :
    (node = e.cluster.Self → (e.removeIfDeadOrLeft snapshot txnErr node tag).1 = false)
    ∧ (tag.State ≠ DEAD ∧ tag.State ≠ LEFT →
        (e.removeIfDeadOrLeft snapshot txnErr node tag).1 = false)
    ∧ (node ≠ e.cluster.Self → (tag.State = DEAD ∨ tag.State = LEFT) →
        (∀ nodeSet, mapGet e.withRegion tag.Region = some nodeSet → node ∈ nodeSet →
          ((e.removeIfDeadOrLeft snapshot txnErr node tag).1 = true ↔
            txnErr = false ∧ (tag.State = LEFT ∨ nodeSet.length > e.minRegionPeer)))
        ∧ (mapGet e.withRegion tag.Region = none
            ∨ (∃ nodeSet, mapGet e.withRegion tag.Region = some nodeSet ∧ node ∉ nodeSet) →
          ((e.removeIfDeadOrLeft snapshot txnErr node tag).1 = true ↔ txnErr = false)))
    ∧ ((e.removeIfDeadOrLeft snapshot txnErr node tag).2.isSome = true ↔
        (e.removeIfDeadOrLeft snapshot txnErr node tag).1 = true) := by
  unfold EngineInstance.removeIfDeadOrLeft EngineInstance.removeTxn
  refine ⟨?_, ?_, ?_, ?_⟩
  · intro h
    split_ifs <;> simp_all
  · intro h
    simp [h]
  · intro hs ht
    have ht' : ¬ (tag.State ≠ DEAD ∧ tag.State ≠ LEFT) := by
      rintro ⟨h1, h2⟩; rcases ht with h | h <;> contradiction
    constructor
    · intro nodeSet hr hin
      simp only [ht', if_false, hs, hr, hin, not_true_eq_false]
      cases txnErr <;> by_cases hc : tag.State = LEFT ∨ nodeSet.length > e.minRegionPeer <;>
        simp [hc]
    · rintro (hr | ⟨nodeSet, hr, hin⟩)
      · simp only [ht', if_false, hs, hr]
        cases txnErr <;> simp
      · simp only [ht', if_false, hs, hr, hin, not_false_eq_true, if_true]
        cases txnErr <;> simp
  · split_ifs <;> simp

/-! ## Lemmas: the tag codec on any region, the version of a transaction -/

theorem readStringLoop_append_any : ∀ (f2 : Nat) (s : GoString), s.length ≤ f2 →
    ∃ r : GoString, ∀ (f3 : Nat) (tail : GoString), (appendStringLoop f2 s).length < f3 →
      readStringLoop f3 (appendStringLoop f2 s ++ 0x22 :: tail) = some (r, tail) := by
  intro f2
  induction f2 with
  | zero =>
    intro s hl
    have hs : s = [] := List.length_eq_zero.mp (by omega)
    subst hs
    refine ⟨[], ?_⟩
    intro f3 tail hf
    obtain ⟨m, rfl⟩ : ∃ m, f3 = m + 1 := ⟨f3 - 1, by omega⟩
    simp [appendStringLoop, readStringLoop_quote]
  | succ k ih =>
    intro s hl
    cases s with
    | nil =>
      refine ⟨[], ?_⟩
      intro f3 tail hf
      obtain ⟨m, rfl⟩ : ∃ m, f3 = m + 1 := ⟨f3 - 1, by omega⟩
      simp [appendStringLoop, readStringLoop_quote]
    | cons b rest =>
      simp only [List.length_cons] at hl
      by_cases hb : b < 0x80
      · obtain ⟨r, hr⟩ := ih rest (by omega)
        refine ⟨[b] ++ r, ?_⟩
        intro f3 tail hf
        obtain ⟨m, rfl⟩ : ∃ m, f3 = m + 1 := ⟨f3 - 1, by omega⟩
        have happ : appendStringLoop (k + 1) (b :: rest)
            = (if htmlSafe b then [b] else escapeByte b) ++ appendStringLoop k rest := by
          simp [appendStringLoop, hb]
        rw [happ] at hf ⊢
        by_cases hsafe : htmlSafe b = true
        · simp only [hsafe, if_true, List.length_append, List.length_cons, List.length_nil,
            List.singleton_append, List.cons_append, List.nil_append] at hf ⊢
          have hs' := hsafe
          simp only [htmlSafe, decide_eq_true_eq] at hs'
          rw [readStringLoop_plain m b _ hs'.1 hb hs'.2.2.1 (by omega), hr m tail (by omega)]
          rfl
        · simp only [hsafe, List.append_assoc] at hf ⊢
          simp only [Bool.false_eq_true, if_false] at hf ⊢
          have hpos := escapeByte_length_pos b
          rw [readStringLoop_escapeByte m b _ hb,
            hr m tail (by simp only [List.length_append] at hf; omega)]
          rfl
      · by_cases hinv : (decodeRune (b :: rest)).1 = RuneError ∧ (decodeRune (b :: rest)).2 = 1
        · obtain ⟨r, hr⟩ := ih rest (by omega)
          refine ⟨encodeRune 0xFFFD ++ r, ?_⟩
          intro f3 tail hf
          obtain ⟨m, rfl⟩ : ∃ m, f3 = m + 1 := ⟨f3 - 1, by omega⟩
          have happ : appendStringLoop (k + 1) (b :: rest)
              = ascii "\\ufffd" ++ appendStringLoop k rest := by
            simp only [appendStringLoop, hb, if_false, hinv, and_self, if_true]
          rw [happ] at hf ⊢
          have hshape : ascii "\\ufffd" ++ appendStringLoop k rest ++ 0x22 :: tail
              = 0x5C :: 0x75 :: 0x66 :: 0x66 :: 0x66 :: 0x64
                :: (appendStringLoop k rest ++ 0x22 :: tail) := by
            simp [ascii]
          have hlen : (ascii "\\ufffd").length = 6 := rfl
          rw [hshape, readStringLoop_u m _ _ _ _ 0xFFFD _ (by rfl) (by decide),
            hr m tail (by simp only [List.length_append, hlen] at hf; omega)]
          rfl
        · obtain ⟨ps, suf, hrest, hn, henc, hdec⟩ :=
            decodeRune_multibyte b rest (by omega) hinv
          have htake : (b :: rest).take (decodeRune (b :: rest)).2 = b :: ps := by
            rw [← hn, hrest]; simp
          have hdrop : (b :: rest).drop (decodeRune (b :: rest)).2 = suf := by
            rw [← hn, hrest]; simp
          have hsl : suf.length ≤ k := by
            have := congrArg List.length hrest
            simp only [List.length_append] at this; omega
          obtain ⟨r, hr⟩ := ih suf hsl
          refine ⟨(b :: ps) ++ r, ?_⟩
          intro f3 tail hf
          obtain ⟨m, rfl⟩ : ∃ m, f3 = m + 1 := ⟨f3 - 1, by omega⟩
          by_cases hsep : (decodeRune (b :: rest)).1 = 0x2028 ∨ (decodeRune (b :: rest)).1 = 0x2029
          · have happ : appendStringLoop (k + 1) (b :: rest)
                = ascii "\\u202" ++ [hexDigit ((decodeRune (b :: rest)).1 % 16)]
                  ++ appendStringLoop k suf := by
              simp only [appendStringLoop, hb, if_false, hinv, hsep, if_true, hdrop]
            rw [happ] at hf ⊢
            have hg := getu4_linesep _ (appendStringLoop k suf ++ 0x22 :: tail) hsep
            have hsur : isSurrogate (decodeRune (b :: rest)).1 = false := by
              rcases hsep with h | h <;> rw [h] <;> decide
            have hshape : ascii "\\u202" ++ [hexDigit ((decodeRune (b :: rest)).1 % 16)]
                  ++ appendStringLoop k suf ++ 0x22 :: tail
                = 0x5C :: 0x75 :: 0x32 :: 0x30 :: 0x32 :: hexDigit ((decodeRune (b :: rest)).1 % 16)
                  :: (appendStringLoop k suf ++ 0x22 :: tail) := by
              simp [ascii]
            have hshape2 : ascii "\\u202" ++ [hexDigit ((decodeRune (b :: rest)).1 % 16)]
                  ++ (appendStringLoop k suf ++ 0x22 :: tail)
                = 0x5C :: 0x75 :: 0x32 :: 0x30 :: 0x32 :: hexDigit ((decodeRune (b :: rest)).1 % 16)
                  :: (appendStringLoop k suf ++ 0x22 :: tail) := by
              simp [ascii]
            rw [hshape2] at hg
            rw [hshape, readStringLoop_u m _ _ _ _ _ _ hg hsur, henc,
              hr m tail
                (by simp only [List.length_append, List.length_cons, ascii_u202_length] at hf
                    omega)]
            simp [prepend]
          · have happ : appendStringLoop (k + 1) (b :: rest)
                = (b :: ps) ++ appendStringLoop k suf := by
              simp only [appendStringLoop, hb, if_false, hinv, hsep, htake, hdrop]
            rw [happ] at hf ⊢
            have hd := hdec (appendStringLoop k suf ++ 0x22 :: tail)
            have hshape : (b :: ps) ++ appendStringLoop k suf ++ 0x22 :: tail
                = b :: (ps ++ (appendStringLoop k suf ++ 0x22 :: tail)) := by simp
            rw [hshape, readStringLoop_multi m b _ (by omega), hd, henc, ← hn]
            have hdr : (b :: (ps ++ (appendStringLoop k suf ++ 0x22 :: tail))).drop (ps.length + 1)
                = appendStringLoop k suf ++ 0x22 :: tail := by simp
            rw [hdr, hr m tail
              (by simp only [List.length_append, List.length_cons] at hf; omega)]
            simp [prepend]

theorem fields_eq_tagMembersAs (t : SWIMTag) (r : GoString) :
    t.fields = (tagMembersAs t r).map memberText := by
  unfold SWIMTag.fields tagMembersAs
  split_ifs <;> simp [memberText, ascii]

theorem goodMember_text (f d k : Nat) (s r : GoString)
    (hr : ∀ (f3 : Nat) (tail : GoString), (appendStringLoop s.length s).length < f3 →
      readStringLoop f3 (appendStringLoop s.length s ++ 0x22 :: tail) = some (r, tail))
    (hk : 0x20 ≤ k ∧ k < 0x80 ∧ k ≠ 0x22 ∧ k ≠ 0x5C) :
    GoodMember (fun s => readValue (f + 1) d s) (k, appendString s, JValue.string r) := by
  refine ⟨hk, ?_, 0x22, appendStringLoop s.length s ++ [0x22], by simp [appendString],
    by decide⟩
  intro t0 tl _
  show readValue (f + 1) d (appendString s ++ t0 :: tl) = some (JValue.string r, t0 :: tl)
  have hs : appendString s ++ t0 :: tl
      = 0x22 :: (appendStringLoop s.length s ++ 0x22 :: t0 :: tl) := by
    simp [appendString]
  have hr2 : readString (appendStringLoop s.length s ++ 0x22 :: t0 :: tl) = some (r, t0 :: tl) := by
    unfold readString
    refine hr _ _ ?_
    simp only [List.length_append, List.length_cons]
    omega
  rw [hs]
  simp only [readValue]
  simp only [show ((0x22 : Nat) = 0x7B) = False from by decide,
    show ((0x22 : Nat) = 0x5B) = False from by decide, if_false, if_true, hr2]
  rfl

theorem goodMember_tagAs (f d : Nat) (t : SWIMTag) (r : GoString)
    (hr : ∀ (f3 : Nat) (tail : GoString),
      (appendStringLoop t.Region.length t.Region).length < f3 →
      readStringLoop f3 (appendStringLoop t.Region.length t.Region ++ 0x22 :: tail)
        = some (r, tail)) :
    ∀ x ∈ tagMembersAs t r, GoodMember (fun s => readValue (f + 1) d s) x := by
  intro x hx
  unfold tagMembersAs at hx
  simp only [List.mem_append] at hx
  rcases hx with (hx | hx) | hx
  · split_ifs at hx with h0
    · simp at hx
    · simp only [List.mem_singleton] at hx
      subst hx
      exact goodMember_number f d _ _ (by omega) (by decide)
  · split_ifs at hx with h0
    · simp at hx
    · simp only [List.mem_singleton] at hx
      subst hx
      exact goodMember_number f d _ _ (Nat.pos_of_ne_zero h0) (by decide)
  · split_ifs at hx with h0
    · simp at hx
    · simp only [List.mem_singleton] at hx
      subst hx
      exact goodMember_text f d _ _ _ hr (by decide)

theorem tagMembersAs_length (t : SWIMTag) (r : GoString) : (tagMembersAs t r).length ≤ 3 := by
  unfold tagMembersAs
  split_ifs <;> simp

theorem foldlM_store_tagMembersAs (t : SWIMTag) (r : GoString) (hv : t.Version < 2 ^ 32)
    (hs : t.State < 2 ^ 8) :
    ∃ t1, ((tagMembersAs t r).map fun x => ([x.1], x.2.2)).foldlM SWIMTag.store {} = some t1
      ∧ t1.Version = t.Version ∧ t1.State = t.State := by
  obtain ⟨v, s, g⟩ := t
  simp only at hv hs
  norm_num at hv hs
  have pv : v ≠ 0 → parseUint (formatUint v) = some v :=
    fun h => parseUint_formatUint v (Nat.pos_of_ne_zero h) (by omega)
  have ps : s ≠ 0 → parseUint (formatUint s) = some s :=
    fun h => parseUint_formatUint s (Nat.pos_of_ne_zero h) (lt_trans hs (by norm_num))
  unfold tagMembersAs
  by_cases h1 : v = 0 <;> by_cases h2 : s = 0 <;> by_cases h3 : g = [] <;>
    simp [h1, h2, h3, SWIMTag.store, lookupField, storeUint, storeString, pv, ps, hv, hs]

/-- Every tag with a `uint32` version and a `uint8` state is decoded back from
its encoding with the same version and state, whatever its region. -/
theorem decode_encode_version (t : SWIMTag) (hv : t.Version < 2 ^ 32) (hs : t.State < 2 ^ 8) :
    ∃ t1, SWIMTag.Decode {} t.Encode = some t1 ∧ t1.Version = t.Version
      ∧ t1.State = t.State := by
  obtain ⟨r, hr⟩ := readStringLoop_append_any t.Region.length t.Region (le_refl _)
  unfold SWIMTag.Decode unmarshalStruct
  by_cases hL : tagMembersAs t r = []
  · have hf : t.fields = [] := by rw [fields_eq_tagMembersAs t r, hL]; rfl
    have he : t.Encode = [0x7B, 0x7D] := by
      unfold SWIMTag.Encode; rw [hf]; rfl
    have := foldlM_store_tagMembersAs t r hv hs
    rw [hL] at this
    rw [he]
    exact this
  · have he : t.Encode
        = 0x7B :: ((ascii ",").intercalate ((tagMembersAs t r).map memberText) ++ [0x7D]) := by
      unfold SWIMTag.Encode; rw [fields_eq_tagMembersAs t r]; rfl
    rw [he, parseJSON_object _ (tagMembersAs t r) hL (tagMembersAs_length t r)
      (fun f d => goodMember_tagAs f d t r hr) rfl]
    exact foldlM_store_tagMembersAs t r hv hs

theorem storeUint_range (bits old n : Nat) (v : JValue) (ho : old < 2 ^ bits)
    (h : storeUint bits old v = some n) : n < 2 ^ bits := by
  cases v with
  | null => simp [storeUint] at h; omega
  | number lit =>
    simp only [storeUint] at h
    cases hp : parseUint lit with
    | none => rw [hp] at h; simp at h
    | some m =>
      rw [hp] at h
      simp only at h
      split_ifs at h with hm
      simp at h; omega
  | bool b => simp [storeUint] at h
  | string l => simp [storeUint] at h
  | array l => simp [storeUint] at h
  | object l => simp [storeUint] at h

theorem store_range (t t1 : SWIMTag) (kv : GoString × JValue)
    (hr : t.Version < 2 ^ 32 ∧ t.State < 2 ^ 8) (h : t.store kv = some t1) :
    t1.Version < 2 ^ 32 ∧ t1.State < 2 ^ 8 := by
  unfold SWIMTag.store at h
  cases hl : lookupField kv.1 with
  | none => rw [hl] at h; simp at h; subst h; exact hr
  | some fld =>
    rw [hl] at h
    cases fld with
    | Version =>
      simp only [Option.map_eq_some'] at h
      obtain ⟨n, hn, rfl⟩ := h
      exact ⟨storeUint_range 32 _ _ _ hr.1 hn, hr.2⟩
    | State =>
      simp only [Option.map_eq_some'] at h
      obtain ⟨n, hn, rfl⟩ := h
      exact ⟨hr.1, storeUint_range 8 _ _ _ hr.2 hn⟩
    | Region =>
      simp only [Option.map_eq_some'] at h
      obtain ⟨n, hn, rfl⟩ := h
      exact hr

theorem foldlM_store_range : ∀ (ms : List (GoString × JValue)) (t t1 : SWIMTag),
    t.Version < 2 ^ 32 ∧ t.State < 2 ^ 8 → ms.foldlM SWIMTag.store t = some t1 →
    t1.Version < 2 ^ 32 ∧ t1.State < 2 ^ 8 := by
  intro ms
  induction ms with
  | nil =>
    intro t t1 hr h
    simp [List.foldlM] at h
    subst h; exact hr
  | cons m ms ih =>
    intro t t1 hr h
    simp only [List.foldlM_cons] at h
    cases hs : t.store m with
    | none => rw [hs] at h; simp at h
    | some t2 =>
      rw [hs] at h
      exact ih t2 t1 (store_range t t2 m hr hs) h

/-- A decoded tag holds a `uint32` version and a `uint8` state. -/
theorem decode_range (v : GoString) (t : SWIMTag) (h : SWIMTag.Decode {} v = some t) :
    t.Version < 2 ^ 32 ∧ t.State < 2 ^ 8 := by
  unfold SWIMTag.Decode unmarshalStruct at h
  cases hp : parseJSON v with
  | none => rw [hp] at h; simp at h
  | some j =>
    rw [hp] at h
    cases j with
    | null => simp at h; subst h; decide
    | object ms => exact foldlM_store_range ms {} t (by decide) h
    | bool b => simp at h
    | number l => simp at h
    | string l => simp at h
    | array l => simp at h

theorem call_version (t : SWIMTagTxn) (c : TxnCall) (h : t.tag.Version = t.OldVersion) :
    (t.call c).tag.Version = t.tag.Version ∧ (t.call c).OldVersion = t.OldVersion := by
  cases c <;>
    simp only [SWIMTagTxn.call, SWIMTagTxn.ClaimDead, SWIMTagTxn.ClaimSuspected,
      SWIMTagTxn.ClaimAlive, SWIMTagTxn.Leave, SWIMTagTxn.SetRegion] <;>
    split_ifs <;> simp_all

theorem call_state_range (t : SWIMTagTxn) (c : TxnCall) (h : t.tag.State < 2 ^ 8) :
    (t.call c).tag.State < 2 ^ 8 := by
  cases c <;>
    simp only [SWIMTagTxn.call, SWIMTagTxn.ClaimDead, SWIMTagTxn.ClaimSuspected,
      SWIMTagTxn.ClaimAlive, SWIMTagTxn.Leave, SWIMTagTxn.SetRegion] <;>
    split_ifs <;> first | exact h | (simp [ALIVE, SUSPECTED, DEAD, LEFT])

theorem calls_version : ∀ (cs : List TxnCall) (t : SWIMTagTxn),
    t.tag.Version = t.OldVersion → t.tag.State < 2 ^ 8 →
    (t.calls cs).tag.Version = t.tag.Version ∧ (t.calls cs).OldVersion = t.OldVersion
      ∧ (t.calls cs).tag.State < 2 ^ 8 := by
  intro cs
  induction cs with
  | nil => intro t _ hs; exact ⟨rfl, rfl, hs⟩
  | cons c cs ih =>
    intro t h hs
    have h1 := call_version t c h
    have h2 := ih (t.call c) (by rw [h1.1, h1.2]; exact h) (call_state_range t c hs)
    show ((t.call c).calls cs).tag.Version = _ ∧ ((t.call c).calls cs).OldVersion = _
      ∧ ((t.call c).calls cs).tag.State < 2 ^ 8
    rw [h2.1, h2.2.1, h1.1, h1.2]
    exact ⟨rfl, rfl, h2.2.2⟩

/-- A transaction opened by `Txn` keeps its version over every sequence of
calls, and the value it encodes decodes to that version. -/
theorem txn_calls_version (x : KeyValue) (t : SWIMTagTxn) (cs : List TxnCall)
    (h : SWIMTagValidator.Txn x = some t) :
    (t.calls cs).tag.Version = t.OldVersion ∧ (t.calls cs).OldVersion = t.OldVersion
    ∧ ∃ t0 t1, SWIMTag.Decode {} x.Value = some t0 ∧ t.OldVersion = t0.Version
        ∧ SWIMTag.Decode {} (t.calls cs).After.2 = some t1 ∧ t1.Version = t0.Version := by
  unfold SWIMTagValidator.Txn at h
  cases hd : SWIMTag.Decode {} x.Value with
  | none => rw [hd] at h; simp at h
  | some t0 =>
    rw [hd] at h
    simp only [Option.some.injEq] at h
    subst h
    have hr := decode_range _ _ hd
    have hc := calls_version cs { tag := t0, changed := false, OldVersion := t0.Version }
      rfl hr.2
    obtain ⟨t1, h1, h2, _⟩ := decode_encode_version
      (SWIMTagTxn.calls { tag := t0, changed := false, OldVersion := t0.Version } cs).tag
      (by rw [hc.1]; exact hr.1) hc.2.2
    refine ⟨hc.1, hc.2.1, t0, t1, rfl, rfl, h1, ?_⟩
    rw [h2, hc.1]

/-! ## Lemmas: assignment to a map -/

theorem mapGet_mapSet_other {κ α : Type} [DecidableEq κ] (m : GoMap κ α) (k k1 : κ) (v : α)
    (h : k1 ≠ k) : mapGet (mapSet m k v) k1 = mapGet m k1 := by
  unfold mapSet
  split_ifs with hs
  · clear hs
    induction m with
    | nil => rfl
    | cons p m ih =>
      obtain ⟨a, w⟩ := p
      by_cases h1 : a = k1
      · subst h1; simp [mapGet, h]
      · simp [mapGet, h1, ih]
  · clear hs
    induction m with
    | nil => simp [mapGet, Ne.symm h]
    | cons p m ih =>
      obtain ⟨a, w⟩ := p
      by_cases h1 : a = k1
      · subst h1; simp [mapGet]
      · simpa [mapGet, h1] using ih

/-! ## Lemmas: positions in the suspicion heap -/

theorem nodup_getD_inj (l : List Nat) (hn : l.Nodup) (i j : Nat) (hi : i < l.length)
    (hj : j < l.length) (h : l.getD i 0 = l.getD j 0) : i = j := by
  rw [List.getD_eq_getElem l 0 hi, List.getD_eq_getElem l 0 hj] at h
  exact (List.Nodup.getElem_inj_iff hn).mp h

theorem swap_posOK (h : suspectionQueue) (i j : Nat) (hn : h.q.Nodup) (hp : PosOK h)
    (hi : i < h.q.length) (hj : j < h.q.length) : PosOK (h.Swap i j) := by
  intro k hk
  rw [swap_length] at hk
  rw [swap_getD h i j k hi hj]
  unfold suspectionQueue.Swap
  simp only [Function.update_apply]
  by_cases h1 : k = j
  · subst h1
    simp only [if_true]
  · by_cases h2 : k = i
    · subst h2
      have hne : h.q.getD j 0 ≠ h.q.getD k 0 :=
        fun he => h1 (nodup_getD_inj h.q hn j k hj hi he).symm
      simp only [h1, if_false, if_true, hne]
    · have hne1 : h.q.getD k 0 ≠ h.q.getD i 0 :=
        fun he => h2 (nodup_getD_inj h.q hn k i hk hi he)
      have hne2 : h.q.getD k 0 ≠ h.q.getD j 0 :=
        fun he => h1 (nodup_getD_inj h.q hn k j hk hj he)
      simp only [h1, h2, if_false, hne1, hne2]
      exact hp k hk

theorem sifted_refl (h : suspectionQueue) (n : Nat) : Sifted h h n :=
  ⟨rfl, List.Perm.refl _, fun _ _ => rfl, fun _ => rfl, fun _ => rfl, fun _ hp => hp⟩

theorem sifted_trans (h h1 h2 : suspectionQueue) (n : Nat) (a : Sifted h h1 n)
    (b : Sifted h1 h2 n) : Sifted h h2 n := by
  obtain ⟨a1, a2, a3, a4, a5, a6⟩ := a
  obtain ⟨b1, b2, b3, b4, b5, b6⟩ := b
  refine ⟨by rw [b1, a1], b2.trans a2, fun k hk => by rw [b3 k hk, a3 k hk],
    fun p => by rw [b4, a4], fun p => by rw [b5, a5], fun hn hp => ?_⟩
  exact b6 (a2.nodup_iff.mpr hn) (a6 hn hp)

theorem sifted_mono (h h1 : suspectionQueue) (n m : Nat) (a : Sifted h h1 n) (hnm : n ≤ m) :
    Sifted h h1 m := by
  obtain ⟨a1, a2, a3, a4, a5, a6⟩ := a
  exact ⟨a1, a2, fun k hk => a3 k (by omega), a4, a5, a6⟩

theorem swap_sifted (h : suspectionQueue) (i j n : Nat) (hi : i < n) (hj : j < n)
    (hn : n ≤ h.q.length) : Sifted h (h.Swap i j) n := by
  have hil : i < h.q.length := by omega
  have hjl : j < h.q.length := by omega
  refine ⟨swap_length h i j, swap_perm h i j hil hjl, ?_, swap_notAfter h i j, swap_node h i j,
    fun hnd hp => swap_posOK h i j hnd hp hil hjl⟩
  intro k hk
  rw [swap_getD h i j k hil hjl]
  have : k ≠ j := by omega
  have : k ≠ i := by omega
  simp [*]

theorem heapDownLoop_sifted : ∀ (fuel : Nat) (h : suspectionQueue) (i n : Nat),
    n ≤ h.q.length → Sifted h (heapDownLoop fuel h i n).1 n := by
  intro fuel
  induction fuel with
  | zero => intro h i n _; exact sifted_refl h n
  | succ f ih =>
    intro h i n hn
    unfold heapDownLoop
    split_ifs with h1 h2
    · exact sifted_refl h n
    · exact sifted_refl h n
    · have hjn : heapChild h i n < n := heapChild_lt h i n (by omega)
      generalize heapChild h i n = j at hjn h2 ⊢
      exact sifted_trans _ _ _ n (swap_sifted h i j n (by omega) hjn hn)
        (ih (h.Swap i j) j n (by rw [swap_length]; exact hn))

theorem heapUpLoop_sifted : ∀ (fuel : Nat) (h : suspectionQueue) (j n : Nat),
    j < n → n ≤ h.q.length → Sifted h (heapUpLoop fuel h j) n := by
  intro fuel
  induction fuel with
  | zero => intro h j n _ _; exact sifted_refl h n
  | succ f ih =>
    intro h j n hj hn
    unfold heapUpLoop
    split_ifs with h1
    · exact sifted_refl h n
    · have hp : (j - 1) / 2 < n := by omega
      exact sifted_trans _ _ _ n (swap_sifted h ((j - 1) / 2) j n hp hj hn)
        (ih (h.Swap ((j - 1) / 2) j) ((j - 1) / 2) n hp (by rw [swap_length]; exact hn))

/-- The fuel `j + 1` of `heapUp` is enough: more fuel gives the same queue. -/
theorem heapUpLoop_fuel : ∀ (fuel : Nat) (h : suspectionQueue) (j : Nat), j < fuel →
    heapUpLoop fuel h j = heapUpLoop (j + 1) h j := by
  intro fuel
  induction fuel using Nat.strong_induction_on with
  | _ fuel ih =>
    intro h j hj
    obtain ⟨f, rfl⟩ : ∃ f, fuel = f + 1 := ⟨fuel - 1, by omega⟩
    unfold heapUpLoop
    split_ifs with h1
    · rfl
    · have hlt : (j - 1) / 2 < j := by omega
      rw [ih f (by omega) _ _ (by omega)]
      obtain ⟨j1, rfl⟩ : ∃ j1, j = j1 + 1 := ⟨j - 1, by omega⟩
      rw [ih (j1 + 1) (by omega) _ _ (by omega)]

theorem push_posOK (h : suspectionQueue) (x : Ptr) (hx : x ∉ h.q) (hp : PosOK h) :
    PosOK (h.Push x) := by
  intro k hk
  unfold suspectionQueue.Push at hk ⊢
  simp only [List.length_append, List.length_cons, List.length_nil] at hk
  simp only [Function.update_apply]
  by_cases h1 : k < h.q.length
  · have e1 : (h.q ++ [x]).getD k 0 = h.q.getD k 0 := by
      simp [List.getD_eq_getElem?_getD, List.getElem?_append_left h1]
    have hne : h.q.getD k 0 ≠ x := by
      intro he
      apply hx
      rw [← he, List.getD_eq_getElem h.q 0 h1]
      exact List.getElem_mem _
    rw [e1]
    simp only [hne, if_false]
    exact hp k h1
  · have hk2 : k = h.q.length := by omega
    subst hk2
    have e1 : (h.q ++ [x]).getD h.q.length 0 = x := by
      simp [List.getD_eq_getElem?_getD]
    rw [e1]
    simp [suspectionQueue.Len]

/-- What `heap.Push` does to the records: the new address is added, the
fields `notAfter` and `node` stay, and positions stay right. -/
theorem heapPush_spec (h : suspectionQueue) (x : Ptr) (hx : x ∉ h.q) (hn : h.q.Nodup)
    (hp : PosOK h) :
    (heapPush h x).q.Perm (h.q ++ [x])
    ∧ (∀ p, ((heapPush h x).mem p).notAfter = (h.mem p).notAfter)
    ∧ (∀ p, ((heapPush h x).mem p).node = (h.mem p).node)
    ∧ PosOK (heapPush h x) := by
  have hlen : (h.Push x).q.length = h.q.length + 1 := by simp [suspectionQueue.Push]
  have hs : Sifted (h.Push x) (heapPush h x) (h.q.length + 1) := by
    unfold heapPush heapUp
    exact heapUpLoop_sifted _ _ _ _ (by simp [suspectionQueue.Len, hlen]) (by omega)
  obtain ⟨a1, a2, a3, a4, a5, a6⟩ := hs
  have hq : (h.Push x).q = h.q ++ [x] := rfl
  have hnd : (h.Push x).q.Nodup := by
    rw [hq]
    exact List.Nodup.append hn (List.nodup_singleton x) (by simpa using hx)
  refine ⟨by rw [← hq]; exact a2, ?_, ?_, a6 hnd (push_posOK h x hx hp)⟩
  · intro p
    rw [a4]
    unfold suspectionQueue.Push
    simp only [Function.update_apply]
    split_ifs with e <;> simp [e]
  · intro p
    rw [a5]
    unfold suspectionQueue.Push
    simp only [Function.update_apply]
    split_ifs with e <;> simp [e]

/-- Taking the last slot off a queue whose positions are right. -/
theorem pop_spec (h : suspectionQueue) (n : Nat) (hl : h.q.length = n + 1) (hp : PosOK h) :
    h.Pop.1 = h.q.getD n 0 ∧ (h.Pop.2.q ++ [h.Pop.1]) = h.q
    ∧ h.Pop.2.mem = h.mem ∧ PosOK h.Pop.2 := by
  have e : h.Pop = (h.q.getD n 0, { h with q := h.q.take n }) := by
    unfold suspectionQueue.Pop suspectionQueue.Len
    rw [hl]
    rfl
  rw [e]
  refine ⟨rfl, (list_take_append_last h.q n hl).symm, rfl, ?_⟩
  intro k hk
  simp only [List.length_take] at hk
  have hk2 : k < n := by omega
  show (h.mem ((h.q.take n).getD k 0)).queueIndex = k
  rw [getD_take_of_lt h.q n k hk2]
  exact hp k (by omega)

theorem heapRemove_spec (h : suspectionQueue) (i : Nat) (hi : i < h.q.length)
    (hn : h.q.Nodup) (hp : PosOK h) :
    ∃ r, heapRemove h i = some r ∧ r.1 = h.q.getD i 0
      ∧ (r.2.q ++ [r.1]).Perm h.q
      ∧ (∀ p, (r.2.mem p).notAfter = (h.mem p).notAfter)
      ∧ (∀ p, (r.2.mem p).node = (h.mem p).node)
      ∧ PosOK r.2 := by
  obtain ⟨n, hl⟩ : ∃ n, h.q.length = n + 1 := ⟨h.q.length - 1, by omega⟩
  have hlen : h.Len = n + 1 := hl
  -- the queue after the exchanges, whatever they are
  have key : ∀ h3 : suspectionQueue, Sifted h h3 (n + 1) → h3.q.getD n 0 = h.q.getD i 0 →
      h3.Pop.1 = h.q.getD i 0 ∧ (h3.Pop.2.q ++ [h3.Pop.1]).Perm h.q
      ∧ (∀ p, (h3.Pop.2.mem p).notAfter = (h.mem p).notAfter)
      ∧ (∀ p, (h3.Pop.2.mem p).node = (h.mem p).node) ∧ PosOK h3.Pop.2 := by
    intro h3 hs hlast
    obtain ⟨a1, a2, a3, a4, a5, a6⟩ := hs
    obtain ⟨b1, b2, b3, b4⟩ := pop_spec h3 n (by rw [a1, hl]) (a6 hn hp)
    refine ⟨by rw [b1, hlast], by rw [b2]; exact a2, ?_, ?_, b4⟩
    · intro p; rw [b3, a4]
    · intro p; rw [b3, a5]
  unfold heapRemove
  rw [if_neg (by rw [hlen]; omega)]
  simp only [hlen, Nat.add_sub_cancel]
  by_cases hin : n = i
  · subst hin
    rw [if_neg (by simp)]
    exact ⟨_, rfl, key h (sifted_refl h _) rfl⟩
  · rw [if_pos hin]
    have hin2 : i < n := by omega
    have s1 : Sifted h (h.Swap i n) (n + 1) := swap_sifted h i n (n + 1) (by omega) (by omega)
      (by omega)
    have g1 : (h.Swap i n).q.getD n 0 = h.q.getD i 0 := by
      rw [swap_getD h i n n hi (by omega)]; simp
    have s2 : Sifted (h.Swap i n) (heapDown (h.Swap i n) i n).1 n := by
      unfold heapDown
      exact heapDownLoop_sifted _ _ _ _ (by rw [swap_length]; omega)
    have g2 : (heapDown (h.Swap i n) i n).1.q.getD n 0 = h.q.getD i 0 := by
      rw [s2.2.2.1 n (le_refl _), g1]
    have s12 : Sifted h (heapDown (h.Swap i n) i n).1 (n + 1) :=
      sifted_trans _ _ _ _ s1 (sifted_mono _ _ _ _ s2 (by omega))
    split_ifs with hd
    · have s3 : Sifted (heapDown (h.Swap i n) i n).1
          (heapUp (heapDown (h.Swap i n) i n).1 i) n := by
        unfold heapUp
        exact heapUpLoop_sifted _ _ _ _ hin2 (by rw [s2.1, swap_length]; omega)
      have g3 : (heapUp (heapDown (h.Swap i n) i n).1 i).q.getD n 0 = h.q.getD i 0 := by
        rw [s3.2.2.1 n (le_refl _), g2]
      exact ⟨_, rfl, key _ (sifted_trans _ _ _ _ s12 (sifted_mono _ _ _ _ s3 (by omega))) g3⟩
    · exact ⟨_, rfl, key _ s12 g2⟩

theorem heapPop_posOK (h : suspectionQueue) (hl : 0 < h.q.length) (hn : h.q.Nodup)
    (hp : PosOK h) :
    (heapPop h).1 = h.q.getD 0 0
    ∧ ((heapPop h).2.q ++ [(heapPop h).1]).Perm h.q
    ∧ (∀ p, ((heapPop h).2.mem p).notAfter = (h.mem p).notAfter)
    ∧ (∀ p, ((heapPop h).2.mem p).node = (h.mem p).node)
    ∧ PosOK (heapPop h).2 := by
  obtain ⟨n, hl2⟩ : ∃ n, h.q.length = n + 1 := ⟨h.q.length - 1, by omega⟩
  have hlen : h.Len = n + 1 := hl2
  unfold heapPop
  simp only [hlen, Nat.add_sub_cancel]
  have s1 : Sifted h (h.Swap 0 n) (n + 1) := swap_sifted h 0 n (n + 1) (by omega) (by omega)
    (by omega)
  have g1 : (h.Swap 0 n).q.getD n 0 = h.q.getD 0 0 := by
    rw [swap_getD h 0 n n (by omega) (by omega)]; simp
  have s2 : Sifted (h.Swap 0 n) (heapDown (h.Swap 0 n) 0 n).1 n := by
    unfold heapDown
    exact heapDownLoop_sifted _ _ _ _ (by rw [swap_length]; omega)
  have g2 : (heapDown (h.Swap 0 n) 0 n).1.q.getD n 0 = h.q.getD 0 0 := by
    rw [s2.2.2.1 n (le_refl _), g1]
  obtain ⟨a1, a2, a3, a4, a5, a6⟩ :=
    sifted_trans _ _ _ _ s1 (sifted_mono _ _ _ _ s2 (Nat.le_succ n))
  obtain ⟨b1, b2, b3, b4⟩ := pop_spec (heapDown (h.Swap 0 n) 0 n).1 n (by rw [a1, hl2])
    (a6 hn hp)
  refine ⟨by rw [b1, g2], by rw [b2]; exact a2, ?_, ?_, b4⟩
  · intro p; rw [b3, a4]
  · intro p; rw [b3, a5]

/-! ## Lemmas: queue and index over the engine calls -/

theorem le_foldl_max : ∀ (l : List Nat) (a : Nat),
    a ≤ l.foldl max a ∧ ∀ x ∈ l, x ≤ l.foldl max a := by
  intro l
  induction l with
  | nil => intro a; exact ⟨le_refl _, fun x hx => by simp at hx⟩
  | cons y l ih =>
    intro a
    obtain ⟨h1, h2⟩ := ih (max a y)
    refine ⟨le_trans (le_max_left a y) h1, ?_⟩
    intro x hx
    rcases List.mem_cons.mp hx with rfl | hx
    · exact le_trans (le_max_right a x) h1
    · exact h2 x hx

theorem newRecord_not_mem (e : EngineInstance) : e.newRecord ∉ e.suspectionQueue.q := by
  intro hm
  have := (le_foldl_max (e.suspectionQueue.q ++ e.suspectionNodeIndex.map Prod.snd) 0).2
    e.newRecord (List.mem_append_left _ hm)
  unfold EngineInstance.newRecord at this
  omega

theorem mem_keys_of_mapGet {κ α : Type} [DecidableEq κ] (m : GoMap κ α) (k : κ) (v : α)
    (h : mapGet m k = some v) : k ∈ m.map Prod.fst := by
  induction m with
  | nil => simp [mapGet] at h
  | cons p m ih =>
    obtain ⟨a, w⟩ := p
    by_cases h1 : a = k
    · subst h1; simp
    · simp only [mapGet, h1, if_false] at h
      simp [ih h]

theorem mapGet_isSome_of_mem_keys {κ α : Type} [DecidableEq κ] (m : GoMap κ α) (k : κ)
    (h : k ∈ m.map Prod.fst) : ∃ v, mapGet m k = some v := by
  induction m with
  | nil => simp at h
  | cons p m ih =>
    obtain ⟨a, w⟩ := p
    by_cases h1 : a = k
    · subst h1; exact ⟨w, by simp [mapGet]⟩
    · have : k ∈ m.map Prod.fst := by
        simp only [List.map_cons, List.mem_cons] at h
        rcases h with h | h
        · exact absurd h.symm h1
        · exact h
      obtain ⟨v, hv⟩ := ih this
      exact ⟨v, by simp [mapGet, h1, hv]⟩

theorem keys_mapDelete_nodup {κ α : Type} [DecidableEq κ] (m : GoMap κ α) (k : κ)
    (h : (m.map Prod.fst).Nodup) : ((mapDelete m k).map Prod.fst).Nodup := by
  unfold mapDelete
  exact List.Nodup.sublist (List.Sublist.map _ (List.filter_sublist m)) h

theorem keys_mapSet_nodup {κ α : Type} [DecidableEq κ] (m : GoMap κ α) (k : κ) (v : α)
    (h : (m.map Prod.fst).Nodup) : ((mapSet m k v).map Prod.fst).Nodup := by
  unfold mapSet
  split_ifs with hs
  · have : (m.map fun p => (p.1, if p.1 = k then v else p.2)).map Prod.fst = m.map Prod.fst := by
      simp [List.map_map, Function.comp]
    rw [this]; exact h
  · have hk : k ∉ m.map Prod.fst := by
      intro hm
      obtain ⟨w, hw⟩ := mapGet_isSome_of_mem_keys m k hm
      rw [hw] at hs; simp at hs
    simp only [List.map_append, List.map_cons, List.map_nil]
    exact List.Nodup.append h (List.nodup_singleton k) (by simpa using hk)

/-- Taking one queued record away, from the queue and from the index. -/
theorem recordsInv_erase (h h2 : suspectionQueue) (idx : GoMap Node Ptr) (s : Ptr)
    (hinv : RecordsInv h idx) (hs : s ∈ h.q) (hperm : (h2.q ++ [s]).Perm h.q)
    (hnode : ∀ p, (h2.mem p).node = (h.mem p).node) (hpos : PosOK h2) :
    RecordsInv h2 (mapDelete idx (h.mem s).node) := by
  obtain ⟨_, ⟨hnd, hfw, hbw⟩, hkeys⟩ := hinv
  have hnd2 : (h2.q ++ [s]).Nodup := hperm.nodup_iff.mpr hnd
  have hsn : s ∉ h2.q := by
    intro hm
    have := List.nodup_append.mp hnd2
    exact this.2.2 hm (List.mem_singleton_self s)
  have hmem : ∀ p, p ∈ h2.q → p ∈ h.q := fun p hp =>
    hperm.subset (List.mem_append_left _ hp)
  have hmem2 : ∀ p, p ∈ h.q → p ≠ s → p ∈ h2.q := by
    intro p hp hne
    have := hperm.symm.subset hp
    rcases List.mem_append.mp this with h1 | h1
    · exact h1
    · exact absurd (List.mem_singleton.mp h1) hne
  refine ⟨hpos, ⟨(List.nodup_append.mp hnd2).1, ?_, ?_⟩, keys_mapDelete_nodup _ _ hkeys⟩
  · intro p hp
    have hp1 := hmem p hp
    have hne : p ≠ s := fun he => hsn (he ▸ hp)
    rw [hnode, mapGet_mapDelete]
    have hnn : (h.mem p).node ≠ (h.mem s).node := by
      intro he
      have a := hfw p hp1
      have b := hfw s hs
      rw [he, b] at a
      exact hne (Option.some.inj a).symm
    rw [if_neg hnn]
    exact hfw p hp1
  · intro n p hg
    rw [mapGet_mapDelete] at hg
    split_ifs at hg with hn
    obtain ⟨hp1, hp2⟩ := hbw n p hg
    have hne : p ≠ s := by
      intro he
      rw [he] at hp2
      exact hn hp2.symm
    exact ⟨hmem2 p hp1 hne, by rw [hnode]; exact hp2⟩

theorem recordsInv_remove (h : suspectionQueue) (idx : GoMap Node Ptr) (node : Node) (s : Ptr)
    (hinv : RecordsInv h idx) (hg : mapGet idx node = some s) :
    ∃ r, heapRemove h (h.mem s).queueIndex = some r
      ∧ RecordsInv r.2 (mapDelete idx node) := by
  have hpos := hinv.1
  have hnd := hinv.2.1.1
  obtain ⟨hs, hnode⟩ := hinv.2.1.2.2 node s hg
  obtain ⟨k, hk, hks⟩ := exists_getD_of_mem h.q s hs
  have hqi : (h.mem s).queueIndex = k := by rw [← hks]; exact hpos k hk
  obtain ⟨r, hr, r1, r2, _, r4, r5⟩ := heapRemove_spec h k hk hnd hpos
  rw [hqi]
  refine ⟨r, hr, ?_⟩
  rw [r1, hks] at r2
  have := recordsInv_erase h r.2 idx s hinv hs r2 r4 r5
  rw [hnode] at this
  exact this

theorem recordsInv_pop (h : suspectionQueue) (idx : GoMap Node Ptr) (hinv : RecordsInv h idx)
    (hl : 0 < h.q.length) :
    RecordsInv (heapPop h).2 (mapDelete idx (h.mem (h.q.getD 0 0)).node) := by
  obtain ⟨a1, a2, _, a4, a5⟩ := heapPop_posOK h hl hinv.2.1.1 hinv.1
  rw [a1] at a2
  exact recordsInv_erase h _ idx _ hinv (mem_of_getD_lt h.q 0 hl) a2 a4 a5

theorem recordsInv_push (h : suspectionQueue) (idx : GoMap Node Ptr) (node : Node) (x : Ptr)
    (t : Int) (hinv : RecordsInv h idx) (hg : mapGet idx node = none) (hx : x ∉ h.q) :
    RecordsInv
      (heapPush { h with mem := Function.update h.mem x (⟨t, node, 0⟩ : suspection) } x)
      (mapSet idx node x) := by
  obtain ⟨hpos, ⟨hnd, hfw, hbw⟩, hkeys⟩ := hinv
  have hpos0 : PosOK { h with mem := Function.update h.mem x (⟨t, node, 0⟩ : suspection) } := by
    intro k hk
    have hk' : k < h.q.length := hk
    have hne : h.q.getD k 0 ≠ x := fun he => hx (he ▸ mem_of_getD_lt h.q k hk')
    show (Function.update h.mem x _ (h.q.getD k 0)).queueIndex = k
    rw [Function.update_noteq hne]
    exact hpos k hk'
  obtain ⟨b1, _, b3, b4⟩ := heapPush_spec { h with mem := Function.update h.mem x (⟨t, node, 0⟩ : suspection) } x hx hnd hpos0
  have hnodex : ∀ p, ((heapPush { h with mem := Function.update h.mem x (⟨t, node, 0⟩ : suspection) } x).mem p).node
      = if p = x then node else (h.mem p).node := by
    intro p
    rw [b3]
    show (Function.update h.mem x _ p).node = _
    simp only [Function.update_apply]
    split_ifs <;> rfl
  have hmem : ∀ p, p ∈ (heapPush { h with mem := Function.update h.mem x (⟨t, node, 0⟩ : suspection) } x).q ↔ p ∈ h.q ∨ p = x := by
    intro p
    rw [b1.mem_iff]
    simp
  refine ⟨b4, ⟨?_, ?_, ?_⟩, keys_mapSet_nodup _ _ _ hkeys⟩
  · exact b1.nodup_iff.mpr (List.Nodup.append hnd (List.nodup_singleton x) (by simpa using hx))
  · intro p hp
    rw [hnodex]
    rcases (hmem p).mp hp with hq | rfl
    · have hne : p ≠ x := fun he => hx (he ▸ hq)
      rw [if_neg hne]
      have hnn : (h.mem p).node ≠ node := by
        intro he
        have := hfw p hq
        rw [he, hg] at this
        simp at this
      rw [mapGet_mapSet_other _ _ _ _ hnn]
      exact hfw p hq
    · rw [if_pos rfl]
      exact mapGet_mapSet_self _ _ _
  · intro n p hgp
    rw [hnodex, hmem]
    by_cases hn : n = node
    · subst hn
      rw [mapGet_mapSet_self] at hgp
      have : p = x := (Option.some.inj hgp).symm
      subst this
      exact ⟨Or.inr rfl, by simp⟩
    · rw [mapGet_mapSet_other _ _ _ _ hn] at hgp
      obtain ⟨hp1, hp2⟩ := hbw n p hgp
      have hne : p ≠ x := fun he => hx (he ▸ hp1)
      exact ⟨Or.inl hp1, by rw [if_neg hne]; exact hp2⟩

/-- What the invariant says in the words of the claim: as many index entries
as queued records, every record at the position it records, and the index
maps the node of every queued record to that record. -/
theorem recordsInv_claim (h : suspectionQueue) (idx : GoMap Node Ptr) (hinv : RecordsInv h idx) :
    idx.length = h.Len
    ∧ (∀ i, i < h.Len → (h.mem (h.q.getD i 0)).queueIndex = i)
    ∧ (∀ p ∈ h.q, mapGet idx (h.mem p).node = some p) := by
  obtain ⟨hpos, ⟨hnd, hfw, hbw⟩, hkeys⟩ := hinv
  refine ⟨?_, hpos, hfw⟩
  have hinj : (h.q.map fun p => (h.mem p).node).Nodup := by
    refine List.Nodup.map_on ?_ hnd
    intro p hp q hq he
    have a := hfw p hp
    have b := hfw q hq
    rw [he, b] at a
    exact (Option.some.inj a).symm
  have hperm : (h.q.map fun p => (h.mem p).node).Perm (idx.map Prod.fst) := by
    refine (List.perm_ext_iff_of_nodup hinj hkeys).mpr ?_
    intro n
    constructor
    · intro hn
      obtain ⟨p, hp, rfl⟩ := List.mem_map.mp hn
      exact mem_keys_of_mapGet idx _ p (hfw p hp)
    · intro hn
      obtain ⟨p, hp⟩ := mapGet_isSome_of_mem_keys idx n hn
      obtain ⟨hp1, hp2⟩ := hbw n p hp
      exact List.mem_map.mpr ⟨p, hp1, hp2⟩
  have := hperm.length_eq
  simp only [List.length_map] at this
  exact this.symm

theorem clearLoop_suspicionInv (now : Int) : ∀ (fuel : Nat) (e : EngineInstance)
    (deads : List Node), SuspicionInv e →
    SuspicionInv (clearLoop now fuel e deads).1
    ∧ (clearLoop now fuel e deads).1.inPing = e.inPing := by
  intro fuel
  induction fuel with
  | zero => intro e deads h; exact ⟨h, rfl⟩
  | succ f ih =>
    intro e deads h
    unfold clearLoop
    by_cases h1 : 0 < e.suspectionQueue.Len
    · rw [if_pos h1]
      by_cases h2 : ¬ (e.suspectionQueue.key 0 < now)
      · rw [if_pos h2]; exact ⟨h, rfl⟩
      · rw [if_neg h2]
        have := ih
          { e with
            suspectionQueue := (heapPop e.suspectionQueue).2
            suspectionNodeIndex :=
              mapDelete e.suspectionNodeIndex
                (e.suspectionQueue.mem (e.suspectionQueue.q.getD 0 0)).node }
          (deads ++ [(e.suspectionQueue.mem (e.suspectionQueue.q.getD 0 0)).node])
          (recordsInv_pop _ _ h h1)
        exact this
    · rw [if_neg h1]; exact ⟨h, rfl⟩

theorem clearLoop_inPing (now : Int) : ∀ (fuel : Nat) (e : EngineInstance)
    (deads : List Node), (clearLoop now fuel e deads).1.inPing = e.inPing := by
  intro fuel
  induction fuel with
  | zero => intro e deads; rfl
  | succ f ih =>
    intro e deads
    unfold clearLoop
    by_cases h1 : 0 < e.suspectionQueue.Len
    · rw [if_pos h1]
      by_cases h2 : ¬ (e.suspectionQueue.key 0 < now)
      · rw [if_pos h2]
      · rw [if_neg h2]
        exact ih _ _
    · rw [if_neg h1]

theorem clearSuspections_suspicionInv (e : EngineInstance) (shouldRun : Bool) (now : Int)
    (KV : Node → Option SWIMTagTxn) (commitErr : Node → Bool) (h : SuspicionInv e) :
    SuspicionInv (e.ClearSuspections shouldRun now KV commitErr).1
    ∧ (e.ClearSuspections shouldRun now KV commitErr).1.inPing = e.inPing := by
  unfold EngineInstance.ClearSuspections
  by_cases h1 : shouldRun = false
  · rw [if_pos h1]; exact ⟨h, rfl⟩
  · rw [if_neg h1]
    by_cases h2 : e.suspectionQueue.Len < 1
    · rw [if_pos h2]; exact ⟨h, rfl⟩
    · rw [if_neg h2]
      by_cases h3 : ¬ (e.suspectionQueue.key 0 < now)
      · rw [if_pos h3]; exact ⟨h, rfl⟩
      · rw [if_neg h3]
        exact clearLoop_suspicionInv now _ e [] h

theorem traceSuspections_suspicionInv (e : EngineInstance) (now : Int) (node : Node)
    (new : SWIMState) (h : SuspicionInv e) :
    ∃ e1, e._traceSuspections now node new = some e1 ∧ SuspicionInv e1
      ∧ e1.inPing = e.inPing := by
  unfold EngineInstance._traceSuspections
  split_ifs with hn
  · cases hg : mapGet e.suspectionNodeIndex node with
    | none => exact ⟨e, rfl, h, rfl⟩
    | some s =>
      obtain ⟨r, hr, hinv⟩ := recordsInv_remove _ _ node s h hg
      simp only [hr, Option.map_some']
      exact ⟨_, rfl, hinv, rfl⟩
  · cases hg : mapGet e.suspectionNodeIndex node with
    | some s => exact ⟨e, rfl, h, rfl⟩
    | none =>
      exact ⟨_, rfl, recordsInv_push _ _ node _ _ h hg (newRecord_not_mem e), rfl⟩

theorem clearNode_suspicionInv (bits : CounterBits) (e : EngineInstance) (node : Node)
    (h : SuspicionInv e) :
    ∃ o, EngineInstance._clearNodeFromFailureDetector bits e node = some o
      ∧ SuspicionInv o.e := by
  unfold EngineInstance._clearNodeFromFailureDetector
  cases hg : mapGet e.suspectionNodeIndex node with
  | none => exact ⟨_, rfl, h⟩
  | some s =>
    obtain ⟨r, hr, hinv⟩ := recordsInv_remove _ _ node s h hg
    simp only [hr, Option.map_some']
    exact ⟨_, rfl, hinv⟩

theorem ping_queue (bits : CounterBits) (e : EngineInstance) (id : Nat) (now : Int)
    (node : Option Node) (proxyReq : Option proxyPingRequest) :
    (EngineInstance.ping bits e id now node proxyReq).e.suspectionQueue = e.suspectionQueue
    ∧ (EngineInstance.ping bits e id now node proxyReq).e.suspectionNodeIndex
        = e.suspectionNodeIndex := by
  unfold EngineInstance.ping
  split
  · exact ⟨rfl, rfl⟩
  · split <;> exact ⟨rfl, rfl⟩

theorem onPingReq_queue (bits : CounterBits) (e : EngineInstance) (id : Nat) (now : Int)
    (sender : List GoString) (msg : Option PingReq) :
    (EngineInstance.onPingReq bits e id now sender msg).e.suspectionQueue = e.suspectionQueue
    ∧ (EngineInstance.onPingReq bits e id now sender msg).e.suspectionNodeIndex
        = e.suspectionNodeIndex := by
  unfold EngineInstance.onPingReq
  split
  · exact ⟨rfl, rfl⟩
  · split
    · exact ⟨rfl, rfl⟩
    · split
      · exact ⟨rfl, rfl⟩
      · exact ping_queue bits e id now _ _

theorem onPingAck_queue (bits : CounterBits) (e : EngineInstance) (now : Int)
    (sender : List GoString) (NamesProxyFor : List GoString) :
    (EngineInstance.onPingAck bits e now sender NamesProxyFor).e.suspectionQueue
        = e.suspectionQueue
    ∧ (EngineInstance.onPingAck bits e now sender NamesProxyFor).e.suspectionNodeIndex
        = e.suspectionNodeIndex := by
  unfold EngineInstance.onPingAck
  split
  · exact ⟨rfl, rfl⟩
  · split <;> exact ⟨rfl, rfl⟩

theorem processPingTimeout_queue (e : EngineInstance) (proxies : List Node)
    (node : Option Node) :
    (e.processPingTimeout proxies node).e.suspectionQueue = e.suspectionQueue
    ∧ (e.processPingTimeout proxies node).e.suspectionNodeIndex = e.suspectionNodeIndex := by
  unfold EngineInstance.processPingTimeout
  split
  · exact ⟨rfl, rfl⟩
  · split <;> exact ⟨rfl, rfl⟩

theorem processPingReqTimeout_queue (bits : CounterBits) (e : EngineInstance)
    (KV : Node → Option SWIMTagTxn) (node : Node) :
    (EngineInstance.processPingReqTimeout bits e KV node).1.e.suspectionQueue
        = e.suspectionQueue
    ∧ (EngineInstance.processPingReqTimeout bits e KV node).1.e.suspectionNodeIndex
        = e.suspectionNodeIndex := by
  unfold EngineInstance.processPingReqTimeout
  split <;> exact ⟨rfl, rfl⟩

theorem suspicionInv_of_eq (e e1 : EngineInstance)
    (hq : e1.suspectionQueue = e.suspectionQueue ∧ e1.suspectionNodeIndex = e.suspectionNodeIndex)
    (h : SuspicionInv e) : SuspicionInv e1 := by
  unfold SuspicionInv
  rw [hq.1, hq.2]
  exact h

theorem step_suspicionInv (bits : CounterBits) (s : EngineRun) (st : EngineStep)
    (h : SuspicionInv s.e) : ∃ s1, s.step bits st = some s1 ∧ SuspicionInv s1.e := by
  cases st with
  | ping id now node proxyReq =>
    exact ⟨_, rfl, suspicionInv_of_eq _ _ (ping_queue bits s.e id now node proxyReq) h⟩
  | onPingReq id now sender msg =>
    exact ⟨_, rfl, suspicionInv_of_eq _ _ (onPingReq_queue bits s.e id now sender msg) h⟩
  | onPingAck now sender names =>
    exact ⟨_, rfl, suspicionInv_of_eq _ _ (onPingAck_queue bits s.e now sender names) h⟩
  | processPingTimeout proxies node =>
    exact ⟨_, rfl, suspicionInv_of_eq _ _ (processPingTimeout_queue s.e proxies node) h⟩
  | processPingReqTimeout KV node =>
    exact ⟨_, rfl, suspicionInv_of_eq _ _ (processPingReqTimeout_queue bits s.e KV node) h⟩
  | _clearNodeFromFailureDetector node =>
    obtain ⟨o, ho, hinv⟩ := clearNode_suspicionInv bits s.e node h
    exact ⟨s.apply bits o, by simp [EngineRun.step, ho], hinv⟩
  | _traceSuspections now node new =>
    obtain ⟨e1, he, hinv, _⟩ := traceSuspections_suspicionInv s.e now node new h
    exact ⟨{ s with e := e1 }, by simp [EngineRun.step, he], hinv⟩
  | ClearSuspections shouldRun now KV commitErr =>
    exact ⟨_, rfl, (clearSuspections_suspicionInv s.e shouldRun now KV commitErr h).1⟩

theorem steps_suspicionInv (bits : CounterBits) : ∀ (l : List EngineStep) (s : EngineRun),
    SuspicionInv s.e → ∃ s1, s.steps bits l = some s1 ∧ SuspicionInv s1.e := by
  intro l
  induction l with
  | nil => intro s h; exact ⟨s, rfl, h⟩
  | cons st l ih =>
    intro s h
    obtain ⟨s1, h1, hinv⟩ := step_suspicionInv bits s st h
    obtain ⟨s2, h2, hinv2⟩ := ih s1 hinv
    refine ⟨s2, ?_, hinv2⟩
    unfold EngineRun.steps at h2 ⊢
    simp only [List.foldlM_cons, h1]
    exact h2

theorem suspicionInv_empty (e : EngineInstance) (hq : e.suspectionQueue.q = [])
    (hi : e.suspectionNodeIndex = []) : SuspicionInv e := by
  unfold SuspicionInv RecordsInv PosOK IndexConsistent
  rw [hq, hi]
  refine ⟨fun k hk => by simp at hk, ⟨List.nodup_nil, fun p hp => by simp at hp,
    fun n p hg => by simp [mapGet] at hg⟩, List.nodup_nil⟩

/-- From an empty queue and index every sequence of calls runs to its end
and leaves queue and index consistent. -/
theorem steps_queue_consistent (bits : CounterBits) (e0 : EngineInstance)
    (m0 : FailureDetectorMetricIncrement) (l : List EngineStep)
    (hq : e0.suspectionQueue.q = []) (hi : e0.suspectionNodeIndex = []) :
    ∃ s, EngineRun.steps bits ⟨e0, m0⟩ l = some s
      ∧ s.e.suspectionNodeIndex.length = s.e.suspectionQueue.Len
      ∧ (∀ i, i < s.e.suspectionQueue.Len →
          (s.e.suspectionQueue.mem (s.e.suspectionQueue.q.getD i 0)).queueIndex = i)
      ∧ (∀ p ∈ s.e.suspectionQueue.q,
          mapGet s.e.suspectionNodeIndex (s.e.suspectionQueue.mem p).node = some p) := by
  obtain ⟨s, hs, hinv⟩ := steps_suspicionInv bits l ⟨e0, m0⟩ (suspicionInv_empty e0 hq hi)
  exact ⟨s, hs, recordsInv_claim _ _ hinv⟩

/-! ## Lemmas: the `Ping` counter -/

theorem length_mapDelete {κ α : Type} [DecidableEq κ] (m : GoMap κ α) (k : κ) (v : α)
    (hn : (m.map Prod.fst).Nodup) (hg : mapGet m k = some v) :
    (mapDelete m k).length + 1 = m.length := by
  induction m with
  | nil => simp [mapGet] at hg
  | cons p m ih =>
    obtain ⟨a, w⟩ := p
    simp only [List.map_cons, List.nodup_cons] at hn
    unfold mapDelete
    by_cases h1 : a = k
    · subst h1
      have hf : m.filter (fun p => decide (p.1 ≠ a)) = m := by
        apply List.filter_eq_self.mpr
        intro q hq
        have : q.1 ≠ a := fun he => hn.1 (List.mem_map.mpr ⟨q, hq, he⟩)
        simpa using this
      rw [List.filter_cons_of_neg (by simp), hf]
      rfl
    · simp only [mapGet, h1, if_false] at hg
      have := ih hn.2 hg
      unfold mapDelete at this
      rw [List.filter_cons_of_pos (by simpa using h1)]
      simp only [List.length_cons]
      omega

theorem length_mapSet {κ α : Type} [DecidableEq κ] (m : GoMap κ α) (k : κ) (v : α) :
    (mapSet m k v).length = if (mapGet m k).isSome then m.length else m.length + 1 := by
  unfold mapSet
  split_ifs <;> simp

theorem uAdd_zero_right (w n : Nat) : uAdd w (n % 2 ^ w) 0 = n % 2 ^ w := by
  unfold uAdd
  simp

theorem uAdd_one (w n : Nat) : uAdd w (n % 2 ^ w) (uAdd w 0 1) = (n + 1) % 2 ^ w := by
  unfold uAdd
  simp [Nat.add_mod]

theorem uAdd_minus_one (w n : Nat) (hn : 0 < n) :
    uAdd w (n % 2 ^ w) (uSub w 0 1) = (n - 1) % 2 ^ w := by
  obtain ⟨k, rfl⟩ : ∃ k, n = k + 1 := ⟨n - 1, by omega⟩
  unfold uAdd uSub
  have hM : 0 < 2 ^ w := Nat.two_pow_pos w
  generalize 2 ^ w = M at hM
  simp only [Nat.zero_add, Nat.add_sub_cancel]
  rw [Nat.add_mod, Nat.mod_mod, Nat.mod_mod, ← Nat.add_mod]
  by_cases h1 : M = 1
  · subst h1; simp [Nat.mod_one]
  · have h1m : 1 % M = 1 := Nat.mod_eq_of_lt (by omega)
    rw [h1m]
    have : k + 1 + (M - 1) = k + M := by omega
    rw [this, Nat.add_mod_right]

/-- A handler with a `PingEffect` keeps the `Ping` counter in step with the
probes. -/
theorem apply_pingInv (bits : CounterBits) (s : EngineRun) (o : Outcome)
    (hinv : PingInv bits s) (he : PingEffect bits.Ping s.e.inPing o) :
    PingInv bits (s.apply bits o) := by
  obtain ⟨_, hm⟩ := hinv
  obtain ⟨hk, hcase⟩ := he
  refine ⟨hk, ?_⟩
  show (match o.minc with
      | some inc => s.metrics.ApplyIncrement bits inc
      | none => s.metrics).Ping = o.e.inPing.length % 2 ^ bits.Ping
  rcases hcase with ⟨hl, hnone | ⟨inc, hinc, hp⟩⟩ | ⟨hl, inc, hinc, hp⟩ | ⟨hl, inc, hinc, hp⟩
  · rw [hnone, hl]; exact hm
  · rw [hinc, hl]
    show uAdd bits.Ping s.metrics.Ping inc.Ping = _
    rw [hp, hm, uAdd_zero_right]
  · rw [hinc, hl]
    show uAdd bits.Ping s.metrics.Ping inc.Ping = _
    rw [hp, hm, uAdd_one]
  · rw [hinc]
    show uAdd bits.Ping s.metrics.Ping inc.Ping = _
    rw [hp, hm, uAdd_minus_one _ _ (by omega)]
    congr 1
    omega

theorem pingEffect_delete (w : Nat) (e : EngineInstance) (node : Node) (c : pingContext)
    (inc : FailureDetectorMetricIncrement) (o : Outcome)
    (hn : (e.inPing.map Prod.fst).Nodup) (hg : mapGet e.inPing node = some c)
    (he : o.e.inPing = mapDelete e.inPing node) (hm : o.minc = some inc)
    (hp : inc.Ping = uSub w 0 1) : PingEffect w e.inPing o := by
  refine ⟨by rw [he]; exact keys_mapDelete_nodup _ _ hn, Or.inr (Or.inr ⟨?_, inc, hm, hp⟩)⟩
  rw [he]
  exact length_mapDelete _ _ c hn hg

theorem pingEffect_same (w : Nat) (e : EngineInstance) (o : Outcome)
    (hn : (e.inPing.map Prod.fst).Nodup) (he : o.e.inPing = e.inPing)
    (hm : o.minc = none ∨ ∃ inc, o.minc = some inc ∧ inc.Ping = 0) :
    PingEffect w e.inPing o :=
  ⟨by rw [he]; exact hn, Or.inl ⟨by rw [he], hm⟩⟩

theorem ping_effect (bits : CounterBits) (e : EngineInstance) (id : Nat) (now : Int)
    (node : Option Node) (proxyReq : Option proxyPingRequest)
    (hn : (e.inPing.map Prod.fst).Nodup) :
    PingEffect bits.Ping e.inPing (EngineInstance.ping bits e id now node proxyReq) := by
  unfold EngineInstance.ping
  split
  · exact pingEffect_same _ e _ hn rfl (Or.inl rfl)
  · rename_i n
    split
    · rename_i hg
      refine ⟨keys_mapSet_nodup _ _ _ hn, Or.inr (Or.inl ⟨?_, _, rfl, rfl⟩)⟩
      show (mapSet e.inPing n _).length = _
      rw [length_mapSet, hg]
      rfl
    · rename_i c hg
      refine ⟨keys_mapSet_nodup _ _ _ hn, Or.inl ⟨?_, Or.inr ⟨_, rfl, rfl⟩⟩⟩
      show (mapSet e.inPing n _).length = _
      rw [length_mapSet, hg]
      rfl

theorem onPingReq_effect (bits : CounterBits) (e : EngineInstance) (id : Nat) (now : Int)
    (sender : List GoString) (msg : Option PingReq) (hn : (e.inPing.map Prod.fst).Nodup) :
    PingEffect bits.Ping e.inPing (EngineInstance.onPingReq bits e id now sender msg) := by
  unfold EngineInstance.onPingReq
  split
  · exact pingEffect_same _ e _ hn rfl (Or.inl rfl)
  · split
    · exact pingEffect_same _ e _ hn rfl (Or.inl rfl)
    · split
      · exact pingEffect_same _ e _ hn rfl (Or.inr ⟨_, rfl, rfl⟩)
      · exact ping_effect bits e id now _ _ hn

theorem onPingAck_effect (bits : CounterBits) (e : EngineInstance) (now : Int)
    (sender : List GoString) (NamesProxyFor : List GoString)
    (hn : (e.inPing.map Prod.fst).Nodup) :
    PingEffect bits.Ping e.inPing (EngineInstance.onPingAck bits e now sender NamesProxyFor) := by
  unfold EngineInstance.onPingAck
  split
  · exact pingEffect_same _ e _ hn rfl (Or.inl rfl)
  · split
    · exact pingEffect_same _ e _ hn rfl (Or.inr ⟨_, rfl, rfl⟩)
    · rename_i c hg
      exact pingEffect_delete _ e _ c _ _ hn hg rfl rfl rfl

theorem processPingTimeout_effect (w : Nat) (e : EngineInstance) (proxies : List Node)
    (node : Option Node) (hn : (e.inPing.map Prod.fst).Nodup) :
    PingEffect w e.inPing (e.processPingTimeout proxies node) := by
  unfold EngineInstance.processPingTimeout
  split
  · exact pingEffect_same _ e _ hn rfl (Or.inl rfl)
  · rename_i n
    split
    · exact pingEffect_same _ e _ hn rfl (Or.inl rfl)
    · rename_i c hg
      refine ⟨keys_mapSet_nodup _ _ _ hn, Or.inl ⟨?_, Or.inr ⟨_, rfl, rfl⟩⟩⟩
      show (mapSet e.inPing n _).length = _
      rw [length_mapSet, hg]
      rfl

theorem processPingReqTimeout_effect (bits : CounterBits) (e : EngineInstance)
    (KV : Node → Option SWIMTagTxn) (node : Node) (hn : (e.inPing.map Prod.fst).Nodup) :
    PingEffect bits.Ping e.inPing (EngineInstance.processPingReqTimeout bits e KV node).1 := by
  unfold EngineInstance.processPingReqTimeout
  split
  · exact pingEffect_same _ e _ hn rfl (Or.inl rfl)
  · rename_i c hg
    refine pingEffect_delete _ e node c _ _ hn hg ?_ rfl ?_
    · simp [hg]
    · simp [hg]

theorem clearNode_effect (bits : CounterBits) (e : EngineInstance) (node : Node) (o : Outcome)
    (hn : (e.inPing.map Prod.fst).Nodup)
    (ho : EngineInstance._clearNodeFromFailureDetector bits e node = some o) :
    PingEffect bits.Ping e.inPing o := by
  have key : o.e.inPing
        = (if (mapGet e.inPing node).isSome then mapDelete e.inPing node else e.inPing)
      ∧ o.minc = (mapGet e.inPing node).map fun ctx =>
          ({ PingIndirect := if ctx.indirects > 0 then uSub 32 0 ctx.indirects else 0
             ProxyFailure :=
              if ctx.proxyFor.length > 0 then uAdd 64 0 (ctx.proxyFor.length % 2 ^ 64) else 0
             Ping := uSub bits.Ping 0 1 } : FailureDetectorMetricIncrement) := by
    unfold EngineInstance._clearNodeFromFailureDetector at ho
    split at ho
    · simp only [Option.map_eq_some'] at ho
      obtain ⟨r, _, rfl⟩ := ho
      exact ⟨rfl, rfl⟩
    · simp only [Option.some.injEq] at ho
      subst ho
      exact ⟨rfl, rfl⟩
  cases hg : mapGet e.inPing node with
  | none =>
    rw [hg] at key
    exact pingEffect_same _ e _ hn (by simpa using key.1) (Or.inl (by simpa using key.2))
  | some c =>
    rw [hg] at key
    exact pingEffect_delete _ e node c _ _ hn hg (by simpa using key.1)
      (by simpa using key.2) rfl

theorem traceSuspections_inPing (e e1 : EngineInstance) (now : Int) (node : Node)
    (new : SWIMState) (he : e._traceSuspections now node new = some e1) :
    e1.inPing = e.inPing := by
  unfold EngineInstance._traceSuspections at he
  split_ifs at he
  · split at he
    · simp only [Option.map_eq_some'] at he
      obtain ⟨r, _, rfl⟩ := he
      rfl
    · simp only [Option.some.injEq] at he
      subst he; rfl
  · split at he
    · simp only [Option.some.injEq] at he
      subst he; rfl
    · simp only [Option.some.injEq] at he
      subst he; rfl

theorem clearSuspections_inPing (e : EngineInstance) (shouldRun : Bool) (now : Int)
    (KV : Node → Option SWIMTagTxn) (commitErr : Node → Bool) :
    (e.ClearSuspections shouldRun now KV commitErr).1.inPing = e.inPing := by
  unfold EngineInstance.ClearSuspections
  by_cases h1 : shouldRun = false
  · rw [if_pos h1]
  · rw [if_neg h1]
    by_cases h2 : e.suspectionQueue.Len < 1
    · rw [if_pos h2]
    · rw [if_neg h2]
      by_cases h3 : ¬ (e.suspectionQueue.key 0 < now)
      · rw [if_pos h3]
      · rw [if_neg h3]
        exact clearLoop_inPing now _ e []

theorem step_pingInv (bits : CounterBits) (s s1 : EngineRun) (st : EngineStep)
    (h : PingInv bits s) (hs : s.step bits st = some s1) : PingInv bits s1 := by
  cases st with
  | ping id now node proxyReq =>
    simp only [EngineRun.step, Option.some.injEq] at hs
    subst hs
    exact apply_pingInv bits s _ h (ping_effect bits s.e id now node proxyReq h.1)
  | onPingReq id now sender msg =>
    simp only [EngineRun.step, Option.some.injEq] at hs
    subst hs
    exact apply_pingInv bits s _ h (onPingReq_effect bits s.e id now sender msg h.1)
  | onPingAck now sender names =>
    simp only [EngineRun.step, Option.some.injEq] at hs
    subst hs
    exact apply_pingInv bits s _ h (onPingAck_effect bits s.e now sender names h.1)
  | processPingTimeout proxies node =>
    simp only [EngineRun.step, Option.some.injEq] at hs
    subst hs
    exact apply_pingInv bits s _ h (processPingTimeout_effect _ s.e proxies node h.1)
  | processPingReqTimeout KV node =>
    simp only [EngineRun.step, Option.some.injEq] at hs
    subst hs
    exact apply_pingInv bits s _ h (processPingReqTimeout_effect bits s.e KV node h.1)
  | _clearNodeFromFailureDetector node =>
    simp only [EngineRun.step, Option.map_eq_some'] at hs
    obtain ⟨o, ho, rfl⟩ := hs
    exact apply_pingInv bits s _ h (clearNode_effect bits s.e node o h.1 ho)
  | _traceSuspections now node new =>
    simp only [EngineRun.step, Option.map_eq_some'] at hs
    obtain ⟨e1, he, rfl⟩ := hs
    have hin : e1.inPing = s.e.inPing :=
      traceSuspections_inPing s.e e1 now node new he
    exact ⟨by show (e1.inPing.map Prod.fst).Nodup; rw [hin]; exact h.1,
      by show s.metrics.Ping = e1.inPing.length % _; rw [hin]; exact h.2⟩
  | ClearSuspections shouldRun now KV commitErr =>
    simp only [EngineRun.step, Option.some.injEq] at hs
    subst hs
    have hin := clearSuspections_inPing s.e shouldRun now KV commitErr
    exact ⟨by show ((s.e.ClearSuspections shouldRun now KV commitErr).1.inPing.map
          Prod.fst).Nodup
              rw [hin]; exact h.1,
      by show s.metrics.Ping
            = (s.e.ClearSuspections shouldRun now KV commitErr).1.inPing.length % _
         rw [hin]; exact h.2⟩

theorem steps_pingInv (bits : CounterBits) : ∀ (l : List EngineStep) (s s1 : EngineRun),
    PingInv bits s → s.steps bits l = some s1 → PingInv bits s1 := by
  intro l
  induction l with
  | nil =>
    intro s s1 h hs
    simp only [EngineRun.steps, List.foldlM_nil] at hs
    cases hs
    exact h
  | cons st l ih =>
    intro s s1 h hs
    unfold EngineRun.steps at hs
    simp only [List.foldlM_cons] at hs
    cases h1 : s.step bits st with
    | none => rw [h1] at hs; simp at hs
    | some s2 =>
      rw [h1] at hs
      exact ih s2 s1 (step_pingInv bits s s2 st h h1) hs

/-- From no probe and zero counters, the `Ping` counter after any run is the
number of probes in progress. -/
theorem steps_ping_metric (bits : CounterBits) (e0 : EngineInstance) (l : List EngineStep)
    (h0 : e0.inPing = []) :
    (∀ s, EngineRun.steps bits ⟨e0, {}⟩ l = some s →
      s.metrics.Ping = s.e.inPing.length % 2 ^ bits.Ping
      ∧ (s.e.inPing.length < 2 ^ bits.Ping → s.metrics.Ping = s.e.inPing.length)
      ∧ (s.e.inPing.map Prod.fst).Nodup)
    ∧ (e0.suspectionQueue.q = [] → e0.suspectionNodeIndex = [] →
        ∃ s, EngineRun.steps bits ⟨e0, {}⟩ l = some s) := by
  constructor
  · intro s hs
    have hinit : PingInv bits ⟨e0, {}⟩ := by
      unfold PingInv
      show (e0.inPing.map Prod.fst).Nodup ∧ (0 : Nat) = e0.inPing.length % 2 ^ bits.Ping
      rw [h0]
      exact ⟨List.nodup_nil, by simp⟩
    obtain ⟨a, b⟩ := steps_pingInv bits l _ s hinit hs
    exact ⟨b, fun hlt => by rw [b, Nat.mod_eq_of_lt hlt], a⟩
  · intro hq hi
    obtain ⟨s, hs, _⟩ := steps_suspicionInv bits l ⟨e0, {}⟩ (suspicionInv_empty e0 hq hi)
    exact ⟨s, hs⟩

/-! ## Lemmas: the `PingIndirect` counter -/

theorem cast_uAdd (w a b : Nat) : ((uAdd w a b : Nat) : ZMod (2 ^ w)) = (a : ZMod (2 ^ w)) + b := by
  unfold uAdd
  rw [ZMod.natCast_mod]
  push_cast
  rfl

theorem cast_uSub (w a b : Nat) : ((uSub w a b : Nat) : ZMod (2 ^ w)) = (a : ZMod (2 ^ w)) - b := by
  unfold uSub
  rw [ZMod.natCast_mod]
  have hle : b % 2 ^ w ≤ 2 ^ w := le_of_lt (Nat.mod_lt _ (Nat.two_pow_pos w))
  rw [Nat.cast_add, Nat.cast_sub hle, ZMod.natCast_mod, ZMod.natCast_self]
  ring

theorem sum_mapSet_absent (m : GoMap Node pingContext) (k : Node) (c : pingContext)
    (hg : mapGet m k = none) : sumIndirects (mapSet m k c) = sumIndirects m + c.indirects := by
  unfold mapSet sumIndirects
  rw [hg]
  simp

theorem sum_mapSet_present (m : GoMap Node pingContext) (k : Node) (c c1 : pingContext)
    (hn : (m.map Prod.fst).Nodup) (hg : mapGet m k = some c) :
    sumIndirects (mapSet m k c1) + c.indirects = sumIndirects m + c1.indirects := by
  unfold mapSet
  rw [hg]
  simp only [Option.isSome_some, if_true]
  induction m with
  | nil => simp [mapGet] at hg
  | cons p m ih =>
    obtain ⟨a, w⟩ := p
    simp only [List.map_cons, List.nodup_cons] at hn
    by_cases h1 : a = k
    · subst h1
      have hw : w = c := by simpa [mapGet] using hg
      subst hw
      have hsame : (m.map fun p => (p.1, if p.1 = a then c1 else p.2)) = m := by
        conv_rhs => rw [← List.map_id m]
        apply List.map_congr_left
        intro q hq
        have : q.1 ≠ a := fun he => hn.1 (List.mem_map.mpr ⟨q, hq, he⟩)
        simp [this]
      simp only [List.map_cons, if_true, hsame]
      simp only [sumIndirects, List.map_cons, List.sum_cons]
      omega
    · simp only [mapGet, h1, if_false] at hg
      have := ih hn.2 hg
      simp only [sumIndirects, List.map_cons, List.sum_cons, h1, if_false] at this ⊢
      omega

theorem sum_mapDelete (m : GoMap Node pingContext) (k : Node) (c : pingContext)
    (hn : (m.map Prod.fst).Nodup) (hg : mapGet m k = some c) :
    sumIndirects (mapDelete m k) + c.indirects = sumIndirects m := by
  induction m with
  | nil => simp [mapGet] at hg
  | cons p m ih =>
    obtain ⟨a, w⟩ := p
    simp only [List.map_cons, List.nodup_cons] at hn
    unfold mapDelete
    by_cases h1 : a = k
    · subst h1
      have hw : w = c := by simpa [mapGet] using hg
      subst hw
      have hf : m.filter (fun p => decide (p.1 ≠ a)) = m := by
        apply List.filter_eq_self.mpr
        intro q hq
        have : q.1 ≠ a := fun he => hn.1 (List.mem_map.mpr ⟨q, hq, he⟩)
        simpa using this
      rw [List.filter_cons_of_neg (by simp), hf]
      simp only [sumIndirects, List.map_cons, List.sum_cons]
      omega
    · simp only [mapGet, h1, if_false] at hg
      have := ih hn.2 hg
      unfold mapDelete at this
      rw [List.filter_cons_of_pos (by simpa using h1)]
      simp only [sumIndirects, List.map_cons, List.sum_cons] at this ⊢
      omega

theorem pingReqStep_indirects (e : EngineInstance) (node : Node) (req : GossipMessage)
    (c0 : Nat) : ∀ (proxies : List Node) (st : PingReqLoop),
    (st.indirects : ZMod (2 ^ 32)) = (c0 : ZMod (2 ^ 32)) + st.PingIndirect →
    ((proxies.foldl (e.pingReqStep node req) st).indirects : ZMod (2 ^ 32))
      = (c0 : ZMod (2 ^ 32)) + (proxies.foldl (e.pingReqStep node req) st).PingIndirect := by
  intro proxies
  induction proxies with
  | nil => intro st h; exact h
  | cons p ps ih =>
    intro st h
    simp only [List.foldl_cons]
    apply ih
    unfold EngineInstance.pingReqStep
    by_cases hp : p = node
    · rw [if_pos hp]; exact h
    · rw [if_neg hp]
      show ((uAdd 32 st.indirects 1 : Nat) : ZMod (2 ^ 32))
          = (c0 : ZMod (2 ^ 32)) + ((uAdd 32 st.PingIndirect 1 : Nat) : ZMod (2 ^ 32))
      rw [cast_uAdd, cast_uAdd, h]
      ring

theorem apply_indirectInv (bits : CounterBits) (s : EngineRun) (o : Outcome)
    (hinv : IndirectInv s) (he : IndirectEffect s.e.inPing o) :
    IndirectInv (s.apply bits o) := by
  obtain ⟨_, hm⟩ := hinv
  obtain ⟨hk, hsum⟩ := he
  refine ⟨hk, ?_⟩
  have hcast : (s.metrics.PingIndirect : ZMod (2 ^ 32)) = (sumIndirects s.e.inPing : ZMod (2 ^ 32)) := by
    rw [hm, ZMod.natCast_mod]
  have hlt : s.metrics.PingIndirect < 2 ^ 32 := by
    rw [hm]; exact Nat.mod_lt _ (Nat.two_pow_pos 32)
  show (match o.minc with
      | some inc => s.metrics.ApplyIncrement bits inc
      | none => s.metrics).PingIndirect = sumIndirects o.e.inPing % 2 ^ 32
  cases hmi : o.minc with
  | none =>
    rw [hmi] at hsum
    simp only [Nat.cast_zero, add_zero] at hsum
    have := (ZMod.natCast_eq_natCast_iff' _ _ _).mp hsum
    show s.metrics.PingIndirect = _
    rw [this, hm]
  | some inc =>
    rw [hmi] at hsum
    show uAdd 32 s.metrics.PingIndirect inc.PingIndirect = _
    have h1 : ((uAdd 32 s.metrics.PingIndirect inc.PingIndirect : Nat) : ZMod (2 ^ 32))
        = (sumIndirects o.e.inPing : ZMod (2 ^ 32)) := by
      rw [cast_uAdd, hcast, hsum]
    have h2 := (ZMod.natCast_eq_natCast_iff' _ _ _).mp h1
    have h3 : uAdd 32 s.metrics.PingIndirect inc.PingIndirect < 2 ^ 32 := by
      unfold uAdd; exact Nat.mod_lt _ (Nat.two_pow_pos 32)
    rw [Nat.mod_eq_of_lt h3] at h2
    exact h2

theorem indirectEffect_same (e : EngineInstance) (o : Outcome)
    (hn : (e.inPing.map Prod.fst).Nodup) (he : o.e.inPing = e.inPing)
    (hm : o.minc = none ∨ ∃ inc, o.minc = some inc ∧ inc.PingIndirect = 0) :
    IndirectEffect e.inPing o := by
  refine ⟨by rw [he]; exact hn, ?_⟩
  rw [he]
  rcases hm with h | ⟨inc, h, h0⟩
  · rw [h]; simp
  · rw [h]; simp [h0]

theorem indirectEffect_delete (e : EngineInstance) (node : Node) (c : pingContext)
    (inc : FailureDetectorMetricIncrement) (o : Outcome)
    (hn : (e.inPing.map Prod.fst).Nodup) (hg : mapGet e.inPing node = some c)
    (he : o.e.inPing = mapDelete e.inPing node) (hm : o.minc = some inc)
    (hp : inc.PingIndirect = if c.indirects > 0 then uSub 32 0 c.indirects else 0) :
    IndirectEffect e.inPing o := by
  refine ⟨by rw [he]; exact keys_mapDelete_nodup _ _ hn, ?_⟩
  rw [he, hm]
  have hs := sum_mapDelete e.inPing node c hn hg
  have hinc : (inc.PingIndirect : ZMod (2 ^ 32)) = - (c.indirects : ZMod (2 ^ 32)) := by
    rw [hp]
    split_ifs with h0
    · rw [cast_uSub]; simp
    · have : c.indirects = 0 := by omega
      rw [this]; simp
  show (sumIndirects (mapDelete e.inPing node) : ZMod (2 ^ 32))
    = (sumIndirects e.inPing : ZMod (2 ^ 32)) + (inc.PingIndirect : ZMod (2 ^ 32))
  rw [hinc, ← hs]
  push_cast
  ring

theorem ping_indirectEffect (bits : CounterBits) (e : EngineInstance) (id : Nat) (now : Int)
    (node : Option Node) (proxyReq : Option proxyPingRequest)
    (hn : (e.inPing.map Prod.fst).Nodup) :
    IndirectEffect e.inPing (EngineInstance.ping bits e id now node proxyReq) := by
  unfold EngineInstance.ping
  split
  · exact indirectEffect_same e _ hn rfl (Or.inl rfl)
  · rename_i n
    split
    · rename_i hg
      refine ⟨keys_mapSet_nodup _ _ _ hn, ?_⟩
      show (sumIndirects (mapSet e.inPing n _) : ZMod (2 ^ 32)) = _ + ((0 : Nat) : ZMod (2 ^ 32))
      rw [sum_mapSet_absent _ _ _ hg]
      simp
    · rename_i c hg
      refine ⟨keys_mapSet_nodup _ _ _ hn, ?_⟩
      show (sumIndirects (mapSet e.inPing n _) : ZMod (2 ^ 32)) = _ + ((0 : Nat) : ZMod (2 ^ 32))
      have := sum_mapSet_present e.inPing n c
        { c with proxyFor := c.proxyFor ++ proxyReq.toList } hn hg
      simp only [add_left_inj] at this
      rw [this]
      simp

theorem onPingReq_indirectEffect (bits : CounterBits) (e : EngineInstance) (id : Nat)
    (now : Int) (sender : List GoString) (msg : Option PingReq)
    (hn : (e.inPing.map Prod.fst).Nodup) :
    IndirectEffect e.inPing (EngineInstance.onPingReq bits e id now sender msg) := by
  unfold EngineInstance.onPingReq
  split
  · exact indirectEffect_same e _ hn rfl (Or.inl rfl)
  · split
    · exact indirectEffect_same e _ hn rfl (Or.inl rfl)
    · split
      · exact indirectEffect_same e _ hn rfl (Or.inr ⟨_, rfl, rfl⟩)
      · exact ping_indirectEffect bits e id now _ _ hn

theorem processPingTimeout_indirectEffect (e : EngineInstance) (proxies : List Node)
    (node : Option Node) (hn : (e.inPing.map Prod.fst).Nodup) :
    IndirectEffect e.inPing (e.processPingTimeout proxies node) := by
  unfold EngineInstance.processPingTimeout
  split
  · exact indirectEffect_same e _ hn rfl (Or.inl rfl)
  · rename_i n
    split
    · exact indirectEffect_same e _ hn rfl (Or.inl rfl)
    · rename_i c hg
      refine ⟨keys_mapSet_nodup _ _ _ hn, ?_⟩
      have hf := pingReqStep_indirects e n (GossipMessage.PingReq c.id (e.cluster.Names n))
        c.indirects proxies { indirects := c.indirects } (by simp)
      have hs := sum_mapSet_present e.inPing n c
        { c with
          indirects :=
            (proxies.foldl
              (e.pingReqStep n (GossipMessage.PingReq c.id (e.cluster.Names n)))
              { indirects := c.indirects }).indirects } hn hg
      have hs2 := congrArg (fun x : Nat => (x : ZMod (2 ^ 32))) hs
      simp only [Nat.cast_add] at hs2
      show (sumIndirects (mapSet e.inPing n _) : ZMod (2 ^ 32))
        = _ + (((proxies.foldl
              (e.pingReqStep n (GossipMessage.PingReq c.id (e.cluster.Names n)))
              { indirects := c.indirects }).PingIndirect : Nat) : ZMod (2 ^ 32))
      rw [hf] at hs2
      linear_combination hs2

theorem processPingReqTimeout_indirectEffect (bits : CounterBits) (e : EngineInstance)
    (KV : Node → Option SWIMTagTxn) (node : Node) (hn : (e.inPing.map Prod.fst).Nodup) :
    IndirectEffect e.inPing (EngineInstance.processPingReqTimeout bits e KV node).1 := by
  unfold EngineInstance.processPingReqTimeout
  split
  · exact indirectEffect_same e _ hn rfl (Or.inl rfl)
  · rename_i c hg
    refine indirectEffect_delete e node c _ _ hn hg ?_ rfl rfl
    simp [hg]

theorem clearNode_indirectEffect (bits : CounterBits) (e : EngineInstance) (node : Node)
    (o : Outcome) (hn : (e.inPing.map Prod.fst).Nodup)
    (ho : EngineInstance._clearNodeFromFailureDetector bits e node = some o) :
    IndirectEffect e.inPing o := by
  have key : o.e.inPing
        = (if (mapGet e.inPing node).isSome then mapDelete e.inPing node else e.inPing)
      ∧ o.minc = (mapGet e.inPing node).map fun ctx =>
          ({ PingIndirect := if ctx.indirects > 0 then uSub 32 0 ctx.indirects else 0
             ProxyFailure :=
              if ctx.proxyFor.length > 0 then uAdd 64 0 (ctx.proxyFor.length % 2 ^ 64) else 0
             Ping := uSub bits.Ping 0 1 } : FailureDetectorMetricIncrement) := by
    unfold EngineInstance._clearNodeFromFailureDetector at ho
    split at ho
    · simp only [Option.map_eq_some'] at ho
      obtain ⟨r, _, rfl⟩ := ho
      exact ⟨rfl, rfl⟩
    · simp only [Option.some.injEq] at ho
      subst ho
      exact ⟨rfl, rfl⟩
  cases hg : mapGet e.inPing node with
  | none =>
    rw [hg] at key
    exact indirectEffect_same e _ hn (by simpa using key.1) (Or.inl (by simpa using key.2))
  | some c =>
    rw [hg] at key
    exact indirectEffect_delete e node c _ _ hn hg (by simpa using key.1)
      (by simpa using key.2) rfl

theorem step_indirectInv (bits : CounterBits) (s s1 : EngineRun) (st : EngineStep)
    (hack : st.isAck = false) (h : IndirectInv s) (hs : s.step bits st = some s1) :
    IndirectInv s1 := by
  cases st with
  | ping id now node proxyReq =>
    simp only [EngineRun.step, Option.some.injEq] at hs
    subst hs
    exact apply_indirectInv bits s _ h (ping_indirectEffect bits s.e id now node proxyReq h.1)
  | onPingReq id now sender msg =>
    simp only [EngineRun.step, Option.some.injEq] at hs
    subst hs
    exact apply_indirectInv bits s _ h (onPingReq_indirectEffect bits s.e id now sender msg h.1)
  | onPingAck now sender names => simp [EngineStep.isAck] at hack
  | processPingTimeout proxies node =>
    simp only [EngineRun.step, Option.some.injEq] at hs
    subst hs
    exact apply_indirectInv bits s _ h (processPingTimeout_indirectEffect s.e proxies node h.1)
  | processPingReqTimeout KV node =>
    simp only [EngineRun.step, Option.some.injEq] at hs
    subst hs
    exact apply_indirectInv bits s _ h
      (processPingReqTimeout_indirectEffect bits s.e KV node h.1)
  | _clearNodeFromFailureDetector node =>
    simp only [EngineRun.step, Option.map_eq_some'] at hs
    obtain ⟨o, ho, rfl⟩ := hs
    exact apply_indirectInv bits s _ h (clearNode_indirectEffect bits s.e node o h.1 ho)
  | _traceSuspections now node new =>
    simp only [EngineRun.step, Option.map_eq_some'] at hs
    obtain ⟨e1, he, rfl⟩ := hs
    have hin : e1.inPing = s.e.inPing :=
      traceSuspections_inPing s.e e1 now node new he
    exact ⟨by show (e1.inPing.map Prod.fst).Nodup; rw [hin]; exact h.1,
      by show s.metrics.PingIndirect = sumIndirects e1.inPing % _; rw [hin]; exact h.2⟩
  | ClearSuspections shouldRun now KV commitErr =>
    simp only [EngineRun.step, Option.some.injEq] at hs
    subst hs
    have hin := clearSuspections_inPing s.e shouldRun now KV commitErr
    exact ⟨by show ((s.e.ClearSuspections shouldRun now KV commitErr).1.inPing.map
          Prod.fst).Nodup
              rw [hin]; exact h.1,
      by show s.metrics.PingIndirect
            = sumIndirects (s.e.ClearSuspections shouldRun now KV commitErr).1.inPing % _
         rw [hin]; exact h.2⟩

theorem steps_indirectInv (bits : CounterBits) : ∀ (l : List EngineStep) (s s1 : EngineRun),
    (∀ st ∈ l, st.isAck = false) → IndirectInv s → s.steps bits l = some s1 →
    IndirectInv s1 := by
  intro l
  induction l with
  | nil =>
    intro s s1 _ h hs
    simp only [EngineRun.steps, List.foldlM_nil] at hs
    cases hs
    exact h
  | cons st l ih =>
    intro s s1 hack h hs
    unfold EngineRun.steps at hs
    simp only [List.foldlM_cons] at hs
    cases h1 : s.step bits st with
    | none => rw [h1] at hs; simp at hs
    | some s2 =>
      rw [h1] at hs
      exact ih s2 s1 (fun x hx => hack x (List.mem_cons_of_mem _ hx))
        (step_indirectInv bits s s2 st (hack st (List.mem_cons_self _ _)) h h1) hs

/-- From no probe and zero counters, after every run without an ack the
`PingIndirect` counter is the sum of `indirects` over the contexts in
`inPing`, modulo `2 ^ 32`. -/
theorem steps_pingIndirect_without_ack (bits : CounterBits) (e0 : EngineInstance)
    (l : List EngineStep) (s : EngineRun) (h0 : e0.inPing = [])
    (hack : ∀ st ∈ l, st.isAck = false)
    (hs : EngineRun.steps bits ⟨e0, {}⟩ l = some s) :
    s.metrics.PingIndirect = sumIndirects s.e.inPing % 2 ^ 32 := by
  have hinit : IndirectInv ⟨e0, {}⟩ := by
    unfold IndirectInv
    show (e0.inPing.map Prod.fst).Nodup ∧ (0 : Nat) = sumIndirects e0.inPing % 2 ^ 32
    rw [h0]
    exact ⟨List.nodup_nil, rfl⟩
  exact (steps_indirectInv bits l _ s hack hinit hs).2

/-! ## Lemmas: state tallies -/

/-- Method `keyValueRealEntries` panics exactly when the map holds a nil entry. -/
theorem keyValueRealEntries_isSome (g : KeyValue → Option KeyValue) :
    ∀ (m : List (GoString × Option NodeEntry)),
    (keyValueRealEntries g m).isSome = true ↔ ∀ p ∈ m, p.2 ≠ none := by
  intro m
  induction m with
  | nil => simp [keyValueRealEntries]
  | cons p m ih =>
    obtain ⟨k, oe⟩ := p
    cases oe with
    | none => simp [keyValueRealEntries]
    | some e =>
      simp only [keyValueRealEntries, List.mem_cons, forall_eq_or_imp, ne_eq,
        not_false_eq_true, true_and, reduceCtorEq]
      rw [← ih]
      cases h1 : keyValueRealEntries g m with
      | none => simp
      | some l => cases h2 : g e.entry.KeyValue <;> simp

/-- The end of a success path returns nil with the node it was given when
the written map holds no nil entry, and panics with that node otherwise. -/
theorem emit_spec (n : SladderNode) (event : List KeyValue → KeyEvent) :
    ((∀ p ∈ n.kvs, p.2 ≠ none) →
      ∃ entries, keyValueRealEntries n.getRealEntry n.kvs = some entries
        ∧ n.emit event = SetOutcome.returned none n (some (event entries)))
    ∧ (¬ (∀ p ∈ n.kvs, p.2 ≠ none) → n.emit event = SetOutcome.panicked n) := by
  unfold SladderNode.emit
  have hs := keyValueRealEntries_isSome n.getRealEntry n.kvs
  cases h : keyValueRealEntries n.getRealEntry n.kvs with
  | none =>
    rw [h] at hs
    refine ⟨fun hall => ?_, fun _ => rfl⟩
    have := hs.mpr hall
    simp at this
  | some l =>
    rw [h] at hs
    refine ⟨fun _ => ⟨l, rfl, rfl⟩, fun hn => absurd (hs.mp rfl) hn⟩

/-- What `_set` does, case by case, once the loop condition may be tested. -/
theorem set_cases (fuel : Nat) (n : SladderNode) (key value : GoString) :
    ((mapGet n.kvs key).join = none → mapGet n.validators key = none →
      SladderNode._set (fuel + 1) n key value
        = some (SetOutcome.returned (some SladderError.ErrValidatorMissing) n none))
    ∧ (∀ v, (mapGet n.kvs key).join = none → mapGet n.validators key = some v →
        v ⟨key, value⟩ = false →
        SladderNode._set (fuel + 1) n key value
          = some (SetOutcome.returned (some SladderError.ErrInvalidKeyValue) n none))
    ∧ (∀ e, mapGet n.kvs key = some (some e) → e.validator ⟨key, value⟩ = false →
        SladderNode._set (fuel + 1) n key value
          = some (SetOutcome.returned (some SladderError.ErrInvalidKeyValue) n none))
    ∧ (∀ v, mapGet n.kvs key = none → mapGet n.validators key = some v →
        v ⟨key, value⟩ = true →
        SladderNode._set (fuel + 1) n key value
          = some
              (SladderNode.emit
                { n with kvs := mapSet n.kvs key (some ⟨⟨⟨key, value⟩⟩, v⟩) }
                (KeyEvent.insertion key value)))
    ∧ (∀ e, mapGet n.kvs key = some (some e) → e.validator ⟨key, value⟩ = true →
        SladderNode._set (fuel + 1) n key value
          = some
              (SladderNode.emit
                { n with kvs := mapSet n.kvs key (some { e with entry := ⟨⟨key, value⟩⟩ }) }
                (KeyEvent.change key e.entry.KeyValue.Value value))) := by
  refine ⟨?_, ?_, ?_, ?_, ?_⟩
  · intro h1 h2
    unfold SladderNode._set
    rw [h1]
    simp [SladderNode._setLoop, h2]
  · intro v h1 h2 h3
    unfold SladderNode._set
    rw [h1]
    simp [SladderNode._setLoop, h2, h3]
  · intro e h1 h2
    unfold SladderNode._set
    rw [h1]
    simp [SladderNode._setLoop, h2]
  · intro v h1 h2 h3
    unfold SladderNode._set
    rw [h1]
    simp [SladderNode._setLoop, h1, h2, h3]
  · intro e h1 h2
    unfold SladderNode._set
    rw [h1]
    simp [SladderNode._setLoop, h2]

/-- The loop of `_set` entered on a nil entry leaves only by returning an
error, the node being as it was. -/
theorem setLoop_nil : ∀ (fuel : Nat) (n : SladderNode) (key value : GoString) (o : SetOutcome),
    mapGet n.kvs key = some none →
    SladderNode._setLoop key value fuel n none true = some o →
    ∃ err, o = SetOutcome.returned (some err) n none := by
  intro fuel
  induction fuel with
  | zero => intro n key value o _ h; simp [SladderNode._setLoop] at h
  | succ k ih =>
    intro n key value o hk h
    simp only [SladderNode._setLoop, Option.isNone_none, Bool.or_true, if_true] at h
    cases hv : mapGet n.validators key with
    | none =>
      rw [hv] at h
      simp only [Option.some.injEq] at h
      exact ⟨_, h.symm⟩
    | some v =>
      rw [hv] at h
      simp only at h
      split_ifs at h with hval
      · simp only [Option.some.injEq] at h
        exact ⟨_, h.symm⟩
      · rw [hk] at h
        exact ih n key value o hk h

theorem written_mapSet (n : SladderNode) (key value : GoString) (e : NodeEntry)
    (he : e.entry.KeyValue = ⟨key, value⟩) :
    Written n { n with kvs := mapSet n.kvs key (some e) } key value :=
  ⟨⟨e, mapGet_mapSet_self _ _ _, he⟩, fun _ hne => mapGet_mapSet_other _ _ _ _ hne, rfl⟩

theorem mem_mapSet_of_ne {κ α : Type} [DecidableEq κ] (m : GoMap κ α) (k : κ) (v : α)
    (p : κ × α) (hne : p.1 ≠ k) : p ∈ mapSet m k v ↔ p ∈ m := by
  unfold mapSet
  split_ifs
  · simp only [List.mem_map]
    constructor
    · rintro ⟨q, hq, rfl⟩
      simp only at hne
      rw [if_neg hne]
      exact hq
    · intro hp
      exact ⟨p, hp, by rw [if_neg hne]⟩
  · simp only [List.mem_append, List.mem_singleton]
    constructor
    · rintro (h | h)
      · exact h
      · rw [h] at hne; exact absurd rfl hne
    · exact Or.inl

theorem mem_mapSet_of_eq {κ α : Type} [DecidableEq κ] (m : GoMap κ α) (k : κ) (v : α)
    (p : κ × α) (he : p.1 = k) (hp : p ∈ mapSet m k v) : p.2 = v := by
  unfold mapSet at hp
  split_ifs at hp with hs
  · simp only [List.mem_map] at hp
    obtain ⟨q, _, rfl⟩ := hp
    simp only at he
    simp [he]
  · simp only [List.mem_append, List.mem_singleton] at hp
    rcases hp with h | h
    · exfalso
      have := mapGet_isSome_of_mem_keys m k (by rw [← he]; exact List.mem_map.mpr ⟨p, h, rfl⟩)
      obtain ⟨w, hw⟩ := this
      rw [hw] at hs
      simp at hs
    · rw [h]

/-- The map written by `_set` holds a nil entry exactly when the map before
held one under another key. -/
theorem nil_after_write (m : GoMap GoString (Option NodeEntry)) (key : GoString) (e : NodeEntry) :
    (∀ p ∈ mapSet m key (some e), p.2 ≠ none) ↔ ∀ p ∈ m, p.1 ≠ key → p.2 ≠ none := by
  constructor
  · intro h p hp hne
    exact h p ((mem_mapSet_of_ne m key (some e) p hne).mpr hp)
  · intro h p hp
    by_cases hk : p.1 = key
    · rw [mem_mapSet_of_eq m key (some e) p hk hp]
      simp
    · exact h p ((mem_mapSet_of_ne m key (some e) p hk).mp hp) hk

/-- Every outcome of `_set`: a returned error leaves the node as it was; a
return of nil leaves the given value under the key and every other key as it
was, the map before holding no nil entry under another key; a panic happens
only after the write, the map before holding a nil entry under another key. -/
theorem set_result (fuel : Nat) (n : SladderNode) (key value : GoString) (o : SetOutcome)
    (h : SladderNode._set fuel n key value = some o) :
    (∀ err n1 ev, o = SetOutcome.returned (some err) n1 ev → n1 = n ∧ ev = none)
    ∧ (∀ n1 ev, o = SetOutcome.returned none n1 ev →
        Written n n1 key value ∧ (∀ p ∈ n.kvs, p.1 ≠ key → p.2 ≠ none) ∧ ev ≠ none)
    ∧ (∀ n1, o = SetOutcome.panicked n1 →
        Written n n1 key value ∧ ∃ p ∈ n.kvs, p.1 ≠ key ∧ p.2 = none) := by
  have herr : ∀ err0, o = SetOutcome.returned (some err0) n none →
      (∀ err n1 ev, o = SetOutcome.returned (some err) n1 ev → n1 = n ∧ ev = none)
      ∧ (∀ n1 ev, o = SetOutcome.returned none n1 ev →
          Written n n1 key value ∧ (∀ p ∈ n.kvs, p.1 ≠ key → p.2 ≠ none) ∧ ev ≠ none)
      ∧ (∀ n1, o = SetOutcome.panicked n1 →
          Written n n1 key value ∧ ∃ p ∈ n.kvs, p.1 ≠ key ∧ p.2 = none) := by
    intro err0 ho
    subst ho
    refine ⟨fun err n1 ev h2 => ?_, fun n1 ev h2 => (by cases h2), fun n1 h2 => (by cases h2)⟩
    cases h2
    exact ⟨rfl, rfl⟩
  have hemit : ∀ (e : NodeEntry) (event : List KeyValue → KeyEvent),
      e.entry.KeyValue = ⟨key, value⟩ →
      o = SladderNode.emit { n with kvs := mapSet n.kvs key (some e) } event →
      (∀ err n1 ev, o = SetOutcome.returned (some err) n1 ev → n1 = n ∧ ev = none)
      ∧ (∀ n1 ev, o = SetOutcome.returned none n1 ev →
          Written n n1 key value ∧ (∀ p ∈ n.kvs, p.1 ≠ key → p.2 ≠ none) ∧ ev ≠ none)
      ∧ (∀ n1, o = SetOutcome.panicked n1 →
          Written n n1 key value ∧ ∃ p ∈ n.kvs, p.1 ≠ key ∧ p.2 = none) := by
    intro e event he ho
    have hw := written_mapSet n key value e he
    obtain ⟨e1, e2⟩ := emit_spec { n with kvs := mapSet n.kvs key (some e) } event
    have hnil := nil_after_write n.kvs key e
    by_cases hall : ∀ p ∈ mapSet n.kvs key (some e), p.2 ≠ none
    · obtain ⟨entries, _, hem⟩ := e1 hall
      rw [hem] at ho
      subst ho
      refine ⟨fun err n2 ev h2 => (by cases h2), fun n2 ev h2 => ?_, fun n2 h2 => (by cases h2)⟩
      cases h2
      exact ⟨hw, hnil.mp hall, by simp⟩
    · rw [e2 hall] at ho
      subst ho
      refine ⟨fun err n2 ev h2 => (by cases h2), fun n2 ev h2 => (by cases h2), fun n2 h2 => ?_⟩
      cases h2
      refine ⟨hw, ?_⟩
      rw [hnil] at hall
      push_neg at hall
      exact hall
  cases fuel with
  | zero => simp [SladderNode._set, SladderNode._setLoop] at h
  | succ f =>
    have hc := set_cases f n key value
    cases hk : mapGet n.kvs key with
    | none =>
      cases hv : mapGet n.validators key with
      | none =>
        rw [hc.1 (by rw [hk]; rfl) hv] at h
        exact herr _ (Option.some.inj h).symm
      | some v =>
        cases hval : v ⟨key, value⟩ with
        | false =>
          rw [hc.2.1 v (by rw [hk]; rfl) hv hval] at h
          exact herr _ (Option.some.inj h).symm
        | true =>
          rw [hc.2.2.2.1 v hk hv hval] at h
          exact hemit _ _ rfl (Option.some.inj h).symm
    | some oe =>
      cases oe with
      | none =>
        have h2 : SladderNode._setLoop key value (f + 1) n none true = some o := by
          unfold SladderNode._set at h
          rw [hk] at h
          exact h
        obtain ⟨err, he⟩ := setLoop_nil (f + 1) n key value o hk h2
        exact herr err he
      | some e =>
        cases hval : e.validator ⟨key, value⟩ with
        | false =>
          rw [hc.2.2.1 e hk hval] at h
          exact herr _ (Option.some.inj h).symm
        | true =>
          rw [hc.2.2.2.2 e hk hval] at h
          exact hemit _ _ rfl (Option.some.inj h).symm

/-- When the validator accepts: `_set` returns nil after the write if the map
holds no nil entry under another key, and panics after the write if it does. -/
theorem set_accept (fuel : Nat) (n : SladderNode) (key value : GoString) (e : NodeEntry)
    (event : List KeyValue → KeyEvent) (he : e.entry.KeyValue = ⟨key, value⟩)
    (h : SladderNode._set (fuel + 1) n key value
      = some (SladderNode.emit { n with kvs := mapSet n.kvs key (some e) } event)) :
    ((∀ p ∈ n.kvs, p.1 ≠ key → p.2 ≠ none) →
      ∃ n1 ev, SladderNode._set (fuel + 1) n key value
          = some (SetOutcome.returned none n1 (some ev))
        ∧ Written n n1 key value)
    ∧ ((∃ p ∈ n.kvs, p.1 ≠ key ∧ p.2 = none) →
      ∃ n1, SladderNode._set (fuel + 1) n key value = some (SetOutcome.panicked n1)
        ∧ Written n n1 key value) := by
  have hw := written_mapSet n key value e he
  obtain ⟨e1, e2⟩ := emit_spec { n with kvs := mapSet n.kvs key (some e) } event
  have hnil := nil_after_write n.kvs key e
  constructor
  · intro hall
    obtain ⟨entries, _, hem⟩ := e1 (hnil.mpr hall)
    exact ⟨_, _, by rw [h, hem], hw⟩
  · intro hex
    have hn : ¬ ∀ p ∈ mapSet n.kvs key (some e), p.2 ≠ none := by
      rw [hnil]
      push_neg
      exact hex
    exact ⟨_, by rw [h, e2 hn], hw⟩

/-- With a nil entry under the key `a` and an accepting validator for the
absent key `b`, `_set` writes the entry of `b` and then panics in
`keyValueRealEntries`. -/
theorem set_panics_after_write :
    ∃ n1, SladderNode._set 1
        { kvs := [(ascii "a", none)], validators := [(ascii "b", fun _ => true)] }
        (ascii "b") (ascii "x") = some (SetOutcome.panicked n1)
      ∧ n1.kvs.map (fun p => (p.1, p.2.map fun e => e.entry))
          = [(ascii "a", none), (ascii "b", some ⟨⟨ascii "b", ascii "x"⟩⟩)] :=
  ⟨_, rfl, by decide⟩

/-! ## Lemmas: the node operations of a transaction -/

theorem holeInv_swap (h : suspectionQueue) (i n : Nat) (hd : HoleInv h i n)
    (h1 : 2 * i + 1 < n) (hn : n ≤ h.q.length)
    (hl : h.key (heapChild h i n) < h.key i) :
    DownInv (h.Swap i (heapChild h i n)) (heapChild h i n) n := by
  have hjn := heapChild_lt h i n h1
  have hcases := heapChild_cases h i n
  generalize heapChild h i n = j at hjn hcases hl ⊢
  have hil : i < h.q.length := by omega
  have hjl : j < h.q.length := by omega
  have hji : (j - 1) / 2 = i := by rcases hcases with c | c <;> omega
  have hjpos : 0 < j := by rcases hcases with c | c <;> omega
  have hij : i ≠ j := by rcases hcases with c | c <;> omega
  have key' : ∀ k, (h.Swap i j).key k
      = if k = j then h.key i else if k = i then h.key j else h.key k :=
    fun k => swap_key h i j k hil hjl
  constructor
  · intro k hk hkn hpk
    by_cases hpi : (k - 1) / 2 = i
    · rw [hpi, key' i, key' k]
      simp only [hij, if_false, if_true]
      by_cases hkj : k = j
      · simp only [hkj, if_true]; exact le_of_lt hl
      · have hki : k ≠ i := by omega
        simp only [hkj, hki, if_false]
        rcases hcases with ⟨c1, c2⟩ | ⟨c1, c2, c3⟩
        · have hk2 : k = 2 * i + 2 := by omega
          rw [c1, hk2]; exact c2 (by omega)
        · have hk1 : k = 2 * i + 1 := by omega
          rw [c1, hk1]; exact le_of_lt c3
    · have hkj : k ≠ j := fun e => hpi (e ▸ hji)
      have hpj : (k - 1) / 2 ≠ j := hpk
      rw [key' ((k - 1) / 2), key' k]
      simp only [hpj, hpi, hkj, if_false]
      by_cases hki : k = i
      · subst hki
        simp only [if_true]
        exact hd.2 hk j hjpos hjn hji
      · simp only [hki, if_false]
        exact hd.1 k hk hkn hpi hki
  · intro _ k hk hkn hpk
    have hkj : k ≠ j := by omega
    have hki : k ≠ i := by omega
    rw [hji, key' i, key' k]
    simp only [hij, hkj, hki, if_false, if_true]
    have hle := hd.1 k hk hkn (by omega) hki
    rw [hpk] at hle
    exact hle

theorem heapDownLoop_pos_ge : ∀ (fuel : Nat) (h : suspectionQueue) (i n : Nat),
    i ≤ (heapDownLoop fuel h i n).2 := by
  intro fuel
  induction fuel with
  | zero => intro h i n; exact le_refl _
  | succ f ih =>
    intro h i n
    unfold heapDownLoop
    split_ifs with h1 h2
    · exact le_refl _
    · exact le_refl _
    · have hji : i < heapChild h i n := by
        rcases heapChild_cases h i n with c | c <;> omega
      exact le_trans (le_of_lt hji) (ih _ _ n)

/-- Function `heap.down` from the state `heap.Remove` hands it: when the
element moves the first `n` slots end in heap order; when it does not, the
queue is untouched and the element is no later than its children. -/
theorem heapDown_hole (h : suspectionQueue) (i n : Nat) (hd : HoleInv h i n) (hi : i < n)
    (hn : n ≤ h.q.length) :
    ((heapDown h i n).2 = true → HeapOrdered (heapDown h i n).1 n)
    ∧ ((heapDown h i n).2 = false →
        (heapDown h i n).1 = h
        ∧ ∀ k, 0 < k → k < n → (k - 1) / 2 = i → h.key i ≤ h.key k) := by
  obtain ⟨f, hf⟩ : ∃ f, n = f + 1 := ⟨n - 1, by omega⟩
  unfold heapDown
  rw [hf]
  rw [hf] at hd hi hn
  unfold heapDownLoop
  by_cases h1 : f + 1 ≤ 2 * i + 1
  · rw [if_pos h1]
    constructor
    · intro hm; simp at hm
    · intro _
      exact ⟨rfl, fun k _ hkn hp => by omega⟩
  · rw [if_neg h1]
    by_cases h2 : h.Less (heapChild h i (f + 1)) i = false
    · rw [if_pos h2]
      constructor
      · intro hm; simp at hm
      · intro _
        refine ⟨rfl, fun k hk hkn hp => ?_⟩
        have hle : h.key i ≤ h.key (heapChild h i (f + 1)) := by
          simpa [suspectionQueue.Less] using h2
        rcases heapChild_cases h i (f + 1) with ⟨c1, c2⟩ | ⟨c1, c2, c3⟩
        · rw [c1] at hle
          rcases (show k = 2 * i + 1 ∨ k = 2 * i + 2 by omega) with e | e
          · rw [e]; exact hle
          · rw [e]; exact le_trans hle (c2 (by omega))
        · rw [c1] at hle
          rcases (show k = 2 * i + 1 ∨ k = 2 * i + 2 by omega) with e | e
          · rw [e]; exact le_trans hle (le_of_lt c3)
          · rw [e]; exact hle
    · rw [if_neg h2]
      have hl : h.key (heapChild h i (f + 1)) < h.key i := by
        have : h.Less (heapChild h i (f + 1)) i = true := by simpa using h2
        simpa [suspectionQueue.Less] using this
      have hjn := heapChild_lt h i (f + 1) (by omega)
      have hji : i < heapChild h i (f + 1) := by
        rcases heapChild_cases h i (f + 1) with c | c <;> omega
      have hge := heapDownLoop_pos_ge f (h.Swap i (heapChild h i (f + 1)))
        (heapChild h i (f + 1)) (f + 1)
      constructor
      · intro _
        exact heapDownLoop_heap f _ _ (f + 1)
          (holeInv_swap h i (f + 1) hd (by omega) hn hl)
          (by rw [swap_length]; exact hn) (by omega)
      · intro hm
        exfalso
        simp only [decide_eq_false_iff_not, not_lt] at hm
        omega

theorem upInv_swap (h : suspectionQueue) (j n : Nat) (hu : UpInv h j n) (hj : j < n)
    (hn : n ≤ h.q.length) (hj0 : (j - 1) / 2 ≠ j)
    (hl : h.key j < h.key ((j - 1) / 2)) :
    UpInv (h.Swap ((j - 1) / 2) j) ((j - 1) / 2) n := by
  have hjpos : 0 < j := by omega
  have hpj : (j - 1) / 2 < j := by omega
  generalize hpdef : (j - 1) / 2 = p at hj0 hl hpj ⊢
  have hpl : p < h.q.length := by omega
  have hjl : j < h.q.length := by omega
  have key' : ∀ k, (h.Swap p j).key k
      = if k = j then h.key p else if k = p then h.key j else h.key k :=
    fun k => swap_key h p j k hpl hjl
  have hpnej : p ≠ j := by omega
  constructor
  · intro k hk hkn hkp
    rw [key' ((k - 1) / 2), key' k]
    by_cases hkj : k = j
    · subst hkj
      rw [hpdef]
      simp only [hpnej, if_false, if_true]
      exact le_of_lt hl
    · simp only [hkj, hkp, if_false]
      by_cases hq : (k - 1) / 2 = j
      · simp only [hq, if_true]
        have := hu.2 hjpos k hk hkn hq
        rw [hpdef] at this
        exact this
      · simp only [hq, if_false]
        by_cases hq2 : (k - 1) / 2 = p
        · simp only [hq2, if_true]
          have := hu.1 k hk hkn hkj
          rw [hq2] at this
          exact le_trans (le_of_lt hl) this
        · simp only [hq2, if_false]
          exact hu.1 k hk hkn hkj
  · intro hp0 k hk hkn hq
    have hpp : (p - 1) / 2 < p := by omega
    rw [key' ((p - 1) / 2), key' k]
    have e1 : (p - 1) / 2 ≠ j := by omega
    have e2 : (p - 1) / 2 ≠ p := by omega
    simp only [e1, e2, if_false]
    have hkp : k ≠ p := by omega
    have hpar : h.key ((p - 1) / 2) ≤ h.key p := hu.1 p hp0 (by omega) (by omega)
    by_cases hkj : k = j
    · simp only [hkj, if_true]
      exact hpar
    · simp only [hkj, hkp, if_false]
      have := hu.1 k hk hkn hkj
      rw [hq] at this
      exact le_trans hpar this

theorem heapOrdered_of_upInv (h : suspectionQueue) (j n : Nat) (hu : UpInv h j n)
    (hc : 0 < j → j < n → h.key ((j - 1) / 2) ≤ h.key j) : HeapOrdered h n := by
  intro k hk hkn
  by_cases hkj : k = j
  · subst hkj; exact hc hk hkn
  · exact hu.1 k hk hkn hkj

theorem heapUpLoop_heap : ∀ (fuel : Nat) (h : suspectionQueue) (j n : Nat),
    UpInv h j n → j < n → n ≤ h.q.length → j < fuel →
    HeapOrdered (heapUpLoop fuel h j) n := by
  intro fuel
  induction fuel with
  | zero => intro h j n _ _ _ hf; omega
  | succ f ih =>
    intro h j n hu hj hn hf
    unfold heapUpLoop
    by_cases h1 : (j - 1) / 2 = j ∨ h.Less j ((j - 1) / 2) = false
    · rw [if_pos h1]
      refine heapOrdered_of_upInv h j n hu (fun hj0 _ => ?_)
      rcases h1 with h1 | h1
      · omega
      · simpa [suspectionQueue.Less] using h1
    · rw [if_neg h1]
      push_neg at h1
      have hl : h.key j < h.key ((j - 1) / 2) := by
        have : h.Less j ((j - 1) / 2) = true := by simpa using h1.2
        simpa [suspectionQueue.Less] using this
      exact ih _ _ n (upInv_swap h j n hu hj hn h1.1 hl) (by omega)
        (by rw [swap_length]; exact hn) (by omega)

theorem key_push_lt (h : suspectionQueue) (x : Ptr) (k : Nat) (hk : k < h.q.length) :
    (h.Push x).key k = h.key k := by
  unfold suspectionQueue.key suspectionQueue.Push
  have e1 : (h.q ++ [x]).getD k 0 = h.q.getD k 0 := by
    simp [List.getD_eq_getElem?_getD, List.getElem?_append_left hk]
  simp only [e1, Function.update_apply]
  split_ifs with hx
  · rw [hx]
  · rfl

/-- Function `heap.Push` keeps the heap order. -/
theorem heapPush_heap (h : suspectionQueue) (x : Ptr) (ho : HeapOrdered h h.q.length) :
    HeapOrdered (heapPush h x) (heapPush h x).q.length := by
  have hlen : (h.Push x).q.length = h.q.length + 1 := by simp [suspectionQueue.Push]
  have hu : UpInv (h.Push x) h.q.length (h.q.length + 1) := by
    constructor
    · intro k hk hkn hne
      have hk2 : k < h.q.length := by omega
      rw [key_push_lt h x k hk2, key_push_lt h x _ (by omega)]
      exact ho k hk hk2
    · intro _ k hk hkn hp
      omega
  have hres := heapUpLoop_heap (h.q.length + 1) (h.Push x) h.q.length (h.q.length + 1) hu
    (by omega) (by omega) (by omega)
  have hl2 : (heapPush h x).q.length = h.q.length + 1 := by
    unfold heapPush heapUp
    rw [(heapUpLoop_sifted _ _ _ (h.q.length + 1) (by simp [suspectionQueue.Len, hlen])
      (by omega)).1, hlen]
  rw [hl2]
  unfold heapPush heapUp
  simpa [suspectionQueue.Len, hlen] using hres

theorem heapOrdered_pop (h : suspectionQueue) (n : Nat) (hl : h.q.length = n + 1)
    (ho : HeapOrdered h n) : HeapOrdered h.Pop.2 h.Pop.2.q.length := by
  have e : h.Pop = (h.q.getD n 0, { h with q := h.q.take n }) := by
    unfold suspectionQueue.Pop suspectionQueue.Len
    rw [hl]
    rfl
  rw [e]
  have hlen : (h.q.take n).length = n := by rw [List.length_take]; omega
  show HeapOrdered { h with q := h.q.take n } (h.q.take n).length
  rw [hlen]
  intro k hk hkn
  have e1 : ({ h with q := h.q.take n } : suspectionQueue).key k = h.key k := by
    unfold suspectionQueue.key
    show (h.mem ((h.q.take n).getD k 0)).notAfter = _
    rw [getD_take_of_lt h.q n k hkn]
  have e2 : ({ h with q := h.q.take n } : suspectionQueue).key ((k - 1) / 2)
      = h.key ((k - 1) / 2) := by
    unfold suspectionQueue.key
    show (h.mem ((h.q.take n).getD ((k - 1) / 2) 0)).notAfter = _
    rw [getD_take_of_lt h.q n _ (by omega)]
  rw [e1, e2]
  exact ho k hk hkn

/-- Function `heap.Remove` keeps the heap order. -/
theorem heapRemove_heap (h : suspectionQueue) (i : Nat) (r : Ptr × suspectionQueue)
    (ho : HeapOrdered h h.q.length) (hr : heapRemove h i = some r) :
    HeapOrdered r.2 r.2.q.length := by
  unfold heapRemove at hr
  by_cases hi : i < h.Len
  · rw [if_neg (not_not.mpr hi)] at hr
    obtain ⟨n, hl⟩ : ∃ n, h.q.length = n + 1 :=
      ⟨h.q.length - 1, by unfold suspectionQueue.Len at hi; omega⟩
    have hlen : h.Len = n + 1 := hl
    have hi2 : i < n + 1 := by rw [← hlen]; exact hi
    simp only [hlen, Nat.add_sub_cancel] at hr
    by_cases hin : n = i
    · rw [if_neg (by simpa using hin)] at hr
      simp only [Option.some.injEq] at hr
      subst hr
      exact heapOrdered_pop h n hl (fun k hk hkn => ho k hk (by omega))
    · rw [if_pos hin] at hr
      have hin2 : i < n := by omega
      have hsl : (h.Swap i n).q.length = n + 1 := by rw [swap_length, hl]
      have hhole : HoleInv (h.Swap i n) i n := by
        have key' : ∀ k, (h.Swap i n).key k
            = if k = n then h.key i else if k = i then h.key n else h.key k :=
          fun k => swap_key h i n k (by omega) (by omega)
        constructor
        · intro k hk hkn hp hki
          rw [key' ((k - 1) / 2), key' k]
          have e1 : (k - 1) / 2 ≠ n := by omega
          have e2 : k ≠ n := by omega
          simp only [e1, e2, hp, hki, if_false]
          exact ho k hk (by omega)
        · intro hi0 k hk hkn hp
          rw [key' ((i - 1) / 2), key' k]
          have e1 : (i - 1) / 2 ≠ n := by omega
          have e2 : (i - 1) / 2 ≠ i := by omega
          have e3 : k ≠ n := by omega
          have e4 : k ≠ i := by omega
          simp only [e1, e2, e3, e4, if_false]
          have a := ho i hi0 (by omega)
          have b := ho k hk (by omega)
          rw [hp] at b
          exact le_trans a b
      obtain ⟨d1, d2⟩ := heapDown_hole (h.Swap i n) i n hhole hin2 (by omega)
      by_cases hmoved : (heapDown (h.Swap i n) i n).2 = false
      · rw [if_pos hmoved] at hr
        simp only [Option.some.injEq] at hr
        subst hr
        obtain ⟨heq, hch⟩ := d2 hmoved
        rw [heq]
        have hu : UpInv (h.Swap i n) i n := by
          constructor
          · intro k hk hkn hki
            by_cases hp : (k - 1) / 2 = i
            · rw [hp]; exact hch k hk hkn hp
            · exact hhole.1 k hk hkn hp hki
          · exact hhole.2
        have hup := heapUpLoop_heap (i + 1) (h.Swap i n) i n hu hin2 (by omega) (by omega)
        have hlu : (heapUp (h.Swap i n) i).q.length = n + 1 := by
          unfold heapUp
          rw [(heapUpLoop_sifted _ _ _ n hin2 (by omega)).1, hsl]
        exact heapOrdered_pop _ n hlu hup
      · rw [if_neg hmoved] at hr
        simp only [Option.some.injEq] at hr
        subst hr
        have hm2 : (heapDown (h.Swap i n) i n).2 = true := by simpa using hmoved
        have hld : (heapDown (h.Swap i n) i n).1.q.length = n + 1 := by
          unfold heapDown
          rw [(heapDownLoop_sifted _ _ _ n (by omega)).1, hsl]
        exact heapOrdered_pop _ n hld (d1 hm2)
  · rw [if_pos hi] at hr
    simp at hr

/-! ## Lemmas: heap order over the engine calls -/

/-- The claims of `ClearSuspections` are the nodes of `deads` up to and
including the first whose commit fails: every claim but the last committed,
and when nodes are left over the last claim is one whose commit failed. -/
theorem claimDeads_exact (KV : Node → Option SWIMTagTxn) (commitErr : Node → Bool) :
    ∀ l : List Node, ∃ rest : List Node,
      l = (claimDeads KV commitErr l).map DeadClaim.node ++ rest
      ∧ (∀ n ∈ ((claimDeads KV commitErr l).map DeadClaim.node).dropLast, commitErr n = false)
      ∧ (rest ≠ [] → ∃ n, ((claimDeads KV commitErr l).map DeadClaim.node).getLast? = some n
          ∧ commitErr n = true)
      ∧ (l ≠ [] → claimDeads KV commitErr l ≠ []) := by
  intro l
  induction l with
  | nil => exact ⟨[], by simp [claimDeads], by simp [claimDeads], by simp, by simp⟩
  | cons n l ih =>
    obtain ⟨rest, h1, h2, h3, h4⟩ := ih
    unfold claimDeads
    by_cases hc : commitErr n = true
    · rw [if_pos hc]
      exact ⟨l, by simp, by simp, fun _ => ⟨n, by simp, hc⟩, by simp⟩
    · rw [if_neg hc]
      have hc2 : commitErr n = false := by simpa using hc
      refine ⟨rest, ?_, ?_, ?_, by simp⟩
      · simp only [List.map_cons, List.cons_append]
        rw [← h1]
      · intro m hm
        simp only [List.map_cons] at hm
        by_cases hl : l = []
        · subst hl
          simp [claimDeads] at hm
        · have hne : (claimDeads KV commitErr l).map DeadClaim.node ≠ [] := by
            simpa using h4 hl
          rw [List.dropLast_cons_of_ne_nil hne] at hm
          rcases List.mem_cons.mp hm with h | h
          · rw [h]; exact hc2
          · exact h2 m h
      · intro hr
        obtain ⟨m, hm1, hm2⟩ := h3 hr
        refine ⟨m, ?_, hm2⟩
        simp only [List.map_cons]
        have hne : (claimDeads KV commitErr l).map DeadClaim.node ≠ [] := by
          intro he
          rw [he] at hm1
          simp at hm1
        obtain ⟨a, t, heq⟩ := List.exists_cons_of_ne_nil hne
        rw [heq] at hm1 ⊢
        rw [List.getLast?_cons_cons]
        exact hm1

theorem clearLoop_order (now : Int) : ∀ (fuel : Nat) (e : EngineInstance) (deads : List Node),
    QueueInv e → e.suspectionQueue.q.length ≤ fuel →
    QueueInv (clearLoop now fuel e deads).1
    ∧ (∀ p ∈ (clearLoop now fuel e deads).1.suspectionQueue.q,
        ¬ ((clearLoop now fuel e deads).1.suspectionQueue.mem p).notAfter < now)
    ∧ (∀ p, ((clearLoop now fuel e deads).1.suspectionQueue.mem p).notAfter
        = (e.suspectionQueue.mem p).notAfter)
    ∧ (∀ p, ((clearLoop now fuel e deads).1.suspectionQueue.mem p).node
        = (e.suspectionQueue.mem p).node)
    ∧ ∃ removed : List Ptr,
        ((clearLoop now fuel e deads).1.suspectionQueue.q ++ removed).Perm e.suspectionQueue.q
        ∧ (∀ p ∈ removed, (e.suspectionQueue.mem p).notAfter < now)
        ∧ removed.Pairwise (fun p q =>
            (e.suspectionQueue.mem p).notAfter ≤ (e.suspectionQueue.mem q).notAfter)
        ∧ (clearLoop now fuel e deads).2
            = deads ++ removed.map fun p => (e.suspectionQueue.mem p).node := by
  intro fuel
  induction fuel with
  | zero =>
    intro e deads hinv hf
    have hq : e.suspectionQueue.q = [] := List.length_eq_zero.mp (by omega)
    refine ⟨hinv, ?_, fun _ => rfl, fun _ => rfl, [], ?_, by simp, List.Pairwise.nil, ?_⟩
    · intro p hp
      have hp' : p ∈ e.suspectionQueue.q := hp
      rw [hq] at hp'; simp at hp'
    · show (e.suspectionQueue.q ++ []).Perm e.suspectionQueue.q
      simp
    · show deads = deads ++ List.map _ []
      simp
  | succ f ih =>
    intro e deads hinv hf
    unfold clearLoop
    split_ifs with h1 h2
    · -- pop the root and go on
      have hpos : 0 < e.suspectionQueue.q.length := h1
      have hexp : (e.suspectionQueue.mem (e.suspectionQueue.q.getD 0 0)).notAfter < now := by
        exact h2
      obtain ⟨_, b2, b3, _, b5, b6⟩ := heapPop_spec e.suspectionQueue hpos hinv.1
      obtain ⟨c1, c2, c3, c4, removed, c5, c6, c8, c7⟩ :=
        ih _ (deads ++ [(e.suspectionQueue.mem (e.suspectionQueue.q.getD 0 0)).node])
          (queueInv_pop e hinv hpos) (by show (heapPop e.suspectionQueue).2.q.length ≤ f; omega)
      refine ⟨c1, c2, fun p => (c3 p).trans (b5 p), fun p => (c4 p).trans (b6 p),
        e.suspectionQueue.q.getD 0 0 :: removed, ?_, ?_, ?_, ?_⟩
      · exact (List.perm_middle.trans ((c5.cons _).trans
          (List.perm_append_singleton _ _).symm)).trans b2
      · intro p hp
        rcases List.mem_cons.mp hp with h | h
        · rw [h]; exact hexp
        · have := c6 p h
          rwa [show (((heapPop e.suspectionQueue).2).mem p).notAfter
            = (e.suspectionQueue.mem p).notAfter from b5 p] at this
      · refine List.Pairwise.cons ?_ ?_
        · intro p hp
          have hp1 : p ∈ (heapPop e.suspectionQueue).2.q :=
            c5.subset (List.mem_append_right _ hp)
          have hp2 : p ∈ e.suspectionQueue.q := b2.subset (List.mem_append_left _ hp1)
          obtain ⟨k, hk, he⟩ := exists_getD_of_mem _ p hp2
          have := heapOrdered_root_le e.suspectionQueue _ hinv.1 k hk
          unfold suspectionQueue.key at this
          rw [he] at this
          exact this
        · refine c8.imp ?_
          intro p q hpq
          have e1 : (((heapPop e.suspectionQueue).2).mem p).notAfter
            = (e.suspectionQueue.mem p).notAfter := b5 p
          have e2 : (((heapPop e.suspectionQueue).2).mem q).notAfter
            = (e.suspectionQueue.mem q).notAfter := b5 q
          rw [← e1, ← e2]
          exact hpq
      · rw [c7]
        simp only [List.map_append, List.map_cons, List.map_nil, List.append_assoc,
          List.singleton_append]
        congr 2
        exact List.map_congr_left fun p _ => b6 p
    · -- the root has not expired: nothing in the queue has
      refine ⟨hinv, ?_, fun _ => rfl, fun _ => rfl, [], by simp, by simp, List.Pairwise.nil,
        by simp⟩
      intro p hp
      show ¬ (e.suspectionQueue.mem p).notAfter < now
      have hp' : p ∈ e.suspectionQueue.q := hp
      obtain ⟨k, hk, he⟩ := exists_getD_of_mem _ p hp'
      have := heapOrdered_root_le e.suspectionQueue _ hinv.1 k hk
      unfold suspectionQueue.key at this h2
      rw [he] at this
      omega
    · have hq : e.suspectionQueue.q = [] := List.length_eq_zero.mp (by
        unfold suspectionQueue.Len at h1; omega)
      refine ⟨hinv, ?_, fun _ => rfl, fun _ => rfl, [], by simp, by simp, List.Pairwise.nil,
        by simp⟩
      intro p hp; rw [hq] at hp; simp at hp

theorem clearSuspections_order (e : EngineInstance) (now : Int) (KV : Node → Option SWIMTagTxn)
    (commitErr : Node → Bool) (hinv : QueueInv e) :
    QueueInv (e.ClearSuspections true now KV commitErr).1
    ∧ (∀ p ∈ (e.ClearSuspections true now KV commitErr).1.suspectionQueue.q,
        ¬ ((e.ClearSuspections true now KV commitErr).1.suspectionQueue.mem p).notAfter < now)
    ∧ ∃ removed : List Ptr,
        ((e.ClearSuspections true now KV commitErr).1.suspectionQueue.q ++ removed).Perm
          e.suspectionQueue.q
        ∧ (∀ p ∈ removed, (e.suspectionQueue.mem p).notAfter < now)
        ∧ removed.Pairwise (fun p q =>
            (e.suspectionQueue.mem p).notAfter ≤ (e.suspectionQueue.mem q).notAfter)
        ∧ (e.ClearSuspections true now KV commitErr).2
            = claimDeads KV commitErr (removed.map fun p => (e.suspectionQueue.mem p).node) := by
  unfold EngineInstance.ClearSuspections
  simp only [Bool.true_eq_false, if_false]
  split_ifs with h1 h2
  · have hq : e.suspectionQueue.q = [] := List.length_eq_zero.mp (by
      unfold suspectionQueue.Len at h1; omega)
    refine ⟨hinv, ?_, [], by simp, by simp, List.Pairwise.nil, by simp [claimDeads]⟩
    intro p hp
    have hp' : p ∈ e.suspectionQueue.q := hp
    rw [hq] at hp'; simp at hp'
  · obtain ⟨c1, c2, _, _, removed, c5, c6, c8, c7⟩ :=
      clearLoop_order now e.suspectionQueue.Len e [] hinv (le_refl _)
    refine ⟨c1, c2, removed, c5, c6, c8, ?_⟩
    show claimDeads KV commitErr (clearLoop now e.suspectionQueue.Len e []).2 = _
    rw [c7]; simp
  · refine ⟨hinv, ?_, [], by simp, by simp, List.Pairwise.nil, by simp [claimDeads]⟩
    intro p hp
    show ¬ (e.suspectionQueue.mem p).notAfter < now
    have hp' : p ∈ e.suspectionQueue.q := hp
    obtain ⟨k, hk, he⟩ := exists_getD_of_mem _ p hp'
    have := heapOrdered_root_le e.suspectionQueue _ hinv.1 k hk
    unfold suspectionQueue.key at this h2
    rw [he] at this
    omega

theorem queueInv_of_suspicionInv (e : EngineInstance) (h : SuspicionInv e)
    (ho : HeapOrdered e.suspectionQueue e.suspectionQueue.q.length) : QueueInv e :=
  ⟨ho, h.2.1⟩

theorem clearSuspections_heap (e : EngineInstance) (shouldRun : Bool) (now : Int)
    (KV : Node → Option SWIMTagTxn) (commitErr : Node → Bool) (hinv : QueueInv e) :
    HeapOrdered (e.ClearSuspections shouldRun now KV commitErr).1.suspectionQueue
      (e.ClearSuspections shouldRun now KV commitErr).1.suspectionQueue.q.length := by
  cases shouldRun with
  | false => exact hinv.1
  | true => exact (clearSuspections_order e now KV commitErr hinv).1.1

theorem heapOrdered_new_record (h : suspectionQueue) (x : Ptr) (rec : suspection)
    (hx : x ∉ h.q) (ho : HeapOrdered h h.q.length) :
    HeapOrdered { h with mem := Function.update h.mem x rec } h.q.length := by
  intro k hk hkn
  have key' : ∀ j, j < h.q.length →
      ({ h with mem := Function.update h.mem x rec } : suspectionQueue).key j = h.key j := by
    intro j hj
    have hne : h.q.getD j 0 ≠ x := fun he => hx (he ▸ mem_of_getD_lt h.q j hj)
    show (Function.update h.mem x rec (h.q.getD j 0)).notAfter = _
    rw [Function.update_noteq hne]
    rfl
  rw [key' k hkn, key' _ (by omega)]
  exact ho k hk hkn

theorem traceSuspections_heap (e : EngineInstance) (now : Int) (node : Node) (new : SWIMState)
    (e1 : EngineInstance) (ho : HeapOrdered e.suspectionQueue e.suspectionQueue.q.length)
    (h1 : e._traceSuspections now node new = some e1) :
    HeapOrdered e1.suspectionQueue e1.suspectionQueue.q.length := by
  unfold EngineInstance._traceSuspections at h1
  split_ifs at h1 with hn
  · cases hg : mapGet e.suspectionNodeIndex node with
    | none =>
      simp only [hg, Option.some.injEq] at h1
      subst h1; exact ho
    | some s =>
      simp only [hg] at h1
      cases hr : heapRemove e.suspectionQueue (e.suspectionQueue.mem s).queueIndex with
      | none => rw [hr] at h1; simp at h1
      | some r =>
        rw [hr] at h1
        simp only [Option.map_some', Option.some.injEq] at h1
        subst h1
        exact heapRemove_heap _ _ r ho hr
  · cases hg : mapGet e.suspectionNodeIndex node with
    | some s =>
      simp only [hg, Option.some.injEq] at h1
      subst h1; exact ho
    | none =>
      simp only [hg, Option.some.injEq] at h1
      subst h1
      exact heapPush_heap _ _ (heapOrdered_new_record _ _ _ (newRecord_not_mem e) ho)

theorem clearNode_heap (bits : CounterBits) (e : EngineInstance) (node : Node) (o : Outcome)
    (ho : HeapOrdered e.suspectionQueue e.suspectionQueue.q.length)
    (h1 : EngineInstance._clearNodeFromFailureDetector bits e node = some o) :
    HeapOrdered o.e.suspectionQueue o.e.suspectionQueue.q.length := by
  unfold EngineInstance._clearNodeFromFailureDetector at h1
  cases hg : mapGet e.suspectionNodeIndex node with
  | none =>
    simp only [hg, Option.some.injEq] at h1
    subst h1; exact ho
  | some s =>
    simp only [hg] at h1
    cases hr : heapRemove e.suspectionQueue (e.suspectionQueue.mem s).queueIndex with
    | none => rw [hr] at h1; simp at h1
    | some r =>
      rw [hr] at h1
      simp only [Option.map_some', Option.some.injEq] at h1
      subst h1
      exact heapRemove_heap _ _ r ho hr

theorem heapOrdered_of_eq (e e1 : EngineInstance)
    (hq : e1.suspectionQueue = e.suspectionQueue ∧ e1.suspectionNodeIndex = e.suspectionNodeIndex)
    (h : HeapOrdered e.suspectionQueue e.suspectionQueue.q.length) :
    HeapOrdered e1.suspectionQueue e1.suspectionQueue.q.length := by
  rw [hq.1]
  exact h

theorem step_heap (bits : CounterBits) (s s1 : EngineRun) (st : EngineStep)
    (hs : SuspicionInv s.e)
    (ho : HeapOrdered s.e.suspectionQueue s.e.suspectionQueue.q.length)
    (h1 : s.step bits st = some s1) :
    HeapOrdered s1.e.suspectionQueue s1.e.suspectionQueue.q.length := by
  cases st with
  | ping id now node proxyReq =>
    simp only [EngineRun.step, Option.some.injEq] at h1
    subst h1
    exact heapOrdered_of_eq _ _ (ping_queue bits s.e id now node proxyReq) ho
  | onPingReq id now sender msg =>
    simp only [EngineRun.step, Option.some.injEq] at h1
    subst h1
    exact heapOrdered_of_eq _ _ (onPingReq_queue bits s.e id now sender msg) ho
  | onPingAck now sender names =>
    simp only [EngineRun.step, Option.some.injEq] at h1
    subst h1
    exact heapOrdered_of_eq _ _ (onPingAck_queue bits s.e now sender names) ho
  | processPingTimeout proxies node =>
    simp only [EngineRun.step, Option.some.injEq] at h1
    subst h1
    exact heapOrdered_of_eq _ _ (processPingTimeout_queue s.e proxies node) ho
  | processPingReqTimeout KV node =>
    simp only [EngineRun.step, Option.some.injEq] at h1
    subst h1
    exact heapOrdered_of_eq _ _ (processPingReqTimeout_queue bits s.e KV node) ho
  | _clearNodeFromFailureDetector node =>
    simp only [EngineRun.step] at h1
    cases hc : EngineInstance._clearNodeFromFailureDetector bits s.e node with
    | none => rw [hc] at h1; simp at h1
    | some o =>
      rw [hc] at h1
      simp only [Option.map_some', Option.some.injEq] at h1
      subst h1
      exact clearNode_heap bits s.e node o ho hc
  | _traceSuspections now node new =>
    simp only [EngineRun.step] at h1
    cases hc : s.e._traceSuspections now node new with
    | none => rw [hc] at h1; simp at h1
    | some e1 =>
      rw [hc] at h1
      simp only [Option.map_some', Option.some.injEq] at h1
      subst h1
      exact traceSuspections_heap s.e now node new e1 ho hc
  | ClearSuspections shouldRun now KV commitErr =>
    simp only [EngineRun.step, Option.some.injEq] at h1
    subst h1
    exact clearSuspections_heap s.e shouldRun now KV commitErr
      (queueInv_of_suspicionInv s.e hs ho)

theorem steps_queueInv (bits : CounterBits) : ∀ (l : List EngineStep) (s : EngineRun),
    SuspicionInv s.e → HeapOrdered s.e.suspectionQueue s.e.suspectionQueue.q.length →
    ∃ s1, s.steps bits l = some s1 ∧ SuspicionInv s1.e ∧ QueueInv s1.e := by
  intro l
  induction l with
  | nil => intro s h ho; exact ⟨s, rfl, h, queueInv_of_suspicionInv s.e h ho⟩
  | cons st l ih =>
    intro s h ho
    obtain ⟨s1, h1, hinv⟩ := step_suspicionInv bits s st h
    obtain ⟨s2, h2, hinv2⟩ := ih s1 hinv (step_heap bits s s1 st h ho h1)
    refine ⟨s2, ?_, hinv2⟩
    unfold EngineRun.steps at h2 ⊢
    simp only [List.foldlM_cons, h1]
    exact h2

/-- From an empty queue and index every sequence of calls runs to its end
and leaves the queue in heap order and in agreement with the index. -/
theorem steps_queueInv_empty (bits : CounterBits) (e0 : EngineInstance)
    (m0 : FailureDetectorMetricIncrement) (l : List EngineStep)
    (hq : e0.suspectionQueue.q = []) (hi : e0.suspectionNodeIndex = []) :
    ∃ s, EngineRun.steps bits ⟨e0, m0⟩ l = some s ∧ QueueInv s.e := by
  have ho : HeapOrdered e0.suspectionQueue e0.suspectionQueue.q.length := by
    intro k hk hkn
    rw [hq] at hkn
    simp at hkn
  obtain ⟨s, hs, _, hinv⟩ := steps_queueInv bits l ⟨e0, m0⟩ (suspicionInv_empty e0 hq hi) ho
  exact ⟨s, hs, hinv⟩

/-! ## Claims C15 and C21 to C27 -/

/-- Counterexample to C15 as stated.  In the sample engine the suspicions
expire at 10 and 20.  At now = 20 the pass removes the first only: the record
with notAfter = 20 ≤ now stays in the queue and in the index.  At now = 25,
when the commit of the first dead claim fails, both records are removed but a
transaction is issued for node 101 only. -/
theorem C15_clearSuspections_counterexample :
    ((sampleEngine.ClearSuspections true 20 suspectedKV fun _ => false).1.suspectionQueue.q = [2]
      ∧ ((sampleEngine.ClearSuspections true 20 suspectedKV fun _ => false).1.suspectionQueue.mem
          2).notAfter ≤ 20
      ∧ mapGet (sampleEngine.ClearSuspections true 20 suspectedKV fun _ => false).1.suspectionNodeIndex
          102 = some 2)
    ∧ ((sampleEngine.ClearSuspections true 25 suspectedKV fun n => decide (n = 101)).1.suspectionQueue.q
        = []
      ∧ (sampleEngine.ClearSuspections true 25 suspectedKV fun n => decide (n = 101)).2
        = [{ node := 101, claimed := some true }]) := by
  decide

/-- Claim C15 as amended.  For every engine state whose suspicion queue is in
heap order and agrees with the node index, and every time now, after one
`ClearSuspections` pass (the arbiter allowing it): no suspicion record with
notAfter < now remains in the queue or in the node index; the records removed
had notAfter < now and left in the order of their notAfter; the dead-claiming
transactions, each calling `ClaimDead` on the tag it reads, are issued for
the nodes of the removed records in removal order, up to and including the
first whose commit fails (every claim but the last committed, and when
removed records are left without a claim the last claim is one whose commit
failed; a pass that removes a record issues at least one claim), and for
every removed record when no commit fails; and the pass leaves the queue in
heap order and in agreement with the index.  That state is the one the heap
functions leave: `heap.Push`, `heap.Remove` and `heap.Pop` keep the heap
order, and every sequence of calls into the failure detector from an empty
queue and index runs to its end and leaves the queue in heap order and in
agreement with the index. -/
theorem C15_clearSuspections (e : EngineInstance) (now : Int) (KV : Node → Option SWIMTagTxn)
    (commitErr : Node → Bool) (hinv : QueueInv e) :
    (∀ p ∈ (e.ClearSuspections true now KV commitErr).1.suspectionQueue.q,
        ¬ ((e.ClearSuspections true now KV commitErr).1.suspectionQueue.mem p).notAfter < now)
    ∧ (∀ n p, mapGet (e.ClearSuspections true now KV commitErr).1.suspectionNodeIndex n = some p →
        ¬ ((e.ClearSuspections true now KV commitErr).1.suspectionQueue.mem p).notAfter < now)
    ∧ (∃ removed : List Ptr,
        ((e.ClearSuspections true now KV commitErr).1.suspectionQueue.q ++ removed).Perm
          e.suspectionQueue.q
        ∧ (∀ p ∈ removed, (e.suspectionQueue.mem p).notAfter < now)
        ∧ removed.Pairwise (fun p q =>
            (e.suspectionQueue.mem p).notAfter ≤ (e.suspectionQueue.mem q).notAfter)
        ∧ (∃ rest : List Node,
            (removed.map fun p => (e.suspectionQueue.mem p).node)
              = (e.ClearSuspections true now KV commitErr).2.map DeadClaim.node ++ rest
            ∧ (∀ n ∈ ((e.ClearSuspections true now KV commitErr).2.map DeadClaim.node).dropLast,
                commitErr n = false)
            ∧ (rest ≠ [] →
                ∃ n, ((e.ClearSuspections true now KV commitErr).2.map DeadClaim.node).getLast?
                    = some n
                  ∧ commitErr n = true)
            ∧ (removed ≠ [] → (e.ClearSuspections true now KV commitErr).2 ≠ []))
        ∧ ((∀ p ∈ removed, commitErr (e.suspectionQueue.mem p).node = false) →
            (e.ClearSuspections true now KV commitErr).2.map DeadClaim.node
              = removed.map fun p => (e.suspectionQueue.mem p).node)
        ∧ (∀ c ∈ (e.ClearSuspections true now KV commitErr).2,
            c.claimed = (KV c.node).map fun t => t.ClaimDead.1))
    ∧ QueueInv (e.ClearSuspections true now KV commitErr).1
    ∧ (∀ (h : suspectionQueue) (x : Ptr), HeapOrdered h h.q.length →
        HeapOrdered (heapPush h x) (heapPush h x).q.length)
    ∧ (∀ (h : suspectionQueue) (i : Nat) (r : Ptr × suspectionQueue),
        HeapOrdered h h.q.length → heapRemove h i = some r → HeapOrdered r.2 r.2.q.length)
    ∧ (∀ h : suspectionQueue, 0 < h.q.length → HeapOrdered h h.q.length →
        HeapOrdered (heapPop h).2 (heapPop h).2.q.length)
    ∧ (∀ (bits : CounterBits) (e0 : EngineInstance) (m0 : FailureDetectorMetricIncrement)
        (l : List EngineStep), e0.suspectionQueue.q = [] → e0.suspectionNodeIndex = [] →
        ∃ s, EngineRun.steps bits ⟨e0, m0⟩ l = some s ∧ QueueInv s.e) := by
  obtain ⟨a1, a2, removed, a3, a4, a6, a5⟩ := clearSuspections_order e now KV commitErr hinv
  refine ⟨a2, fun n p h => a2 p (a1.2.2.2 n p h).1,
    ⟨removed, a3, a4, a6, ?_, ?_, ?_⟩, a1,
    fun h x ho => heapPush_heap h x ho,
    fun h i r ho hr => heapRemove_heap h i r ho hr,
    fun h hl ho => (heapPop_spec h hl ho).2.2.2.1,
    fun bits e0 m0 l hq hi => steps_queueInv_empty bits e0 m0 l hq hi⟩
  · rw [a5]
    obtain ⟨rest, b1, b2, b3, b4⟩ := claimDeads_exact KV commitErr
      (removed.map fun p => (e.suspectionQueue.mem p).node)
    refine ⟨rest, b1, b2, b3, fun hne => b4 ?_⟩
    simpa using hne
  · intro h
    rw [a5]
    exact claimDeads_all KV commitErr _ (fun n hn => by
      obtain ⟨p, hp, rfl⟩ := List.mem_map.mp hn
      exact h p hp)
  · rw [a5]; exact claimDeads_claimed KV commitErr _

/-- Witness of C15 as amended: the sample engine at now = 15 loses the
suspicion that expired at 10, keeps the one expiring at 20, and claims node
101 dead. -/
theorem C15_clearSuspections_witness :
    (sampleEngine.ClearSuspections true 15 suspectedKV fun _ => false).1.suspectionQueue.q = [2]
    ∧ (sampleEngine.ClearSuspections true 15 suspectedKV fun _ => false).2
        = [{ node := 101, claimed := some true }]
    ∧ ∀ p ∈ (sampleEngine.ClearSuspections true 15 suspectedKV fun _ => false).1.suspectionQueue.q,
        ¬ ((sampleEngine.ClearSuspections true 15 suspectedKV fun _ => false).1.suspectionQueue.mem
            p).notAfter < 15 :=
  ⟨by decide, by decide,
    (C15_clearSuspections sampleEngine 15 suspectedKV (fun _ => false) sampleEngine_queueInv).1⟩

/-- Claim C21.  `Node._set`, run without interleaving and with at least one
test of its loop condition: with no entry under the key (absent or nil) and
no validator registered for it, it returns ErrValidatorMissing; when the
validator that applies (the registered one for a key without entry, the
entry's own for an existing entry) rejects the pair, it returns
ErrInvalidKeyValue; whenever it returns an error the node is exactly as it
was and no event was emitted; whenever it returns nil the entry under the key
holds the given key and value, every other key being as it was.  When the
validator accepts the pair for an absent key or an existing entry, the entry
is written and `n.keyValueRealEntries(true)` is evaluated for the watchers:
the call returns nil when the map holds no nil entry under another key, and
panics, the entry being written, when it holds one; a panic happens in no
other case. -/
theorem C21_set_atomic_on_error (fuel : Nat) (n : SladderNode) (key value : GoString) :
    ((mapGet n.kvs key).join = none → mapGet n.validators key = none →
      SladderNode._set (fuel + 1) n key value
        = some (SetOutcome.returned (some SladderError.ErrValidatorMissing) n none))
    ∧ (∀ v, (mapGet n.kvs key).join = none → mapGet n.validators key = some v →
        v ⟨key, value⟩ = false →
        SladderNode._set (fuel + 1) n key value
          = some (SetOutcome.returned (some SladderError.ErrInvalidKeyValue) n none))
    ∧ (∀ e, mapGet n.kvs key = some (some e) → e.validator ⟨key, value⟩ = false →
        SladderNode._set (fuel + 1) n key value
          = some (SetOutcome.returned (some SladderError.ErrInvalidKeyValue) n none))
    ∧ (∀ o, SladderNode._set fuel n key value = some o →
        (∀ err n1 ev, o = SetOutcome.returned (some err) n1 ev → n1 = n ∧ ev = none)
        ∧ (∀ n1 ev, o = SetOutcome.returned none n1 ev →
            ((∃ e, mapGet n1.kvs key = some (some e) ∧ e.entry.KeyValue = ⟨key, value⟩)
              ∧ (∀ k, k ≠ key → mapGet n1.kvs k = mapGet n.kvs k)
              ∧ n1.validators = n.validators)
            ∧ (∀ p ∈ n.kvs, p.1 ≠ key → p.2 ≠ none) ∧ ev ≠ none)
        ∧ (∀ n1, o = SetOutcome.panicked n1 →
            ((∃ e, mapGet n1.kvs key = some (some e) ∧ e.entry.KeyValue = ⟨key, value⟩)
              ∧ (∀ k, k ≠ key → mapGet n1.kvs k = mapGet n.kvs k)
              ∧ n1.validators = n.validators)
            ∧ ∃ p ∈ n.kvs, p.1 ≠ key ∧ p.2 = none))
    ∧ (∀ v, mapGet n.kvs key = none → mapGet n.validators key = some v →
        v ⟨key, value⟩ = true →
        ((∀ p ∈ n.kvs, p.1 ≠ key → p.2 ≠ none) →
          ∃ n1 ev, SladderNode._set (fuel + 1) n key value
              = some (SetOutcome.returned none n1 (some ev))
            ∧ Written n n1 key value)
        ∧ ((∃ p ∈ n.kvs, p.1 ≠ key ∧ p.2 = none) →
          ∃ n1, SladderNode._set (fuel + 1) n key value = some (SetOutcome.panicked n1)
            ∧ Written n n1 key value))
    ∧ (∀ e, mapGet n.kvs key = some (some e) → e.validator ⟨key, value⟩ = true →
        ((∀ p ∈ n.kvs, p.1 ≠ key → p.2 ≠ none) →
          ∃ n1 ev, SladderNode._set (fuel + 1) n key value
              = some (SetOutcome.returned none n1 (some ev))
            ∧ Written n n1 key value)
        ∧ ((∃ p ∈ n.kvs, p.1 ≠ key ∧ p.2 = none) →
          ∃ n1, SladderNode._set (fuel + 1) n key value = some (SetOutcome.panicked n1)
            ∧ Written n n1 key value)) := by
  have hc := set_cases fuel n key value
  exact ⟨hc.1, hc.2.1, hc.2.2.1, fun o ho => set_result fuel n key value o ho,
    fun v h1 h2 h3 => set_accept fuel n key value _ _ rfl (hc.2.2.2.1 v h1 h2 h3),
    fun e h1 h2 => set_accept fuel n key value _ _ rfl (hc.2.2.2.2 e h1 h2)⟩

/-- Claim C22.  From an engine whose suspicion queue and node index are empty,
every sequence of calls (`_traceSuspections`, `_clearNodeFromFailureDetector`
and `ClearSuspections`, and the ping handlers as well) runs to its end, no
`heap.Remove` being given a bad position, and leaves as many entries in
`suspectionNodeIndex` as `suspectionQueue.Len()`, every record at position
`i` of the queue with `queueIndex = i`, and the index mapping the node of
every queued record to that same record. -/
theorem C22_suspicion_queue_consistent (bits : CounterBits) (e0 : EngineInstance)
    (m0 : FailureDetectorMetricIncrement) (l : List EngineStep)
    (hq : e0.suspectionQueue.q = []) (hi : e0.suspectionNodeIndex = []) :
    ∃ s, EngineRun.steps bits ⟨e0, m0⟩ l = some s
      ∧ s.e.suspectionNodeIndex.length = s.e.suspectionQueue.Len
      ∧ (∀ i, i < s.e.suspectionQueue.Len →
          (s.e.suspectionQueue.mem (s.e.suspectionQueue.q.getD i 0)).queueIndex = i)
      ∧ (∀ p ∈ s.e.suspectionQueue.q,
          mapGet s.e.suspectionNodeIndex (s.e.suspectionQueue.mem p).node = some p) :=
  steps_queue_consistent bits e0 m0 l hq hi

/-- Witness of C22: the idle sample engine, nodes 1, 2 and 3 suspected in
turn, node 1 cleared from the detector, node 2 back alive, then an expiry
pass. -/
theorem C22_suspicion_queue_consistent_witness :
    idleEngine.suspectionQueue.q = [] ∧ idleEngine.suspectionNodeIndex = []
    ∧ ∃ s, EngineRun.steps ⟨32, 32, 64, 64⟩ ⟨idleEngine, {}⟩
          [EngineStep._traceSuspections 5 1 SUSPECTED,
            EngineStep._traceSuspections 3 2 SUSPECTED,
            EngineStep._traceSuspections 1 3 SUSPECTED,
            EngineStep._clearNodeFromFailureDetector 1,
            EngineStep._traceSuspections 7 2 ALIVE,
            EngineStep.ClearSuspections true 20000 suspectedKV fun _ => false] = some s
        ∧ s.e.suspectionNodeIndex.length = s.e.suspectionQueue.Len
        ∧ (∀ i, i < s.e.suspectionQueue.Len →
            (s.e.suspectionQueue.mem (s.e.suspectionQueue.q.getD i 0)).queueIndex = i)
        ∧ (∀ p ∈ s.e.suspectionQueue.q,
            mapGet s.e.suspectionNodeIndex (s.e.suspectionQueue.mem p).node = some p) :=
  ⟨rfl, rfl,
    C22_suspicion_queue_consistent ⟨32, 32, 64, 64⟩ idleEngine {}
      [EngineStep._traceSuspections 5 1 SUSPECTED,
        EngineStep._traceSuspections 3 2 SUSPECTED,
        EngineStep._traceSuspections 1 3 SUSPECTED,
        EngineStep._clearNodeFromFailureDetector 1,
        EngineStep._traceSuspections 7 2 ALIVE,
        EngineStep.ClearSuspections true 20000 suspectedKV fun _ => false] rfl rfl⟩

/-- Claim C23.  From an engine with empty `inPing` and zero counters, after
every sequence of calls (`ping`, `onPingReq`, `onPingAck`,
`processPingTimeout`, `processPingReqTimeout`,
`_clearNodeFromFailureDetector`, each run without interleaving, and the
suspicion calls as well) that runs to its end, the accumulated `Ping` counter
is the number of nodes in `inPing` at the width of the counter, hence that
number itself whenever it fits the counter, and `inPing` holds no target
twice; and the run does reach its end when the suspicion queue and index
start empty. -/
theorem C23_ping_metric_tracks_inPing (bits : CounterBits) (e0 : EngineInstance)
    (l : List EngineStep) (h0 : e0.inPing = []) :
    (∀ s, EngineRun.steps bits ⟨e0, {}⟩ l = some s →
      s.metrics.Ping = s.e.inPing.length % 2 ^ bits.Ping
      ∧ (s.e.inPing.length < 2 ^ bits.Ping → s.metrics.Ping = s.e.inPing.length)
      ∧ (s.e.inPing.map Prod.fst).Nodup)
    ∧ (e0.suspectionQueue.q = [] → e0.suspectionNodeIndex = [] →
        ∃ s, EngineRun.steps bits ⟨e0, {}⟩ l = some s) :=
  steps_ping_metric bits e0 l h0

/-- Witness of C23: on the idle sample engine, a probe of node 1, a proxy
request for the same node, its ping timeout, its ack, a probe of node 2 and
the removal of node 2. -/
theorem C23_ping_metric_tracks_inPing_witness :
    idleEngine.inPing = []
    ∧ ((∀ s, EngineRun.steps ⟨32, 32, 64, 64⟩ ⟨idleEngine, {}⟩
          [EngineStep.ping 7 0 (some 1) none,
            EngineStep.onPingReq 8 1 [ascii "c"] (some ⟨9, [ascii "b"]⟩),
            EngineStep.processPingTimeout [2] (some 1),
            EngineStep.onPingAck 5 [ascii "b"] [],
            EngineStep.ping 9 6 (some 2) none,
            EngineStep._clearNodeFromFailureDetector 2] = some s →
        s.metrics.Ping = s.e.inPing.length % 2 ^ 32
        ∧ (s.e.inPing.length < 2 ^ 32 → s.metrics.Ping = s.e.inPing.length)
        ∧ (s.e.inPing.map Prod.fst).Nodup)
      ∧ (idleEngine.suspectionQueue.q = [] → idleEngine.suspectionNodeIndex = [] →
          ∃ s, EngineRun.steps ⟨32, 32, 64, 64⟩ ⟨idleEngine, {}⟩
            [EngineStep.ping 7 0 (some 1) none,
              EngineStep.onPingReq 8 1 [ascii "c"] (some ⟨9, [ascii "b"]⟩),
              EngineStep.processPingTimeout [2] (some 1),
              EngineStep.onPingAck 5 [ascii "b"] [],
              EngineStep.ping 9 6 (some 2) none,
              EngineStep._clearNodeFromFailureDetector 2] = some s)) :=
  ⟨rfl,
    C23_ping_metric_tracks_inPing ⟨32, 32, 64, 64⟩ idleEngine
      [EngineStep.ping 7 0 (some 1) none,
        EngineStep.onPingReq 8 1 [ascii "c"] (some ⟨9, [ascii "b"]⟩),
        EngineStep.processPingTimeout [2] (some 1),
        EngineStep.onPingAck 5 [ascii "b"] [],
        EngineStep.ping 9 6 (some 2) none,
        EngineStep._clearNodeFromFailureDetector 2] rfl⟩

/-- Claim C24, refuted on the code.  On the idle sample engine: after `ping`
of node 1 the accumulated `PingIndirect` is 0; after `processPingTimeout`
with the one proxy 2 it is 1, the sum of `indirects`; after the ack of node 1
(`onPingAck`) `inPing` is empty, so the sum of `indirects` is 0, yet
`PingIndirect` is still 1.  Had the probe ended by `processPingReqTimeout`
instead, the counter would be back at 0. -/
theorem C24_ack_leaves_pingIndirect_raised :
    ((EngineRun.steps ⟨32, 32, 64, 64⟩ ⟨idleEngine, {}⟩
        [EngineStep.ping 7 0 (some 1) none]).map fun s =>
          (s.metrics.PingIndirect, sumIndirects s.e.inPing)) = some (0, 0)
    ∧ ((EngineRun.steps ⟨32, 32, 64, 64⟩ ⟨idleEngine, {}⟩
        [EngineStep.ping 7 0 (some 1) none, EngineStep.processPingTimeout [2] (some 1)]).map
          fun s => (s.metrics.PingIndirect, sumIndirects s.e.inPing)) = some (1, 1)
    ∧ ((EngineRun.steps ⟨32, 32, 64, 64⟩ ⟨idleEngine, {}⟩
        [EngineStep.ping 7 0 (some 1) none, EngineStep.processPingTimeout [2] (some 1),
          EngineStep.onPingAck 5 [ascii "b"] []]).map
          fun s => (s.metrics.PingIndirect, sumIndirects s.e.inPing, s.e.inPing))
        = some (1, 0, [])
    ∧ ((EngineRun.steps ⟨32, 32, 64, 64⟩ ⟨idleEngine, {}⟩
        [EngineStep.ping 7 0 (some 1) none, EngineStep.processPingTimeout [2] (some 1),
          EngineStep.processPingReqTimeout suspectedKV 1]).map
          fun s => (s.metrics.PingIndirect, sumIndirects s.e.inPing, s.e.inPing))
        = some (0, 0, []) := by
  decide

/-- Claim C26.  For every transaction `t` that `SWIMTagValidator.Txn` returns
on a key-value `x` and every finite sequence of `ClaimDead`,
`ClaimSuspected`, `ClaimAlive`, `Leave` and `SetRegion` calls on it, the
version of the tag stays equal to `OldVersion`, which no call changes; and
the value that `After()` encodes decodes to a tag whose version is the
version of the tag that `x.Value` decodes to. -/
theorem C26_version_is_never_changed (x : KeyValue) (t : SWIMTagTxn) (cs : List TxnCall)
    (h : SWIMTagValidator.Txn x = some t) :
    (t.calls cs).tag.Version = t.OldVersion ∧ (t.calls cs).OldVersion = t.OldVersion
    ∧ ∃ t0 t1, SWIMTag.Decode {} x.Value = some t0 ∧ t.OldVersion = t0.Version
        ∧ SWIMTag.Decode {} (t.calls cs).After.2 = some t1 ∧ t1.Version = t0.Version :=
  txn_calls_version x t cs h

/-- Witness of C26: the transaction opened on `{"v":7,"s":1}`, then
`ClaimAlive`, `SetRegion` with the invalid byte `0xFF`, `ClaimDead`. -/
theorem C26_version_is_never_changed_witness :
    SWIMTagValidator.Txn ⟨ascii "swim", ascii "\x7b\"v\":7,\"s\":1\x7d"⟩
        = some { tag := { Version := 7, State := SUSPECTED }, OldVersion := 7 }
    ∧ ((SWIMTagTxn.calls { tag := { Version := 7, State := SUSPECTED }, OldVersion := 7 }
          [TxnCall.ClaimAlive, TxnCall.SetRegion [0xFF], TxnCall.ClaimDead]).tag.Version = 7
      ∧ (SWIMTagTxn.calls { tag := { Version := 7, State := SUSPECTED }, OldVersion := 7 }
          [TxnCall.ClaimAlive, TxnCall.SetRegion [0xFF], TxnCall.ClaimDead]).OldVersion = 7
      ∧ ∃ t0 t1, SWIMTag.Decode {} (ascii "\x7b\"v\":7,\"s\":1\x7d") = some t0
          ∧ 7 = t0.Version
          ∧ SWIMTag.Decode {}
              (SWIMTagTxn.calls { tag := { Version := 7, State := SUSPECTED }, OldVersion := 7 }
                [TxnCall.ClaimAlive, TxnCall.SetRegion [0xFF], TxnCall.ClaimDead]).After.2
              = some t1
          ∧ t1.Version = t0.Version) :=
  ⟨by decide,
    C26_version_is_never_changed ⟨ascii "swim", ascii "\x7b\"v\":7,\"s\":1\x7d"⟩
      { tag := { Version := 7, State := SUSPECTED }, OldVersion := 7 }
      [TxnCall.ClaimAlive, TxnCall.SetRegion [0xFF], TxnCall.ClaimDead] (by decide)⟩

/-- Claim C27, refuted on the code.  `Validate` accepts the empty string, on
which `Txn` returns the decode error (empty input is no JSON); `Validate`
also accepts `{"v":-1}`, on which `Txn` fails as well. -/
theorem C27_validate_accepts_what_txn_rejects :
    SWIMTagValidator.Validate ⟨ascii "swim", []⟩ = true
    ∧ SWIMTagValidator.Txn ⟨ascii "swim", []⟩ = none
    ∧ SWIMTagValidator.Validate ⟨ascii "swim", ascii "\x7b\"v\":-1\x7d"⟩ = true
    ∧ SWIMTagValidator.Txn ⟨ascii "swim", ascii "\x7b\"v\":-1\x7d"⟩ = none := by
  decide

end Sladder
